import Mathlib

/-!
# Tape pulse codec: Acorn 1200 baud recogniser and TZX container decoder

A shallow embedding of `StaticAnalyser/Acorn/Tape.cpp` and
`Storage/Tape/Formats/TZX.cpp`, with the properties proved about them.

Conventions:
* C++ objects become structures; a member function becomes a function from the
  object state to a result and the new state.
* `uintN_t` values are `Nat` reduced modulo `2^N` where the source can wrap;
  `int` values are `Int`, with bitwise operators computed on the 32-bit
  two's-complement representation.
* An out-of-bounds `std::vector` access is a `Fault`.
-/

namespace Storage

/-- A duration `length / clock_rate` seconds (`Storage::Time`). -/
structure Time where
  length : Nat
  clock_rate : Nat
deriving DecidableEq, Repr

/-- The level of a pulse (`Storage::Tape::Tape::Pulse::Type`). -/
inductive PulseType where
  | High
  | Low
  | Zero
deriving DecidableEq, Repr

/-- A signal level held for a duration (`Storage::Tape::Tape::Pulse`). -/
structure Pulse where
  type : PulseType
  length : Time
deriving DecidableEq, Repr

end Storage

/-! ## 32-bit `int` bitwise arithmetic -/

/-- The two's-complement bit pattern of a C++ `int`. -/
def toU32 (x : Int) : Nat := (x % 4294967296).toNat

/-- The `int` whose two's-complement bit pattern is `n`. -/
def ofU32 (n : Nat) : Int :=
  if n % 4294967296 < 2147483648 then ((n % 4294967296 : Nat) : Int)
  else ((n % 4294967296 : Nat) : Int) - 4294967296

/-- The C++ expression `a | b` on `int`. -/
def int_or (a b : Int) : Int := ofU32 (toU32 a ||| toU32 b)

/-- The C++ expression `a << k` on `int` (two's-complement wrap). -/
def int_shl (a : Int) (k : Nat) : Int := ofU32 (toU32 a <<< k)

namespace StaticAnalyser.Acorn

open Storage

/-- The classification of one pulse (`enum class WaveType`). -/
inductive WaveType where
  | Short
  | Long
  | Unrecognised
deriving DecidableEq, Repr

/-- A decoded bit (`enum class SymbolType`). -/
inductive SymbolType where
  | One
  | Zero
deriving DecidableEq, Repr

/-- Modelled from the spec: the tape source interface (`Storage::Tape::Tape`, whose
declaration is not among the sources) is a sequential, pull-based supplier of
pulses with an end-of-data flag. It is the list of pulses still to be delivered:
`is_at_end` holds when none is left and `get_next_pulse` removes the first.

The fields of `Acorn1200BaudTapeParser` (with those of its base `TapeParser`). -/
structure Parser where
  tape : List Pulse
  wave_queue : List WaveType
  next_symbol : SymbolType
  has_next_symbol : Bool
  error_flag : Bool
  crc : Nat
deriving DecidableEq, Repr

namespace Parser

/-- `TapeParser::is_at_end`. -/
def is_at_end (p : Parser) : Bool := p.tape.isEmpty

/-- `TapeParser::reset_error_flag`. -/
def reset_error_flag (p : Parser) : Parser := { p with error_flag := false }

/-- `TapeParser::get_error_flag`. -/
def get_error_flag (p : Parser) : Bool := p.error_flag

/-- `TapeParser::remove_waves`: erase the first `number_of_waves` waves. -/
def remove_waves (number_of_waves : Nat) (p : Parser) : Parser :=
  { p with wave_queue := p.wave_queue.drop number_of_waves }

/-- `TapeParser::push_symbol`. -/
def push_symbol (symbol : SymbolType) (number_of_waves : Nat) (p : Parser) : Parser :=
  remove_waves number_of_waves { p with has_next_symbol := true, next_symbol := symbol }

/-- `Acorn1200BaudTapeParser::inspect_waves`. The leading `while` returns inside
its first iteration, so it is a conditional. -/
def inspect_waves (p : Parser) : Parser :=
  match p.wave_queue with
  | WaveType.Unrecognised :: _ => remove_waves 1 p
  | WaveType.Long :: WaveType.Long :: _ => push_symbol SymbolType.Zero 2 p
  | WaveType.Short :: WaveType.Short :: WaveType.Short :: WaveType.Short :: _ =>
      push_symbol SymbolType.One 4 p
  | _ => p

/-- `TapeParser::push_wave`. -/
def push_wave (wave : WaveType) (p : Parser) : Parser :=
  inspect_waves { p with wave_queue := p.wave_queue ++ [wave] }

/-- The duration test `lo / freq <= length < hi / freq` of `process_pulse`, with
`lo = 0.35` and `hi = 0.7`, on the exact value `length / clock_rate` (the source
compares the value rounded to a `float`). -/
def in_window (t : Time) (freq : Nat) : Bool :=
  decide (35 * t.clock_rate ≤ t.length * (100 * freq)) &&
  decide (t.length * (10 * freq) < 7 * t.clock_rate)

/-- The waveform `process_pulse` pushes for a pulse, with the duration test of
`in_window` on the exact duration: at the four bounds of the windows the source,
which compares a `float`, can decide otherwise. -/
def classify (pulse : Pulse) : WaveType :=
  match pulse.type with
  | PulseType.Zero => WaveType.Unrecognised
  | _ =>
    if in_window pulse.length 2400 then WaveType.Short
    else if in_window pulse.length 1200 then WaveType.Long
    else WaveType.Unrecognised

/-- `Acorn1200BaudTapeParser::process_pulse`. -/
def process_pulse (pulse : Pulse) (p : Parser) : Parser :=
  push_wave (classify pulse) p

/-- The loop of `TapeParser::get_next_symbol`, on the pulses left on the tape:
`while(!_has_next_symbol && !is_at_end()) process_pulse(_tape->get_next_pulse())`. -/
def pull_pulses : List Pulse → Parser → Parser
  | [], p => { p with tape := [] }
  | pulse :: rest, p =>
    if p.has_next_symbol then { p with tape := pulse :: rest }
    else pull_pulses rest (process_pulse pulse { p with tape := rest })

/-- `TapeParser::get_next_symbol`. -/
def get_next_symbol (p : Parser) : SymbolType × Parser :=
  let p1 := pull_pulses p.tape p
  (p1.next_symbol, { p1 with has_next_symbol := false })

/-- `Acorn1200BaudTapeParser::get_next_bit`. -/
def get_next_bit (p : Parser) : Nat × Parser :=
  let r := get_next_symbol p
  (if r.1 = SymbolType.One then 1 else 0, r.2)

/-- One round of the CRC loop of `add_to_crc`. -/
def crc_shift (crc : Nat) : Nat :=
  let exclusive_or := if crc &&& 0x8000 ≠ 0 then 0x1021 else 0x0000
  ((crc <<< 1) % 65536) ^^^ exclusive_or

/-- The CRC register after `Acorn1200BaudTapeParser::add_to_crc(value)`. -/
def crc_add (crc value : Nat) : Nat :=
  crc_shift^[8] ((crc ^^^ ((value % 256) <<< 8)) % 65536)

/-- `Acorn1200BaudTapeParser::add_to_crc`. -/
def add_to_crc (value : Nat) (p : Parser) : Parser :=
  { p with crc := crc_add p.crc value }

/-- `Acorn1200BaudTapeParser::reset_crc`. -/
def reset_crc (p : Parser) : Parser := { p with crc := 0 }

/-- `Acorn1200BaudTapeParser::get_crc`. -/
def get_crc (p : Parser) : Nat := p.crc

/-- The data-bit loop of `get_next_byte`: `c` more rounds of
`value = (value >> 1) | (get_next_bit() << 7)`. -/
def get_data_bits : Nat → Nat → Parser → Nat × Parser
  | 0, value, p => (value, p)
  | c + 1, value, p =>
    let r := get_next_bit p
    get_data_bits c ((value >>> 1) ||| (r.1 <<< 7)) r.2

/-- `Acorn1200BaudTapeParser::get_next_byte`. -/
def get_next_byte (p : Parser) : Int × Parser :=
  let start := get_next_bit p
  if start.1 ≠ 0 then (-1, { start.2 with error_flag := true })
  else
    let body := get_data_bits 8 0 start.2
    let stop := get_next_bit body.2
    if stop.1 = 0 then (-1, { stop.2 with error_flag := true })
    else ((body.1 : Int), add_to_crc body.1 stop.2)

/-- `Acorn1200BaudTapeParser::get_next_short`. -/
def get_next_short (p : Parser) : Int × Parser :=
  let r0 := get_next_byte p
  let r1 := get_next_byte r0.2
  (int_or r0.1 (int_shl r1.1 8), r1.2)

/-- `Acorn1200BaudTapeParser::get_next_word`. -/
def get_next_word (p : Parser) : Int × Parser :=
  let r0 := get_next_short p
  let r1 := get_next_short r0.2
  (int_or r0.1 (int_shl r1.1 8), r1.2)

end Parser

end StaticAnalyser.Acorn

namespace Storage

/-- One byte of a file. -/
abbrev Byte := Fin 256

/-- Modelled from the spec: the byte-addressable file handle `FileHolder`, whose
source is not among the sources: the contents of the file, the read position and
the end-of-file indicator, which a read past the last byte sets and a seek
clears. -/
structure FileHolder where
  data : List Byte
  pos : Nat
  eof_flag : Bool
deriving DecidableEq, Repr

namespace FileHolder

/-- Modelled from the spec: `FileHolder::get8`, the next byte of the file; at the
end of the file the result is `0xff` (the `EOF` of `fgetc` cast to a byte) and
the end-of-file indicator is set. -/
def get8 (f : FileHolder) : Nat × FileHolder :=
  match f.data[f.pos]? with
  | some b => (b.val, { f with pos := f.pos + 1 })
  | none => (0xff, { f with eof_flag := true })

/-- Modelled from the spec: `FileHolder::get16le`, a little-endian composition of
two byte reads. -/
def get16le (f : FileHolder) : Nat × FileHolder :=
  let r0 := get8 f
  let r1 := get8 r0.2
  (r0.1 ||| (r1.1 <<< 8), r1.2)

/-- Modelled from the spec: `FileHolder::get24le`, a little-endian composition of
three byte reads. -/
def get24le (f : FileHolder) : Nat × FileHolder :=
  let r0 := get8 f
  let r1 := get8 r0.2
  let r2 := get8 r1.2
  (r0.1 ||| (r1.1 <<< 8) ||| (r2.1 <<< 16), r2.2)

/-- Modelled from the spec: `FileHolder::get32le`, a little-endian composition of
four byte reads. -/
def get32le (f : FileHolder) : Nat × FileHolder :=
  let r0 := get8 f
  let r1 := get8 r0.2
  let r2 := get8 r1.2
  let r3 := get8 r2.2
  (r0.1 ||| (r1.1 <<< 8) ||| (r2.1 <<< 16) ||| (r3.1 <<< 24), r3.2)

/-- Modelled from the spec: `FileHolder::eof`. -/
def eof (f : FileHolder) : Bool := f.eof_flag

/-- Modelled from the spec: `FileHolder::tell`. -/
def tell (f : FileHolder) : Nat := f.pos

/-- Modelled from the spec: `FileHolder::seek(offset, SEEK_SET)`. -/
def seek_set (offset : Nat) (f : FileHolder) : FileHolder :=
  { f with pos := offset, eof_flag := false }

/-- Modelled from the spec: `FileHolder::seek(offset, SEEK_CUR)`; a seek to before
the start of the file fails and changes nothing. -/
def seek_cur (offset : Int) (f : FileHolder) : FileHolder :=
  if (f.pos : Int) + offset < 0 then f
  else { f with pos := ((f.pos : Int) + offset).toNat, eof_flag := false }

/-- Modelled from the spec: `FileHolder::check_signature`, which reads as many
bytes as the signature has and compares them with it. -/
def check_signature (signature : List Nat) (f : FileHolder) : Bool × FileHolder :=
  let stored := (f.data.drop f.pos).take signature.length
  if stored.length ≠ signature.length then
    (false, { f with pos := f.pos + stored.length, eof_flag := true })
  else
    (decide (stored.map Fin.val = signature), { f with pos := f.pos + stored.length })

/-- Modelled from the spec: `FileHolder::BitStream`, the packed bit stream of a
generalised data block: the byte being unpacked and how many of its bits are
left. As obtained by `get_bitstream(false)` it delivers the most significant bit
of each byte first. -/
structure BitStream where
  next_value : Nat
  bits_remaining : Nat
deriving DecidableEq, Repr

/-- Modelled from the spec: `FileHolder::get_bitstream`. -/
def get_bitstream : BitStream := ⟨0, 0⟩

/-- Modelled from the spec: `BitStream::get_bit`, fetching a byte from the file
when the current one is used up. -/
def BitStream.get_bit (s : BitStream) (f : FileHolder) : Nat × BitStream × FileHolder :=
  let loaded : BitStream × FileHolder :=
    if s.bits_remaining = 0 then (⟨(get8 f).1, 8⟩, (get8 f).2) else (s, f)
  let bit := if loaded.1.next_value &&& 0x80 ≠ 0 then 1 else 0
  (bit, ⟨(loaded.1.next_value <<< 1) % 256, loaded.1.bits_remaining - 1⟩, loaded.2)

/-- Modelled from the spec: `BitStream::get_bits`, `q` bits composed most
significant first into a byte. -/
def BitStream.get_bits : Nat → Nat → BitStream → FileHolder → Nat × BitStream × FileHolder
  | 0, result, s, f => (result, s, f)
  | q + 1, result, s, f =>
    let r := s.get_bit f
    BitStream.get_bits q (((result <<< 1) ||| r.1) % 256) r.2.1 r.2.2

end FileHolder

namespace Tape

/-- `StandardTZXClock`. -/
def StandardTZXClock : Nat := 3500000

/-- `TZXClockMSMultiplier`. -/
def TZXClockMSMultiplier : Nat := 3500

/-- The exception the constructor of `TZX` throws. -/
inductive TZXError where
  | ErrorNotTZX
deriving DecidableEq, Repr

/-- How a decoding step can fail to return a decoder state: the symbol table of a
generalised data block is indexed at `index` although it has `size` entries, or
the step budget of the model ran out. -/
inductive Fault where
  | symbol_table_index (index size : Nat)
  | out_of_steps
deriving DecidableEq, Repr

/-- Modelled from the spec: the pulse queue and the end flag come from the base
class `PulseQueuedTape`, which is not among the sources: `clear` empties the
queue, `empty` tests it, `emplace_back` appends a pulse and `set_is_at_end` sets
the flag.

The fields of `TZX`. -/
structure TZX where
  file_ : FileHolder
  current_level_ : Bool
  pulses : List Pulse
  is_at_end : Bool
deriving DecidableEq, Repr

/-- A symbol of a generalised data block (`struct Symbol`). -/
structure Symbol where
  flags : Nat
  pulse_lengths : List Nat
deriving DecidableEq, Repr

/-- The timing of a data section (`TZX::Data`). -/
structure Data where
  length_of_zero_bit_pulse : Nat
  length_of_one_bit_pulse : Nat
  number_of_bits_in_final_byte : Nat
  pause_after_block : Nat
  data_length : Nat
deriving DecidableEq, Repr

/-- The timing of a data block with pilot and sync (`TZX::DataBlock`). -/
structure DataBlock where
  length_of_pilot_pulse : Nat
  length_of_sync_first_pulse : Nat
  length_of_sync_second_pulse : Nat
  length_of_pilot_tone : Nat
  data : Data
deriving DecidableEq, Repr

namespace TZX

/-- `TZX::post_pulse(const Storage::Time &)`. -/
def post_pulse_time (time : Time) (t : TZX) : TZX :=
  { t with
    pulses := t.pulses ++ [⟨if t.current_level_ then PulseType.High else PulseType.Low, time⟩]
    current_level_ := !t.current_level_ }

/-- `TZX::post_pulse(unsigned int)`. -/
def post_pulse (length : Nat) (t : TZX) : TZX :=
  post_pulse_time ⟨length, StandardTZXClock⟩ t

/-- `TZX::post_gap`. -/
def post_gap (milliseconds : Nat) (t : TZX) : TZX :=
  if milliseconds = 0 then t
  else if milliseconds > 1 && !t.current_level_ then
    post_pulse_time ⟨((milliseconds - 1) * TZXClockMSMultiplier) % 4294967296, StandardTZXClock⟩
      (post_pulse_time ⟨TZXClockMSMultiplier, StandardTZXClock⟩ t)
  else
    post_pulse_time ⟨(milliseconds * TZXClockMSMultiplier) % 4294967296, StandardTZXClock⟩ t

/-- `TZX::virtual_reset`. -/
def virtual_reset (t : TZX) : TZX :=
  post_gap 500
    { file_ := t.file_.seek_set 0x0a
      current_level_ := false
      pulses := []
      is_at_end := false }

/-- The signature `"ZXTape!"`. -/
def signature : List Nat := [0x5a, 0x58, 0x54, 0x61, 0x70, 0x65, 0x21]

/-- `TZX::TZX`, on the contents of the file it opens. -/
def create (contents : List Byte) : Except TZXError TZX :=
  let sig := FileHolder.check_signature signature ⟨contents, 0, false⟩
  if !sig.1 then Except.error TZXError.ErrorNotTZX
  else
    let sentinel := sig.2.get8
    if sentinel.1 ≠ 0x1a then Except.error TZXError.ErrorNotTZX
    else
      let major_version := sentinel.2.get8
      let minor_version := major_version.2.get8
      if major_version.1 ≠ 1 || minor_version.1 > 20 then Except.error TZXError.ErrorNotTZX
      else Except.ok (virtual_reset ⟨minor_version.2, false, [], false⟩)

/-- The `c` reads of the pulse-length loop of one symbol definition. -/
def read_pulse_lengths : Nat → FileHolder → List Nat × FileHolder
  | 0, f => ([], f)
  | ic + 1, f =>
    let r := f.get16le
    let rest := read_pulse_lengths ic r.2
    (r.1 :: rest.1, rest.2)

/-- The loop of `get_generalised_segment` that constructs the symbol table. -/
def read_symbol_table : Nat → Nat → FileHolder → List Symbol × FileHolder
  | 0, _, f => ([], f)
  | c + 1, max_pulses_per_symbol, f =>
    let flags := f.get8
    let lengths := read_pulse_lengths max_pulses_per_symbol flags.2
    let rest := read_symbol_table c max_pulses_per_symbol lengths.2
    (⟨flags.1, lengths.1⟩ :: rest.1, rest.2)

/-- The loop `while(base < number_of_symbols) { base <<= 1; bits++; }`, bounded by
a number of rounds. -/
def symbol_bits_loop : Nat → Nat → Nat → Nat → Nat
  | 0, _, bits, _ => bits
  | rounds + 1, base, bits, number_of_symbols =>
    if base < number_of_symbols then
      symbol_bits_loop rounds (base <<< 1) (bits + 1) number_of_symbols
    else bits

/-- The width in bits of a data symbol in `get_generalised_segment`; `base` starts
at 2 and doubles, so `number_of_symbols` rounds are more than the loop can take. -/
def symbol_bits (number_of_symbols : Nat) : Nat :=
  symbol_bits_loop number_of_symbols 2 1 number_of_symbols

/-- The `switch(symbol.flags & 3)` of `get_generalised_segment`. -/
def mutate_level (flags : Nat) (t : TZX) : TZX :=
  match flags &&& 3 with
  | 0 => t
  | 1 => { t with current_level_ := !t.current_level_ }
  | 2 => { t with current_level_ := true }
  | _ => { t with current_level_ := false }

/-- The loop over `symbol.pulse_lengths` of `get_generalised_segment`, which a zero
length ends. -/
def output_waves : List Nat → TZX → TZX
  | [], t => t
  | length :: rest, t =>
    if length = 0 then t else output_waves rest (post_pulse length t)

/-- The loop `while(count--)` of `get_generalised_segment`. -/
def output_symbol (symbol : Symbol) : Nat → TZX → TZX
  | 0, t => t
  | count + 1, t =>
    output_symbol symbol count (output_waves symbol.pulse_lengths (mutate_level symbol.flags t))

/-- The reading of `symbol_value` and `count` in `get_generalised_segment`. -/
def read_symbol_value (is_data : Bool) (bits : Nat) (stream : FileHolder.BitStream) (t : TZX) :
    Nat × Nat × FileHolder.BitStream × TZX :=
  if is_data then
    let r := FileHolder.BitStream.get_bits bits 0 stream t.file_
    (r.1, 1, r.2.1, { t with file_ := r.2.2 })
  else
    let v := t.file_.get8
    let c := v.2.get16le
    (v.1, c.1, stream, { t with file_ := c.2 })

/-- The output loop of `get_generalised_segment`, with `c` symbols still to go. The
guard is the source's `symbol_value > number_of_symbols`; the access
`symbol_table[symbol_value]` that follows is a fault when outside the table. -/
def output_symbols_loop (symbol_table : List Symbol) (number_of_symbols bits : Nat)
    (is_data : Bool) : Nat → FileHolder.BitStream → TZX → Except Fault TZX
  | 0, _, t => Except.ok t
  | c + 1, stream, t =>
    let r := read_symbol_value is_data bits stream t
    if r.1 > number_of_symbols then
      output_symbols_loop symbol_table number_of_symbols bits is_data c r.2.2.1 r.2.2.2
    else
      match symbol_table[r.1]? with
      | none => Except.error (Fault.symbol_table_index r.1 symbol_table.length)
      | some symbol =>
        output_symbols_loop symbol_table number_of_symbols bits is_data c r.2.2.1
          (output_symbol symbol r.2.1 r.2.2.2)

/-- `TZX::get_generalised_segment`. -/
def get_generalised_segment (output_symbols max_pulses_per_symbol number_of_symbols : Nat)
    (is_data : Bool) (t : TZX) : Except Fault TZX :=
  if output_symbols = 0 then Except.ok t
  else
    let table := read_symbol_table number_of_symbols max_pulses_per_symbol t.file_
    output_symbols_loop table.1 number_of_symbols (symbol_bits number_of_symbols) is_data
      output_symbols FileHolder.get_bitstream { t with file_ := table.2 }

/-- `TZX::get_generalised_data_block`. -/
def get_generalised_data_block (t : TZX) : Except Fault TZX :=
  let block_length := t.file_.get32le
  let endpoint := block_length.2.tell + block_length.1
  let pause_after_block := block_length.2.get16le
  let total_pilot_symbols := pause_after_block.2.get32le
  let maximum_pulses_per_pilot_symbol := total_pilot_symbols.2.get8
  let symbols_in_pilot_table := maximum_pulses_per_pilot_symbol.2.get8
  let total_data_symbols := symbols_in_pilot_table.2.get32le
  let maximum_pulses_per_data_symbol := total_data_symbols.2.get8
  let symbols_in_data_table := maximum_pulses_per_data_symbol.2.get8
  match get_generalised_segment total_pilot_symbols.1 maximum_pulses_per_pilot_symbol.1
      symbols_in_pilot_table.1 false { t with file_ := symbols_in_data_table.2 } with
  | Except.error e => Except.error e
  | Except.ok t1 =>
    match get_generalised_segment total_data_symbols.1 maximum_pulses_per_data_symbol.1
        symbols_in_data_table.1 true t1 with
    | Except.error e => Except.error e
    | Except.ok t2 =>
      let t3 := post_gap pause_after_block.1 t2
      Except.ok { t3 with file_ := t3.file_.seek_set endpoint }

/-- The loop `while(bits--)` of `get_data`. -/
def output_bits (data : Data) : Nat → Nat → TZX → TZX
  | 0, _, t => t
  | bits + 1, next_byte, t =>
    let pulse_length :=
      if next_byte &&& 0x80 ≠ 0 then data.length_of_one_bit_pulse
      else data.length_of_zero_bit_pulse
    output_bits data bits ((next_byte <<< 1) % 256)
      (post_pulse pulse_length (post_pulse pulse_length t))

/-- The loop over the data bytes of `get_data`, with `remaining` bytes still to
go; the byte read when one remains is the final byte. -/
def output_bytes (data : Data) : Nat → TZX → TZX
  | 0, t => t
  | remaining + 1, t =>
    let next_byte := t.file_.get8
    let bits := if remaining ≠ 0 then 8 else data.number_of_bits_in_final_byte
    output_bytes data remaining (output_bits data bits next_byte.1 { t with file_ := next_byte.2 })

/-- `TZX::get_data`. -/
def get_data (data : Data) (t : TZX) : TZX :=
  post_gap data.pause_after_block (output_bytes data data.data_length t)

/-- `n` calls of `post_pulse(length)`. -/
def post_pulses : Nat → Nat → TZX → TZX
  | 0, _, t => t
  | n + 1, length, t => post_pulses n length (post_pulse length t)

/-- `TZX::get_data_block`. -/
def get_data_block (data_block : DataBlock) (t : TZX) : TZX :=
  let t1 := post_pulses data_block.length_of_pilot_tone data_block.length_of_pilot_pulse t
  let t2 := post_pulse data_block.length_of_sync_first_pulse t1
  let t3 := post_pulse data_block.length_of_sync_second_pulse t2
  get_data data_block.data t3

/-- `TZX::get_standard_speed_data_block`. -/
def get_standard_speed_data_block (t : TZX) : TZX :=
  let pause_after_block := t.file_.get16le
  let data_length := pause_after_block.2.get16le
  if data_length.1 = 0 then { t with file_ := data_length.2 }
  else
    let first_byte := data_length.2.get8
    let length_of_pilot_tone := if first_byte.1 < 128 then 8063 else 3223
    get_data_block
      { length_of_pilot_pulse := 2168
        length_of_sync_first_pulse := 667
        length_of_sync_second_pulse := 735
        length_of_pilot_tone := length_of_pilot_tone
        data :=
          { length_of_zero_bit_pulse := 855
            length_of_one_bit_pulse := 1710
            number_of_bits_in_final_byte := 8
            pause_after_block := pause_after_block.1
            data_length := data_length.1 } }
      { t with file_ := first_byte.2.seek_cur (-1) }

/-- `TZX::get_turbo_speed_data_block`. -/
def get_turbo_speed_data_block (t : TZX) : TZX :=
  let length_of_pilot_pulse := t.file_.get16le
  let length_of_sync_first_pulse := length_of_pilot_pulse.2.get16le
  let length_of_sync_second_pulse := length_of_sync_first_pulse.2.get16le
  let length_of_zero_bit_pulse := length_of_sync_second_pulse.2.get16le
  let length_of_one_bit_pulse := length_of_zero_bit_pulse.2.get16le
  let length_of_pilot_tone := length_of_one_bit_pulse.2.get16le
  let number_of_bits_in_final_byte := length_of_pilot_tone.2.get8
  let pause_after_block := number_of_bits_in_final_byte.2.get16le
  let data_length := pause_after_block.2.get24le
  get_data_block
    { length_of_pilot_pulse := length_of_pilot_pulse.1
      length_of_sync_first_pulse := length_of_sync_first_pulse.1
      length_of_sync_second_pulse := length_of_sync_second_pulse.1
      length_of_pilot_tone := length_of_pilot_tone.1
      data :=
        { length_of_zero_bit_pulse := length_of_zero_bit_pulse.1
          length_of_one_bit_pulse := length_of_one_bit_pulse.1
          number_of_bits_in_final_byte := number_of_bits_in_final_byte.1
          pause_after_block := pause_after_block.1
          data_length := data_length.1 } }
    { t with file_ := data_length.2 }

/-- `TZX::get_pure_tone_data_block`. -/
def get_pure_tone_data_block (t : TZX) : TZX :=
  let length_of_pulse := t.file_.get16le
  let nunber_of_pulses := length_of_pulse.2.get16le
  post_pulses nunber_of_pulses.1 length_of_pulse.1 { t with file_ := nunber_of_pulses.2 }

/-- `TZX::get_pure_data_block`. -/
def get_pure_data_block (t : TZX) : TZX :=
  let length_of_zero_bit_pulse := t.file_.get16le
  let length_of_one_bit_pulse := length_of_zero_bit_pulse.2.get16le
  let number_of_bits_in_final_byte := length_of_one_bit_pulse.2.get8
  let pause_after_block := number_of_bits_in_final_byte.2.get16le
  let data_length := pause_after_block.2.get24le
  get_data
    { length_of_zero_bit_pulse := length_of_zero_bit_pulse.1
      length_of_one_bit_pulse := length_of_one_bit_pulse.1
      number_of_bits_in_final_byte := number_of_bits_in_final_byte.1
      pause_after_block := pause_after_block.1
      data_length := data_length.1 }
    { t with file_ := data_length.2 }

/-- The loop of `get_pulse_sequence`: `while(number_of_pulses--) post_pulse(file_.get16le())`. -/
def pulse_sequence_loop : Nat → TZX → TZX
  | 0, t => t
  | n + 1, t =>
    let length := t.file_.get16le
    pulse_sequence_loop n (post_pulse length.1 { t with file_ := length.2 })

/-- `TZX::get_pulse_sequence`. -/
def get_pulse_sequence (t : TZX) : TZX :=
  let number_of_pulses := t.file_.get8
  pulse_sequence_loop number_of_pulses.1 { t with file_ := number_of_pulses.2 }

/-- `TZX::get_pause`. -/
def get_pause (t : TZX) : TZX :=
  let duration := t.file_.get16le
  if duration.1 = 0 then { t with file_ := duration.2 }
  else post_gap duration.1 { t with file_ := duration.2 }

/-- `TZX::ignore_group_start`. -/
def ignore_group_start (t : TZX) : TZX :=
  let length := t.file_.get8
  { t with file_ := length.2.seek_cur length.1 }

/-- `TZX::ignore_group_end`. -/
def ignore_group_end (t : TZX) : TZX := t

/-- `TZX::ignore_jump_to_block`. -/
def ignore_jump_to_block (t : TZX) : TZX :=
  { t with file_ := t.file_.get16le.2 }

/-- `TZX::ignore_loop_start`. -/
def ignore_loop_start (t : TZX) : TZX :=
  { t with file_ := t.file_.get16le.2 }

/-- `TZX::ignore_loop_end`. -/
def ignore_loop_end (t : TZX) : TZX := t

/-- `TZX::ignore_call_sequence`. -/
def ignore_call_sequence (t : TZX) : TZX :=
  let number_of_entries := t.file_.get16le
  { t with file_ := number_of_entries.2.seek_cur (number_of_entries.1 * 2 : Nat) }

/-- `TZX::ignore_return_from_sequence`. -/
def ignore_return_from_sequence (t : TZX) : TZX := t

/-- `TZX::ignore_select_block`. -/
def ignore_select_block (t : TZX) : TZX :=
  let length_of_block := t.file_.get16le
  { t with file_ := length_of_block.2.seek_cur length_of_block.1 }

/-- `TZX::ignore_text_description`. -/
def ignore_text_description (t : TZX) : TZX :=
  let length := t.file_.get8
  { t with file_ := length.2.seek_cur length.1 }

/-- `TZX::ignore_message_block`. -/
def ignore_message_block (t : TZX) : TZX :=
  let time_for_display := t.file_.get8
  let length := time_for_display.2.get8
  { t with file_ := length.2.seek_cur length.1 }

/-- `TZX::get_hardware_type`. -/
def get_hardware_type (t : TZX) : TZX :=
  let number_of_machines := t.file_.get8
  { t with file_ := number_of_machines.2.seek_cur (number_of_machines.1 * 3 : Nat) }

/-- The `switch(chunk_id)` of `get_next_pulses`: the handler's result, or `none`
in the `default` case. -/
def dispatch (chunk_id : Nat) (t : TZX) : Option (Except Fault TZX) :=
  match chunk_id with
  | 0x10 => some (Except.ok (get_standard_speed_data_block t))
  | 0x11 => some (Except.ok (get_turbo_speed_data_block t))
  | 0x12 => some (Except.ok (get_pure_tone_data_block t))
  | 0x13 => some (Except.ok (get_pulse_sequence t))
  | 0x14 => some (Except.ok (get_pure_data_block t))
  | 0x19 => some (get_generalised_data_block t)
  | 0x20 => some (Except.ok (get_pause t))
  | 0x21 => some (Except.ok (ignore_group_start t))
  | 0x22 => some (Except.ok (ignore_group_end t))
  | 0x23 => some (Except.ok (ignore_jump_to_block t))
  | 0x24 => some (Except.ok (ignore_loop_start t))
  | 0x25 => some (Except.ok (ignore_loop_end t))
  | 0x26 => some (Except.ok (ignore_call_sequence t))
  | 0x27 => some (Except.ok (ignore_return_from_sequence t))
  | 0x28 => some (Except.ok (ignore_select_block t))
  | 0x30 => some (Except.ok (ignore_text_description t))
  | 0x31 => some (Except.ok (ignore_message_block t))
  | 0x33 => some (Except.ok (get_hardware_type t))
  | _ => none

/-- `TZX::get_next_pulses`, with a bound on the rounds of its `while(empty())`
loop; a loop still running when the bound is used up is `Fault.out_of_steps`. -/
def get_next_pulses : Nat → TZX → Except Fault TZX
  | 0, t => if t.pulses.isEmpty then Except.error Fault.out_of_steps else Except.ok t
  | rounds + 1, t =>
    if !t.pulses.isEmpty then Except.ok t
    else
      let chunk_id := t.file_.get8
      if chunk_id.2.eof then Except.ok { t with file_ := chunk_id.2, is_at_end := true }
      else
        match dispatch chunk_id.1 { t with file_ := chunk_id.2 } with
        | none => Except.ok { t with file_ := chunk_id.2, is_at_end := true }
        | some (Except.error e) => Except.error e
        | some (Except.ok t1) => get_next_pulses rounds t1

end TZX

end Tape

end Storage

namespace StaticAnalyser.Acorn

/-- The record decoded from one block of the tape (`File::Chunk`, whose declaration
is not among the sources; the fields are those `GetNextChunk` assigns).
`block_number` is a `uint16_t`. -/
structure Chunk where
  name : List Nat
  load_address : Nat
  execution_address : Nat
  block_number : Nat
  block_length : Nat
  block_flag : Nat
  next_address : Nat
  header_crc_matched : Bool
  data_crc_matched : Bool
  data : List Nat
deriving DecidableEq, Repr

/-- A reconstructed file (`File`; the fields are those `GetNextFile` assigns). -/
structure File where
  name : List Nat
  load_address : Nat
  execution_address : Nat
  is_protected : Bool
  data : List Nat
  chunks : List Chunk
deriving DecidableEq, Repr

/-- The first loop of `GetNextFile`:
`while(chunks.size() && chunks.front().block_number) chunks.pop_front()`. -/
def find_block_zero : List Chunk → List Chunk
  | [] => []
  | c :: cs => if c.block_number ≠ 0 then find_block_zero cs else c :: cs

/-- The second loop of `GetNextFile`, with the expected `block_number` (a
`uint16_t`) and the chunks of the file so far: `none` with the queue as it
stands when a block number does not match, else the chunks of the file and the
queue left. -/
def accumulate_chunks : List Chunk → Nat → List Chunk → Option (List Chunk) × List Chunk
  | [], _, file_chunks => (some file_chunks, [])
  | c :: cs, block_number, file_chunks =>
    if c.block_number ≠ block_number then (none, c :: cs)
    else if c.block_flag &&& 0x80 ≠ 0 then (some (file_chunks ++ [c]), cs)
    else accumulate_chunks cs ((block_number + 1) % 65536) (file_chunks ++ [c])

/-- The end of `GetNextFile`: the file made of the accumulated chunks. The list is
never empty there, as the queue was not. -/
def assemble_file : List Chunk → Option File
  | [] => none
  | first :: more =>
    some
      { name := first.name
        load_address := first.load_address
        execution_address := first.execution_address
        is_protected := decide (((first :: more).getLast (List.cons_ne_nil first more)).block_flag &&& 0x01 ≠ 0)
        data := ((first :: more).map Chunk.data).flatten
        chunks := first :: more }

/-- `GetNextFile`: the file returned (`none` for `nullptr`) and the queue left. -/
def GetNextFile (chunks : List Chunk) : Option File × List Chunk :=
  match find_block_zero chunks with
  | [] => (none, [])
  | c :: cs =>
    match accumulate_chunks (c :: cs) 0 [] with
    | (none, rest) => (none, rest)
    | (some file_chunks, rest) => (assemble_file file_chunks, rest)

/-- The loop of `GetFiles` that decomposes the chunk list into the file list,
`while(chunk_list.size())`, with a bound on its rounds: `none` when the bound is
used up with chunks left. -/
def decompose_into_files : Nat → List Chunk → List File → Option (List File)
  | _, [], file_list => some file_list
  | 0, _ :: _, _ => none
  | rounds + 1, c :: cs, file_list =>
    match GetNextFile (c :: cs) with
    | (some next_file, rest) => decompose_into_files rounds rest (file_list ++ [next_file])
    | (none, rest) => decompose_into_files rounds rest file_list

end StaticAnalyser.Acorn

/-! ## Vocabulary of the statements -/

namespace StaticAnalyser.Acorn

open Storage

namespace Parser

/-- The symbols returned by `n` successive calls of `get_next_symbol`, and the
parser they leave. -/
def get_next_symbols : Nat → Parser → List SymbolType × Parser
  | 0, p => ([], p)
  | n + 1, p =>
    let r := get_next_symbol p
    let rest := get_next_symbols n r.2
    (r.1 :: rest.1, rest.2)

/-- The symbol that stands for a bit. -/
def bit_symbol (b : Bool) : SymbolType := if b then SymbolType.One else SymbolType.Zero

/-- The ten symbols that frame the byte `v`: a start bit `Zero`, the eight bits of
`v` from the least significant, a stop bit `One`. -/
def byte_frame (v : Nat) : List SymbolType :=
  SymbolType.Zero ::
    (((List.range 8).map fun i => bit_symbol (v.testBit i)) ++ [SymbolType.One])

/-- The waveforms that encode a bit: two `Long` for 0, four `Short` for 1. -/
def encode_bit : Bool → List WaveType
  | false => [WaveType.Long, WaveType.Long]
  | true => [WaveType.Short, WaveType.Short, WaveType.Short, WaveType.Short]

/-- The waveforms that encode a bit sequence. -/
def encode_bits (bits : List Bool) : List WaveType := (bits.map encode_bit).flatten

/-- The waves pushed one at a time with `push_wave`, each symbol taken (as
`get_next_symbol` takes it) as soon as it is produced: every symbol taken, with
the number of waves that left the queue in the push that produced it, and the
parser at the end. -/
def push_waves : List WaveType → Parser → List (SymbolType × Nat) × Parser
  | [], p => ([], p)
  | wave :: rest, p =>
    let p1 := push_wave wave p
    if p1.has_next_symbol then
      let r := push_waves rest { p1 with has_next_symbol := false }
      ((p1.next_symbol, p.wave_queue.length + 1 - p1.wave_queue.length) :: r.1, r.2)
    else push_waves rest p1

/-- A pulse of half a cycle of the 2400 Hz tone. -/
def short_pulse : Pulse := ⟨PulseType.High, ⟨1, 4800⟩⟩

/-- A pulse of half a cycle of the 1200 Hz tone. -/
def long_pulse : Pulse := ⟨PulseType.Low, ⟨1, 2400⟩⟩

/-- The pulses of a symbol on tape. -/
def symbol_pulses : SymbolType → List Pulse
  | SymbolType.Zero => [long_pulse, long_pulse]
  | SymbolType.One => [short_pulse, short_pulse, short_pulse, short_pulse]

/-- The pulses of a sequence of framed bytes on tape. -/
def tape_of_bytes (bytes : List Nat) : List Pulse :=
  ((bytes.map byte_frame).flatten.map symbol_pulses).flatten

/-- A parser at the start of a tape. -/
def on_tape (tape : List Pulse) : Parser :=
  { tape := tape, wave_queue := [], next_symbol := SymbolType.Zero, has_next_symbol := false,
    error_flag := false, crc := 0 }

end Parser

end StaticAnalyser.Acorn

namespace StaticAnalyser.Acorn

/-- The polynomial over GF(2) that the bits of `n` stand for: the coefficient of
`x^i` is bit `i` of `n`. -/
noncomputable def bits_poly (n : Nat) : Polynomial (ZMod 2) :=
  if n = 0 then 0
  else Polynomial.C ((n % 2 : Nat) : ZMod 2) + Polynomial.X * bits_poly (n / 2)
termination_by n
decreasing_by omega

/-- The message polynomial of a byte sequence: the first byte in the highest
place, each byte most significant bit first. -/
noncomputable def message_poly (bytes : List Storage.Byte) : Polynomial (ZMod 2) :=
  bytes.foldl (fun m b => m * Polynomial.X ^ 8 + bits_poly b.val) 0

/-- The value of `get_crc` after `reset_crc` and then `add_to_crc` on each byte in
order. -/
def crc_of (bytes : List Storage.Byte) (p : Parser) : Nat :=
  (bytes.foldl (fun q b => Parser.add_to_crc b.val q) (Parser.reset_crc p)).get_crc

/-- A chunk of the given block number, flag and data, the other fields blank. -/
def numbered_chunk (block_number block_flag : Nat) (data : List Nat) : Chunk :=
  { name := [], load_address := 0, execution_address := 0, block_number := block_number,
    block_length := data.length, block_flag := block_flag, next_address := 0,
    header_crc_matched := true, data_crc_matched := true, data := data }

end StaticAnalyser.Acorn

namespace Storage.Tape.TZX

/-- The decoder once its consumer has taken every queued pulse. -/
def take_pulses (t : TZX) : TZX := { t with pulses := [] }

/-- The ten bytes of a version 1.20 header. -/
def header_1_20 : List Byte := [0x5a, 0x58, 0x54, 0x61, 0x70, 0x65, 0x21, 0x1a, 1, 20]

/-- A file of one generalised data block (type 0x19) whose pilot symbol table has
one entry, of one pulse of 100 ticks, and whose single pilot symbol has the
given index, repeated once; the block has no data symbols and no pause. -/
def file_with_pilot_symbol (index : Byte) : List Byte :=
  header_1_20 ++ [0x19, 20, 0, 0, 0, 0, 0, 1, 0, 0, 0, 1, 1, 0, 0, 0, 0, 0, 0] ++
    [0, 100, 0] ++ [index, 1, 0]

end Storage.Tape.TZX


namespace Storage.Tape.TZX

/-- The pulses of the given widths, in ticks of the TZX clock, at alternating
levels from `level`. -/
def alternating_pulses : Bool → List Nat → List Pulse
  | _, [] => []
  | level, width :: rest =>
    ⟨if level then PulseType.High else PulseType.Low, ⟨width, StandardTZXClock⟩⟩ ::
      alternating_pulses (!level) rest

/-- The level after pulses of the given widths from `level`: each pulse flips it. -/
def level_after (level : Bool) (widths : List Nat) : Bool :=
  if widths.length % 2 = 0 then level else !level

end Storage.Tape.TZX

namespace StaticAnalyser.Acorn

/-- A wave queue in which the reducer is stuck: the first waveform is `Long` and
the second is not, or the first is `Short` and one of the next three is not. -/
def stuck_queue (waves : List WaveType) : Prop :=
  (∃ second rest, waves = WaveType.Long :: second :: rest ∧ second ≠ WaveType.Long) ∨
    (∃ rest, waves = WaveType.Short :: rest ∧ ∃ w ∈ rest.take 3, w ≠ WaveType.Short)

end StaticAnalyser.Acorn

namespace Storage.Tape.TZX

/-- The handler of block type `chunk_id` skips `size` bytes: it returns a decoder
with the same pulse queue, level, end flag and file contents, the file position
moved on by `size`. -/
def skips_bytes (chunk_id size : Nat) (t : TZX) : Prop :=
  ∃ t1, dispatch chunk_id t = some (Except.ok t1) ∧ t1.pulses = t.pulses ∧
    t1.current_level_ = t.current_level_ ∧ t1.is_at_end = t.is_at_end ∧
    t1.file_.data = t.file_.data ∧ t1.file_.pos = t.file_.pos + size

end Storage.Tape.TZX

namespace Storage.Tape.TZX

/-- The decoder after pulses of the given widths have been posted in order. -/
def with_pulses (widths : List Nat) (t : TZX) : TZX :=
  { t with
    pulses := t.pulses ++ alternating_pulses t.current_level_ widths
    current_level_ := level_after t.current_level_ widths }

/-- The widths that the loop `while(bits--)` of `get_data` posts for `bits` bits of
`next_byte`, with the given widths for a 0 bit and a 1 bit. -/
def bit_widths (zero_width one_width : Nat) : Nat → Nat → List Nat
  | 0, _ => []
  | bits + 1, next_byte =>
    (if next_byte &&& 0x80 ≠ 0 then one_width else zero_width) ::
      (if next_byte &&& 0x80 ≠ 0 then one_width else zero_width) ::
        bit_widths zero_width one_width bits ((next_byte <<< 1) % 256)

/-- The pulse widths of a byte of a standard speed data block: for each of its 8
bits from the most significant, two pulses of 1710 ticks for a 1 and of 855 ticks
for a 0. -/
def byte_widths (d : Nat) : List Nat :=
  (List.range 8).flatMap fun i => if d.testBit (7 - i) then [1710, 1710] else [855, 855]

/-- The pulse widths of a standard speed data block up to its gap: the pilot tone,
8063 pulses of 2168 ticks when the top bit of the first data byte is clear and
3223 when it is set, the sync pulses of 667 and 735 ticks, then the data bytes. -/
def standard_block_widths (d0 : Byte) (more : List Byte) : List Nat :=
  List.replicate (if d0.val.testBit 7 then 3223 else 8063) 2168 ++ [667, 735] ++
    (d0 :: more).flatMap fun d => byte_widths d.val

end Storage.Tape.TZX

namespace StaticAnalyser.Acorn

open Storage

/-- The C++ cast `(uint8_t)x` of an `int`. -/
def toU8 (x : Int) : Nat := (x % 256).toNat

/-- The C++ cast `(uint16_t)x` of an `int`. -/
def toU16 (x : Int) : Nat := (x % 65536).toNat

/-- A parser together with the results of the `get_next_byte` calls made on it so
far, in order. The list is a record kept for the statements: no operation reads
it. -/
structure Reading where
  parser : Parser
  bytes_read : List Int
deriving DecidableEq, Repr

namespace Reading

/-- `Acorn1200BaudTapeParser::get_next_byte`, the result being recorded. -/
def get_next_byte (r : Reading) : Int × Reading :=
  let b := r.parser.get_next_byte
  (b.1, { parser := b.2, bytes_read := r.bytes_read ++ [b.1] })

/-- `Acorn1200BaudTapeParser::get_next_short`, its byte reads being recorded. -/
def get_next_short (r : Reading) : Int × Reading :=
  let r0 := get_next_byte r
  let r1 := get_next_byte r0.2
  (int_or r0.1 (int_shl r1.1 8), r1.2)

/-- `Acorn1200BaudTapeParser::get_next_word`, its byte reads being recorded. -/
def get_next_word (r : Reading) : Int × Reading :=
  let r0 := get_next_short r
  let r1 := get_next_short r0.2
  (int_or r0.1 (int_shl r1.1 8), r1.2)

end Reading

/-- The loops of `GetNextChunk` that look for a value of the shift register,
`while(!parser.is_at_end() && (shift_register != target)) shift()`, with a bound on
the rounds: `none` when the bound is used up with the loop still running. -/
def shift_until (target : Nat) : Nat → Nat → Parser → Option (Nat × Parser)
  | 0, shift_register, p =>
    if !p.is_at_end && shift_register ≠ target then none else some (shift_register, p)
  | rounds + 1, shift_register, p =>
    if !p.is_at_end && shift_register ≠ target then
      let bit := p.get_next_bit
      shift_until target rounds ((shift_register >>> 1) ||| (bit.1 <<< 9)) bit.2
    else some (shift_register, p)

/-- The start of `GetNextChunk`: find the next area of high tone (`0x3ff`), then the
next `0x2a` with its start and stop bits (`0x254`). -/
def find_marker (rounds : Nat) (p : Parser) : Option Parser :=
  match shift_until 0x3ff rounds 0 p with
  | none => none
  | some high =>
    match shift_until 0x254 rounds high.1 high.2 with
    | none => none
    | some marker => some marker.2

/-- The loop of `GetNextChunk` that reads out the name, with `room` places of the
array `name` still free. When the tape ends before a terminator is read the
source leaves the rest of the array uninitialised; the name is then taken to end
with the characters read. -/
def read_name : Nat → List Nat → Reading → List Nat × Reading
  | 0, name, r => (name, r)
  | room + 1, name, r =>
    if r.parser.is_at_end then (name, r)
    else
      let b := r.get_next_byte
      if toU8 b.1 = 0 then (name, b.2) else read_name room (name ++ [toU8 b.1]) b.2

/-- The loop of `GetNextChunk` that reads the data:
`new_chunk->data.push_back((uint8_t)parser.get_next_byte())`, `c` times. -/
def read_data : Nat → Reading → List Nat × Reading
  | 0, r => ([], r)
  | c + 1, r =>
    let b := r.get_next_byte
    let rest := read_data c b.2
    (toU8 b.1 :: rest.1, rest.2)

/-- The byte swap `(uint16_t)((x >> 8) | (x << 8))` of a `uint16_t`. -/
def swap_bytes (x : Nat) : Nat := ((x >>> 8) ||| (x <<< 8)) % 65536

/-- The part of `GetNextChunk` from `parser.reset_crc()` before the data to the
data CRC: the data, `data_crc_matched` and the reading left. -/
def read_data_block (block_length block_flag : Nat) (r : Reading) :
    (List Nat × Bool) × Reading :=
  let data := read_data block_length { r with parser := r.parser.reset_crc }
  if block_length ≠ 0 ∧ block_flag &&& 0x40 = 0 then
    let calculated_data_crc := data.2.parser.get_crc
    let stored_data_crc := data.2.get_next_short
    ((data.1, decide (swap_bytes (toU16 stored_data_crc.1) = calculated_data_crc)),
      stored_data_crc.2)
  else ((data.1, true), data.2)

/-- The part of `GetNextChunk` from the name to the header CRC: the new chunk with
its header fields assigned (no data yet) and the reading left. -/
def read_header (r : Reading) : Chunk × Reading :=
  let name := read_name 11 [] r
  let load_address := name.2.get_next_word
  let execution_address := load_address.2.get_next_word
  let block_number := execution_address.2.get_next_short
  let block_length := block_number.2.get_next_short
  let block_flag := block_length.2.get_next_byte
  let next_address := block_flag.2.get_next_word
  let calculated_header_crc := next_address.2.parser.get_crc
  let stored_header_crc := next_address.2.get_next_short
  ({ name := name.1.take 10
     load_address := toU32 load_address.1
     execution_address := toU32 execution_address.1
     block_number := toU16 block_number.1
     block_length := toU16 block_length.1
     block_flag := toU8 block_flag.1
     next_address := toU32 next_address.1
     header_crc_matched :=
       decide (swap_bytes (toU16 stored_header_crc.1) = calculated_header_crc)
     data_crc_matched := true
     data := [] },
    stored_header_crc.2)

/-- The part of `GetNextChunk` after the marker is found: the chunk returned (`none`
for `nullptr`) and the reading left. -/
def read_record (r0 : Reading) : Option Chunk × Reading :=
  let header := read_header { r0 with parser := r0.parser.reset_crc.reset_error_flag }
  let body := read_data_block header.1.block_length header.1.block_flag header.2
  (if body.2.parser.get_error_flag then none
    else some { header.1 with data_crc_matched := body.1.2, data := body.1.1 },
    body.2)

/-- `GetNextChunk`, with a bound on the rounds of each of its two marker loops: the
chunk returned (`none` for `nullptr`) and the parser left, or `none` when the
bound is used up. -/
def GetNextChunk (rounds : Nat) (p : Parser) : Option (Option Chunk × Parser) :=
  match find_marker rounds p with
  | none => none
  | some p1 => some ((read_record ⟨p1, []⟩).1, (read_record ⟨p1, []⟩).2.parser)

/-- The pulses of a record on tape: ten `One` symbols of high tone, the marker
byte `0x2a`, then the given bytes, each framed. -/
def tape_of_record (bytes : List Nat) : List Pulse :=
  ((List.replicate 10 SymbolType.One).map Parser.symbol_pulses).flatten ++
    Parser.tape_of_bytes (0x2a :: bytes)

end StaticAnalyser.Acorn

namespace StaticAnalyser.Acorn

/-- The error flag of the parser tells whether one of the recorded byte reads
returned -1. -/
def Reading.flag_matches (r : Reading) : Prop :=
  r.parser.error_flag = r.bytes_read.any fun b => decide (b = -1)

end StaticAnalyser.Acorn

namespace StaticAnalyser.Acorn

/-- The byte reads `bs` lead from the reading `r` to the reading `r1`: they are
what `r1` has recorded after `r`, and when none of them is -1 each is a byte and
the CRC of `r1` is the CRC of `r` with these bytes added in order. -/
def Reading.reads (r r1 : Reading) (bs : List Int) : Prop :=
  r1.bytes_read = r.bytes_read ++ bs ∧
    ((∀ b ∈ bs, b ≠ -1) →
      (∀ b ∈ bs, 0 ≤ b ∧ b < 256) ∧
        r1.parser.crc = (bs.map toU8).foldl Parser.crc_add r.parser.crc)

end StaticAnalyser.Acorn

namespace StaticAnalyser.Acorn

/-- The bytes of a record after its marker: the name "A", load address bytes
78 56 34 12, execution address bytes 01 02 03 04, block number 5, block length 1,
flag 0x01, next address 0, the header CRC 0x2646 (which matches), the data byte
0x99 and the data CRC bytes 12 91 (the CRC of the data being 0x1290). -/
def record_with_bad_data_crc : List Nat :=
  [0x41, 0, 0x78, 0x56, 0x34, 0x12, 1, 2, 3, 4, 5, 0, 1, 0, 0x01, 0, 0, 0, 0, 0x26, 0x46,
    0x99, 0x12, 0x91]

/-- The header of that record with its CRC, the tape ending where the data byte
should start. -/
def record_without_data : List Nat := record_with_bad_data_crc.take 21

/-- The parser that has just read the marker of a record, the given bytes being the
rest of the tape. -/
def after_marker (bytes : List Nat) : Parser :=
  { tape := Parser.tape_of_bytes bytes, wave_queue := [], next_symbol := SymbolType.One,
    has_next_symbol := false, error_flag := false, crc := 0 }

end StaticAnalyser.Acorn

namespace StaticAnalyser.Acorn

open Storage

/-- The bits returned by `n` successive calls of `get_next_bit`, and the parser
they leave. -/
def Parser.get_next_bits : Nat → Parser → List Nat × Parser
  | 0, p => ([], p)
  | n + 1, p =>
    let r := Parser.get_next_bit p
    let rest := Parser.get_next_bits n r.2
    (r.1 :: rest.1, rest.2)

/-- The reads of `GetNextChunk` from the name to the next address, that is the part
of `read_header` before the stored header CRC is read: the reading left. -/
def read_header_fields (r : Reading) : Reading :=
  (read_name 11 []
    r).2.get_next_word.2.get_next_word.2.get_next_short.2.get_next_short.2.get_next_byte.2.get_next_word.2

/-- The parser on which `GetNextChunk` makes the last of its `get_next_byte` calls,
`p1` being the parser its marker loops leave: the call for the second byte of the
stored data CRC when one is read, else the call for the last data byte when
`block_length` is not zero, else the call for the second byte of the stored header
CRC. -/
def before_last_read (p1 : Parser) : Parser :=
  let start : Reading := { parser := p1.reset_crc.reset_error_flag, bytes_read := [] }
  let header := read_header start
  let data_start : Reading := { header.2 with parser := header.2.parser.reset_crc }
  if header.1.block_length ≠ 0 ∧ header.1.block_flag &&& 0x40 = 0 then
    (read_data header.1.block_length data_start).2.get_next_byte.2.parser
  else if header.1.block_length ≠ 0 then
    (read_data (header.1.block_length - 1) data_start).2.parser
  else (read_header_fields start).get_next_byte.2.parser

end StaticAnalyser.Acorn

namespace StaticAnalyser.Acorn

open Storage

/-- The bytes of a record after its marker, as `record_with_bad_data_crc` but with
the data byte 0x1e and its CRC 0xf3ff: both CRCs match. -/
def record_with_good_crcs : List Nat :=
  record_with_bad_data_crc.take 21 ++ [0x1e, 0xf3, 0xff]

/-- The symbols of a record that the tape `tape_cut_in_last_byte` lacks: bits 1 to
7 and the stop bit of the last byte, 0xff. -/
def symbols_cut_off : List SymbolType := List.replicate 8 SymbolType.One

/-- The tape of the record `record_with_good_crcs` that ends inside the last byte
of the record, after its start bit and bit 0. -/
def tape_cut_in_last_byte : List Pulse :=
  (tape_of_record record_with_good_crcs).take
    ((tape_of_record record_with_good_crcs).length - 4 * symbols_cut_off.length)

end StaticAnalyser.Acorn

namespace StaticAnalyser.Acorn

open Storage

/-- A number of rounds within which each marker loop of `GetNextChunk` ends: a
round with the tape not at its end either uses up the symbol the parser holds or
takes at least one pulse off the tape. -/
def marker_rounds (p : Parser) : Nat :=
  2 * p.tape.length + (if p.has_next_symbol then 1 else 0)

/-- The results of `n` successive calls of `get_next_byte`, and the parser they
leave. -/
def Parser.get_next_bytes : Nat → Parser → List Int × Parser
  | 0, p => ([], p)
  | n + 1, p =>
    let r := Parser.get_next_byte p
    let rest := Parser.get_next_bytes n r.2
    (r.1 :: rest.1, rest.2)

/-- The reading after `n` more calls of `get_next_byte`. -/
def Reading.after_reads (r : Reading) (n : Nat) : Reading :=
  { parser := (r.parser.get_next_bytes n).2,
    bytes_read := r.bytes_read ++ (r.parser.get_next_bytes n).1 }

/-- The number of byte reads made for the name of a record, with `room` places
left: a read is made while the tape is not at its end and there is room, and a
read of a NUL byte is the last. -/
def name_reads : Nat → Parser → Nat
  | 0, _ => 0
  | room + 1, p =>
    if p.is_at_end then 0
    else if toU8 p.get_next_byte.1 = 0 then 1
    else 1 + name_reads room p.get_next_byte.2

/-- The byte reads of the header of a record as the specification lists them, made
by successive calls of `get_next_byte` on the parser `p1` that the marker loops
leave, its CRC and error flag reset: the name, then 19 reads (two addresses of four
bytes, block number and block length of two, the flag, the next address of four,
the header CRC of two). The results of the reads in order, and the parser left. -/
def record_header_reads (p1 : Parser) : List Int × Parser :=
  p1.reset_crc.reset_error_flag.get_next_bytes
    (name_reads 11 p1.reset_crc.reset_error_flag + 19)

/-- The block length of a record: the little-endian value of reads 10 and 11 after
the name, as a `uint16_t`. -/
def record_block_length (p1 : Parser) : Nat :=
  toU16 (int_or
    ((record_header_reads p1).1.getD (name_reads 11 p1.reset_crc.reset_error_flag + 10) 0)
    (int_shl
      ((record_header_reads p1).1.getD (name_reads 11 p1.reset_crc.reset_error_flag + 11) 0)
      8))

/-- The flag of a record: read 12 after the name, as a `uint8_t`. -/
def record_block_flag (p1 : Parser) : Nat :=
  toU8 ((record_header_reads p1).1.getD (name_reads 11 p1.reset_crc.reset_error_flag + 12) 0)

/-- The byte reads of the data of a record as the specification lists them, made
by successive calls of `get_next_byte` on the parser the header reads leave, its CRC
reset: `block_length` data bytes and, when `block_length` is not zero and flag bit
0x40 is clear, the two bytes of the data CRC. -/
def record_data_reads (p1 : Parser) : List Int × Parser :=
  (record_header_reads p1).2.reset_crc.get_next_bytes
    (record_block_length p1 +
      if record_block_length p1 ≠ 0 ∧ record_block_flag p1 &&& 0x40 = 0 then 2 else 0)

/-- The byte reads of a record after its marker: those of the header, then those of
the data. The results of the reads in order, and the parser left. -/
def record_byte_reads (p1 : Parser) : List Int × Parser :=
  ((record_header_reads p1).1 ++ (record_data_reads p1).1, (record_data_reads p1).2)

end StaticAnalyser.Acorn
/-! ## Theorems -/

namespace StaticAnalyser.Acorn.Parser

open Storage

theorem inspect_waves_crc (p : Parser) :
    (inspect_waves p).crc = p.crc ∧ (inspect_waves p).error_flag = p.error_flag ∧
      (inspect_waves p).tape = p.tape := by
  unfold inspect_waves
  split <;> simp [remove_waves, push_symbol]

theorem pull_pulses_crc (tape : List Pulse) (p : Parser) :
    (pull_pulses tape p).crc = p.crc ∧ (pull_pulses tape p).error_flag = p.error_flag := by
  induction tape generalizing p with
  | nil => simp [pull_pulses]
  | cons pulse rest ih =>
    unfold pull_pulses
    split
    · simp
    · have h := ih (process_pulse pulse { p with tape := rest })
      have h2 := inspect_waves_crc
        { { p with tape := rest } with wave_queue := p.wave_queue ++ [classify pulse] }
      simp only [process_pulse, push_wave] at h ⊢
      constructor
      · rw [h.1, h2.1]
      · rw [h.2, h2.2.1]

theorem get_next_symbol_crc (p : Parser) :
    (get_next_symbol p).2.crc = p.crc ∧ (get_next_symbol p).2.error_flag = p.error_flag := by
  simp [get_next_symbol, pull_pulses_crc]

theorem get_next_symbols_crc (n : Nat) (p : Parser) :
    (get_next_symbols n p).2.crc = p.crc ∧ (get_next_symbols n p).2.error_flag = p.error_flag := by
  induction n generalizing p with
  | zero => simp [get_next_symbols]
  | succ n ih =>
    simp only [get_next_symbols]
    rw [(ih _).1, (ih _).2, (get_next_symbol_crc p).1, (get_next_symbol_crc p).2]
    exact ⟨rfl, rfl⟩

theorem get_next_symbols_add (m n : Nat) (p : Parser) :
    get_next_symbols (m + n) p =
      ((get_next_symbols m p).1 ++ (get_next_symbols n (get_next_symbols m p).2).1,
        (get_next_symbols n (get_next_symbols m p).2).2) := by
  induction m generalizing p with
  | zero => simp [get_next_symbols]
  | succ m ih =>
    rw [Nat.succ_add]
    simp only [get_next_symbols]
    rw [ih]
    simp

theorem get_data_bits_eq (c value : Nat) (p : Parser) :
    get_data_bits c value p =
      ((get_next_symbols c p).1.foldl
          (fun acc s => (acc >>> 1) ||| ((if s = SymbolType.One then 1 else 0) <<< 7)) value,
        (get_next_symbols c p).2) := by
  induction c generalizing value p with
  | zero => simp [get_data_bits, get_next_symbols]
  | succ c ih =>
    simp only [get_data_bits, get_next_symbols, get_next_bit, List.foldl_cons]
    rw [ih]

set_option maxRecDepth 100000 in
theorem shift_in_frame : ∀ v : Fin 256,
    ((List.range 8).map fun i => bit_symbol (v.val.testBit i)).foldl
      (fun acc s => (acc >>> 1) ||| ((if s = SymbolType.One then 1 else 0) <<< 7)) 0 = v.val := by
  decide

theorem get_next_symbols_length (n : Nat) (p : Parser) :
    (get_next_symbols n p).1.length = n := by
  induction n generalizing p with
  | zero => simp [get_next_symbols]
  | succ n ih => simp [get_next_symbols, ih]

/-- C4: byte framing round trip. For every byte `v` and every parser state, if the
next ten symbols delivered are `Zero`, the eight bits of `v` from the least
significant, then `One`, then `get_next_byte` returns `v`, leaves the parser that
those ten calls of `get_next_symbol` leave, with the CRC updated to `add_to_crc`
of the previous CRC and `v`, and does not change the error flag. -/
theorem get_next_byte_frame (v : Nat) (hv : v < 256) (p : Parser)
    (h : (get_next_symbols 10 p).1 = byte_frame v) :
    get_next_byte p = ((v : Int), { (get_next_symbols 10 p).2 with crc := crc_add p.crc v }) ∧
      (get_next_byte p).2.error_flag = p.error_flag := by
  have e10 : get_next_symbols 10 p =
      ((get_next_symbol p).1 :: ((get_next_symbols 8 (get_next_symbol p).2).1 ++
          [(get_next_symbol (get_next_symbols 8 (get_next_symbol p).2).2).1]),
        (get_next_symbol (get_next_symbols 8 (get_next_symbol p).2).2).2) := by
    have e : get_next_symbols 10 p = get_next_symbols (1 + (8 + 1)) p := rfl
    rw [e, get_next_symbols_add 1 (8 + 1) p, get_next_symbols_add 8 1]
    rfl
  rw [e10] at h ⊢
  simp only [byte_frame, List.cons.injEq] at h
  obtain ⟨hstart, hrest⟩ := h
  have hlen := get_next_symbols_length 8 (get_next_symbol p).2
  obtain ⟨hbits, hstop⟩ := List.append_inj hrest (by simp [hlen])
  simp only [List.cons.injEq, and_true] at hstop
  have hval := shift_in_frame ⟨v, hv⟩
  simp only at hval
  have hcrc8 := get_next_symbols_crc 8 (get_next_symbol p).2
  have hcrc1 := get_next_symbol_crc p
  have hcrc9 := get_next_symbol_crc (get_next_symbols 8 (get_next_symbol p).2).2
  have hbyte : get_next_byte p =
      ((v : Int), { (get_next_symbol (get_next_symbols 8 (get_next_symbol p).2).2).2 with
        crc := crc_add p.crc v }) := by
    simp only [get_next_byte, get_next_bit, get_data_bits_eq, hstart, hbits, hstop, hval,
      add_to_crc, hcrc9.1, hcrc8.1, hcrc1.1]
    simp
  refine ⟨hbyte, ?_⟩
  rw [hbyte]
  simp only
  rw [hcrc9.2, hcrc8.2, hcrc1.2]

/-- The framing round trip at the byte 42 on a tape that holds its ten symbols. -/
theorem get_next_byte_frame_witness :
    (42 < 256 ∧ (get_next_symbols 10 (on_tape (tape_of_bytes [42]))).1 = byte_frame 42) ∧
      (get_next_byte (on_tape (tape_of_bytes [42])) =
          ((42 : Int), { (get_next_symbols 10 (on_tape (tape_of_bytes [42]))).2 with
            crc := crc_add (on_tape (tape_of_bytes [42])).crc 42 }) ∧
        (get_next_byte (on_tape (tape_of_bytes [42]))).2.error_flag =
          (on_tape (tape_of_bytes [42])).error_flag) :=
  ⟨⟨by decide, by decide⟩, get_next_byte_frame 42 (by decide) _ (by decide)⟩

end StaticAnalyser.Acorn.Parser

namespace StaticAnalyser.Acorn.Parser

open Storage

theorem push_waves_encode_bits_aux (bits : List Bool) (tape : List Pulse) (next_symbol : SymbolType)
    (error_flag : Bool) (crc : Nat) :
    (push_waves (encode_bits bits) ⟨tape, [], next_symbol, false, error_flag, crc⟩).1 =
        bits.map (fun b => (bit_symbol b, if b then 4 else 2)) ∧
      (push_waves (encode_bits bits) ⟨tape, [], next_symbol, false, error_flag, crc⟩).2.wave_queue = [] ∧
      (push_waves (encode_bits bits) ⟨tape, [], next_symbol, false, error_flag, crc⟩).2.has_next_symbol
        = false := by
  induction bits generalizing next_symbol with
  | nil => simp [encode_bits, push_waves]
  | cons b bs ih =>
    cases b
    · have h := ih SymbolType.Zero
      simpa [encode_bits, encode_bit, push_waves, push_wave, inspect_waves, push_symbol,
        remove_waves, bit_symbol] using h
    · have h := ih SymbolType.One
      simpa [encode_bits, encode_bit, push_waves, push_wave, inspect_waves, push_symbol,
        remove_waves, bit_symbol] using h

/-- C5: pushed one waveform at a time onto an empty wave queue, each symbol taken
as soon as it is produced, the encoding of a bit sequence (0 as two `Long`, 1 as
four `Short`) yields exactly that bit sequence as symbols, each `Zero` with 2
waves removed and each `One` with 4, and leaves the queue empty; so does the run
`[Long, Long, Short, Short, Short, Short]`, which yields `Zero` then `One`. -/
theorem push_waves_encode_bits (bits : List Bool) (tape : List Pulse) (next_symbol : SymbolType)
    (error_flag : Bool) (crc : Nat) :
    ((push_waves (encode_bits bits) ⟨tape, [], next_symbol, false, error_flag, crc⟩).1 =
        bits.map (fun b => (bit_symbol b, if b then 4 else 2)) ∧
      (push_waves (encode_bits bits) ⟨tape, [], next_symbol, false, error_flag, crc⟩).2.wave_queue = []) ∧
    ((push_waves [WaveType.Long, WaveType.Long, WaveType.Short, WaveType.Short, WaveType.Short,
          WaveType.Short] ⟨tape, [], next_symbol, false, error_flag, crc⟩).1 =
        [(SymbolType.Zero, 2), (SymbolType.One, 4)] ∧
      (push_waves [WaveType.Long, WaveType.Long, WaveType.Short, WaveType.Short, WaveType.Short,
          WaveType.Short] ⟨tape, [], next_symbol, false, error_flag, crc⟩).2.wave_queue = []) := by
  have h := push_waves_encode_bits_aux bits tape next_symbol error_flag crc
  have h2 := push_waves_encode_bits_aux [false, true] tape next_symbol error_flag crc
  exact ⟨⟨h.1, h.2.1⟩, ⟨h2.1, h2.2.1⟩⟩

/-- C1: on the correctly framed bytes 0x78, 0x56, 0x34, 0x12, `get_next_word`
returns 0x127678, which is not the little-endian value 0x12345678 of the four
bytes: it shifts its second `get_next_short` by 8 bits where `get_next_short`,
right for its two bytes, sets the pattern. No error flag is raised. -/
theorem get_next_word_second_short_shifted_by_8 :
    (get_next_symbols 40 (on_tape (tape_of_bytes [0x78, 0x56, 0x34, 0x12]))).1 =
        byte_frame 0x78 ++ byte_frame 0x56 ++ byte_frame 0x34 ++ byte_frame 0x12 ∧
      (get_next_word (on_tape (tape_of_bytes [0x78, 0x56, 0x34, 0x12]))).1 = 0x127678 ∧
      (get_next_word (on_tape (tape_of_bytes [0x78, 0x56, 0x34, 0x12]))).2.error_flag = false ∧
      (0x127678 : Int) ≠ 0x78 + 2 ^ 8 * 0x56 + 2 ^ 16 * 0x34 + 2 ^ 24 * 0x12 ∧
      (get_next_short (on_tape (tape_of_bytes [0x78, 0x56]))).1 = 0x78 + 2 ^ 8 * 0x56 := by
  decide

end StaticAnalyser.Acorn.Parser

namespace StaticAnalyser.Acorn

open Polynomial

theorem bits_poly_zero : bits_poly 0 = 0 := by
  rw [bits_poly]; simp

theorem bits_poly_eq (n : Nat) :
    bits_poly n = C ((n % 2 : Nat) : ZMod 2) + X * bits_poly (n / 2) := by
  by_cases h : n = 0
  · subst h; simp [bits_poly_zero]
  · rw [bits_poly, if_neg h]

theorem bits_poly_coeff (i n : Nat) :
    (bits_poly n).coeff i = if n.testBit i then 1 else 0 := by
  induction i generalizing n with
  | zero =>
    rw [bits_poly_eq]
    simp only [coeff_add, coeff_C_zero, mul_coeff_zero, coeff_X_zero, zero_mul, add_zero,
      Nat.testBit_zero]
    rcases Nat.mod_two_eq_zero_or_one n with h | h <;> simp [h]
  | succ i ih =>
    rw [bits_poly_eq, Nat.testBit_succ, ← ih]
    simp [coeff_X_mul]

theorem bits_poly_injective : Function.Injective bits_poly := by
  intro a b h
  apply Nat.eq_of_testBit_eq
  intro i
  have ha := bits_poly_coeff i a
  have hb := bits_poly_coeff i b
  rw [h, hb] at ha
  cases hx : a.testBit i <;> cases hy : b.testBit i <;> simp [hx, hy] at ha ⊢

theorem bits_poly_degree_lt {n k : Nat} (h : n < 2 ^ k) : (bits_poly n).degree < k := by
  rw [degree_lt_iff_coeff_zero]
  intro m hm
  rw [bits_poly_coeff]
  have : n < 2 ^ m := lt_of_lt_of_le h (Nat.pow_le_pow_right (by norm_num) hm)
  simp [Nat.testBit_lt_two_pow this]

theorem bits_poly_xor (a b : Nat) : bits_poly (a ^^^ b) = bits_poly a + bits_poly b := by
  ext i
  rw [coeff_add, bits_poly_coeff, bits_poly_coeff, bits_poly_coeff, Nat.testBit_xor]
  cases a.testBit i <;> cases b.testBit i <;> decide

theorem bits_poly_two_mul (n : Nat) : bits_poly (2 * n) = X * bits_poly n := by
  rw [bits_poly_eq]
  simp

theorem bits_poly_pow_mul (k n : Nat) : bits_poly (2 ^ k * n) = X ^ k * bits_poly n := by
  induction k with
  | zero => simp
  | succ k ih =>
    rw [pow_succ, mul_comm (2 ^ k) 2, mul_assoc, bits_poly_two_mul, ih, pow_succ]
    ring

theorem bits_poly_one : bits_poly 1 = 1 := by
  rw [bits_poly_eq]
  simp [bits_poly_zero]

theorem bits_poly_add_pow {a k : Nat} (b : Nat) (h : a < 2 ^ k) :
    bits_poly (a + 2 ^ k * b) = bits_poly a + X ^ k * bits_poly b := by
  have e : a + 2 ^ k * b = a ^^^ (2 ^ k * b) := by
    apply Nat.eq_of_testBit_eq
    intro i
    rw [Nat.testBit_xor, Nat.add_comm, Nat.testBit_mul_pow_two_add _ h, Nat.testBit_mul_pow_two]
    by_cases hik : i < k
    · simp [hik, Nat.not_le.mpr hik]
    · have : a.testBit i = false := Nat.testBit_lt_two_pow
        (lt_of_lt_of_le h (Nat.pow_le_pow_right (by norm_num) (not_lt.mp hik)))
      simp [hik, this, not_lt.mp hik]
  rw [e, bits_poly_xor, bits_poly_pow_mul]

/-- The low bits 0x1021 of the generator polynomial `x^16 + x^12 + x^5 + 1`. -/
theorem bits_poly_generator :
    bits_poly 0x1021 = (X ^ 12 + X ^ 5 + 1 : Polynomial (ZMod 2)) := by
  have e : (0x1021 : Nat) = 1 + 2 ^ 5 * (1 + 2 ^ 7 * 1) := by norm_num
  rw [e, bits_poly_add_pow _ (by norm_num), bits_poly_add_pow _ (by norm_num), bits_poly_one]
  ring

theorem crc_shift_lt {c : Nat} (_h : c < 65536) : Parser.crc_shift c < 65536 := by
  unfold Parser.crc_shift
  have h1 : (c <<< 1) % 65536 < 2 ^ 16 := Nat.mod_lt _ (by norm_num)
  have h2 : (if c &&& 0x8000 ≠ 0 then 0x1021 else 0x0000 : Nat) < 2 ^ 16 := by
    split <;> norm_num
  exact Nat.xor_lt_two_pow h1 h2

theorem and_top_bit (c : Nat) (_h : c < 65536) : c &&& 0x8000 ≠ 0 ↔ 32768 ≤ c := by
  have e : (0x8000 : Nat) = 2 ^ 15 := by norm_num
  rw [e, Nat.and_two_pow, Nat.testBit_to_div_mod]
  by_cases hc : c / 2 ^ 15 % 2 = 1
  · simp [hc]; omega
  · simp [hc]; omega

theorem crc_shift_poly {c : Nat} (h : c < 65536) :
    ∃ q : Polynomial (ZMod 2),
      X * bits_poly c = (X ^ 16 + X ^ 12 + X ^ 5 + 1) * q + bits_poly (Parser.crc_shift c) := by
  by_cases htop : 32768 ≤ c
  · refine ⟨1, ?_⟩
    have hs : Parser.crc_shift c = (2 * c - 65536) ^^^ 0x1021 := by
      unfold Parser.crc_shift
      rw [if_pos ((and_top_bit c h).mpr htop), Nat.shiftLeft_eq]
      have : c * 2 ^ 1 % 65536 = 2 * c - 65536 := by omega
      rw [this]
    have hd : 2 * c = (2 * c - 65536) + 2 ^ 16 * 1 := by omega
    have h2 : X * bits_poly c = bits_poly (2 * c - 65536) + X ^ 16 := by
      rw [← bits_poly_two_mul, hd, bits_poly_add_pow _ (by omega), bits_poly_one]
      simp
    rw [hs, bits_poly_xor, bits_poly_generator, h2]
    have hchar : ∀ x : Polynomial (ZMod 2), x + x = 0 := CharTwo.add_self_eq_zero
    have h12 := hchar (X ^ 12)
    have h5 := hchar (X ^ 5)
    have h1 := hchar 1
    linear_combination (-1 : Polynomial (ZMod 2)) * h12 - h5 - h1
  · refine ⟨0, ?_⟩
    have hs : Parser.crc_shift c = 2 * c := by
      unfold Parser.crc_shift
      have hn : ¬ (c &&& 0x8000 ≠ 0) := fun hh => htop ((and_top_bit c h).mp hh)
      rw [if_neg hn, Nat.shiftLeft_eq]
      have : c * 2 ^ 1 % 65536 = 2 * c := by omega
      rw [this]; simp
    rw [hs, bits_poly_two_mul]
    ring

theorem crc_shift_iterate_poly (n : Nat) {c : Nat} (h : c < 65536) :
    Parser.crc_shift^[n] c < 65536 ∧
    ∃ q : Polynomial (ZMod 2),
      X ^ n * bits_poly c =
        (X ^ 16 + X ^ 12 + X ^ 5 + 1) * q + bits_poly (Parser.crc_shift^[n] c) := by
  induction n generalizing c with
  | zero => exact ⟨h, 0, by simp⟩
  | succ n ih =>
    obtain ⟨q1, hq1⟩ := crc_shift_poly h
    obtain ⟨hlt, q2, hq2⟩ := ih (crc_shift_lt h)
    rw [Function.iterate_succ_apply]
    refine ⟨hlt, X ^ n * q1 + q2, ?_⟩
    linear_combination X ^ n * hq1 + hq2

theorem crc_add_poly {crc : Nat} (v : Storage.Byte) (h : crc < 65536) :
    Parser.crc_add crc v.val < 65536 ∧
    ∃ q : Polynomial (ZMod 2),
      X ^ 8 * (bits_poly crc + X ^ 8 * bits_poly v.val) =
        (X ^ 16 + X ^ 12 + X ^ 5 + 1) * q + bits_poly (Parser.crc_add crc v.val) := by
  have hv : v.val % 256 = v.val := Nat.mod_eq_of_lt v.isLt
  have hsh : v.val <<< 8 = 2 ^ 8 * v.val := by rw [Nat.shiftLeft_eq, mul_comm]
  have hlt : crc ^^^ (2 ^ 8 * v.val) < 2 ^ 16 :=
    Nat.xor_lt_two_pow (by omega) (by have := v.isLt; omega)
  have h0 : (crc ^^^ ((v.val % 256) <<< 8)) % 65536 = crc ^^^ (2 ^ 8 * v.val) := by
    rw [hv, hsh]; exact Nat.mod_eq_of_lt hlt
  unfold Parser.crc_add
  rw [h0]
  have := crc_shift_iterate_poly 8 (c := crc ^^^ (2 ^ 8 * v.val)) hlt
  rw [bits_poly_xor, bits_poly_pow_mul] at this
  exact this

theorem foldl_crc_add_poly (bytes : List Storage.Byte) (crc : Nat) (m : Polynomial (ZMod 2))
    (h : crc < 65536)
    (hm : ∃ q : Polynomial (ZMod 2), m * X ^ 16 = (X ^ 16 + X ^ 12 + X ^ 5 + 1) * q + bits_poly crc) :
    bytes.foldl (fun c b => Parser.crc_add c b.val) crc < 65536 ∧
    ∃ q : Polynomial (ZMod 2),
      bytes.foldl (fun m b => m * X ^ 8 + bits_poly b.val) m * X ^ 16 =
        (X ^ 16 + X ^ 12 + X ^ 5 + 1) * q +
          bits_poly (bytes.foldl (fun c b => Parser.crc_add c b.val) crc) := by
  induction bytes generalizing crc m with
  | nil => exact ⟨h, hm⟩
  | cons b bs ih =>
    simp only [List.foldl_cons]
    obtain ⟨q0, hq0⟩ := hm
    obtain ⟨hlt, q1, hq1⟩ := crc_add_poly b h
    refine ih _ _ hlt ⟨X ^ 8 * q0 + q1, ?_⟩
    linear_combination X ^ 8 * hq0 + hq1

theorem crc_of_eq (bytes : List Storage.Byte) (p : Parser) :
    crc_of bytes p = bytes.foldl (fun c b => Parser.crc_add c b.val) 0 := by
  unfold crc_of Parser.reset_crc
  have : ∀ (q : Parser),
      (bytes.foldl (fun q b => Parser.add_to_crc b.val q) q).get_crc =
        bytes.foldl (fun c b => Parser.crc_add c b.val) q.crc := by
    induction bytes with
    | nil => intro q; rfl
    | cons b bs ih => intro q; simp only [List.foldl_cons]; rw [ih]; rfl
  exact this { p with crc := 0 }

theorem generator_monic : (X ^ 16 + X ^ 12 + X ^ 5 + 1 : Polynomial (ZMod 2)).Monic := by
  have e : (X ^ 16 + X ^ 12 + X ^ 5 + 1 : Polynomial (ZMod 2)) = X ^ 16 + bits_poly 0x1021 := by
    rw [bits_poly_generator]; ring
  rw [e]
  exact monic_X_pow_add (bits_poly_degree_lt (k := 16) (by norm_num))

theorem generator_degree : (X ^ 16 + X ^ 12 + X ^ 5 + 1 : Polynomial (ZMod 2)).degree = 16 := by
  have e : (X ^ 16 + X ^ 12 + X ^ 5 + 1 : Polynomial (ZMod 2)) = X ^ 16 + bits_poly 0x1021 := by
    rw [bits_poly_generator]; ring
  have hlt : (bits_poly 0x1021).degree < (X ^ 16 : Polynomial (ZMod 2)).degree := by
    rw [degree_X_pow]
    exact bits_poly_degree_lt (k := 16) (by norm_num)
  rw [e, degree_add_eq_left_of_degree_lt hlt, degree_X_pow]
  rfl

set_option maxRecDepth 100000 in
theorem crc_check_value :
    [0x31, 0x32, 0x33, 0x34, 0x35, 0x36, 0x37, 0x38, (0x39 : Storage.Byte)].foldl
      (fun c b => Parser.crc_add c b.val) 0 = 0x31C3 := by
  decide

/-- C6: the value of `get_crc` after `reset_crc` and `add_to_crc` on each byte in
order is the CRC-16 of the sequence with polynomial 0x1021, initial value 0, most
significant bit first: as a polynomial over GF(2) it is the remainder of the
message polynomial times `x^16` modulo `x^16 + x^12 + x^5 + 1`; and the ASCII
bytes of "123456789" give 0x31C3. -/
theorem crc_is_remainder (bytes : List Storage.Byte) (p : Parser) :
    bits_poly (crc_of bytes p) =
        (message_poly bytes * X ^ 16) %ₘ (X ^ 16 + X ^ 12 + X ^ 5 + 1) ∧
      crc_of bytes p < 65536 ∧
      crc_of [0x31, 0x32, 0x33, 0x34, 0x35, 0x36, 0x37, 0x38, 0x39] p = 0x31C3 := by
  have h := foldl_crc_add_poly bytes 0 0 (by norm_num) ⟨0, by simp [bits_poly_zero]⟩
  obtain ⟨hlt, q, hq⟩ := h
  rw [crc_of_eq]
  refine ⟨?_, hlt, ?_⟩
  · have hu := div_modByMonic_unique (f := message_poly bytes * X ^ 16) q
      (bits_poly (bytes.foldl (fun c b => Parser.crc_add c b.val) 0)) generator_monic
      ⟨by rw [message_poly, hq]; ring, by
        rw [generator_degree]
        exact bits_poly_degree_lt (k := 16) hlt⟩
    exact hu.2.symm
  · rw [crc_of_eq]
    exact crc_check_value

end StaticAnalyser.Acorn

namespace StaticAnalyser.Acorn

theorem find_block_zero_append (dropped queue : List Chunk)
    (h : ∀ c ∈ dropped, c.block_number ≠ 0) :
    find_block_zero (dropped ++ queue) = find_block_zero queue := by
  induction dropped with
  | nil => rfl
  | cons c cs ih =>
    have hc : c.block_number ≠ 0 := h c (List.mem_cons_self _ _)
    simp only [List.cons_append, find_block_zero, if_pos hc]
    exact ih (fun d hd => h d (List.mem_cons_of_mem _ hd))

/-- A run of chunks with successive block numbers from `n`, none flagged as the last,
is accumulated whole. -/
theorem accumulate_chunks_run (cs tail : List Chunk) (n : Nat) (file_chunks : List Chunk)
    (hnum : cs.map Chunk.block_number = List.range' n cs.length)
    (hflag : ∀ c ∈ cs, c.block_flag &&& 0x80 = 0)
    (hn : n < 65536) (hlen : n + cs.length ≤ 65536) :
    accumulate_chunks (cs ++ tail) n file_chunks =
      accumulate_chunks tail ((n + cs.length) % 65536) (file_chunks ++ cs) := by
  induction cs generalizing n file_chunks with
  | nil => simp [Nat.mod_eq_of_lt hn]
  | cons c cs ih =>
    simp only [List.map_cons, List.length_cons, List.range'_succ, List.cons.injEq] at hnum
    have hc : c.block_flag &&& 0x80 = 0 := hflag c (List.mem_cons_self _ _)
    have hstep : accumulate_chunks (c :: cs ++ tail) n file_chunks =
        accumulate_chunks (cs ++ tail) ((n + 1) % 65536) (file_chunks ++ [c]) := by
      simp [accumulate_chunks, hnum.1, hc]
    rw [hstep]
    cases cs with
    | nil => simp
    | cons d ds =>
      simp only [List.length_cons] at hlen
      have h1 : (n + 1) % 65536 = n + 1 := Nat.mod_eq_of_lt (by omega)
      rw [h1, ih (n + 1) (file_chunks ++ [c]) hnum.2
        (fun e he => hflag e (List.mem_cons_of_mem _ he)) (by omega)
        (by simp only [List.length_cons]; omega)]
      simp only [List.length_cons, List.append_assoc, List.singleton_append]
      congr 2
      omega

theorem assemble_file_append (cs : List Chunk) (last : Chunk) :
    ∃ file, assemble_file (cs ++ [last]) = some file ∧
      file.chunks = cs ++ [last] ∧
      file.data = ((cs ++ [last]).map Chunk.data).flatten ∧
      file.is_protected = decide (last.block_flag &&& 0x01 ≠ 0) ∧
      some file.name = (cs ++ [last]).head?.map Chunk.name ∧
      some file.load_address = (cs ++ [last]).head?.map Chunk.load_address ∧
      some file.execution_address = (cs ++ [last]).head?.map Chunk.execution_address := by
  cases h : cs ++ [last] with
  | nil => simp at h
  | cons first more =>
    refine ⟨_, rfl, rfl, rfl, ?_, rfl, rfl, rfl⟩
    have : (first :: more).getLast (List.cons_ne_nil first more) = last := by
      simp only [← h]
      simp
    simp only [this]

theorem find_block_zero_of_zero (c : Chunk) (cs : List Chunk) (h : c.block_number = 0) :
    find_block_zero (c :: cs) = c :: cs := by
  simp [find_block_zero, h]

theorem GetNextFile_of_block_zero (dropped : List Chunk) (c : Chunk) (cs : List Chunk)
    (hdropped : ∀ d ∈ dropped, d.block_number ≠ 0) (h : c.block_number = 0) :
    GetNextFile (dropped ++ c :: cs) =
      match accumulate_chunks (c :: cs) 0 [] with
      | (none, rest) => (none, rest)
      | (some file_chunks, rest) => (assemble_file file_chunks, rest) := by
  unfold GetNextFile
  rw [find_block_zero_append _ _ hdropped, find_block_zero_of_zero c cs h]

theorem numbered_split (cs : List Chunk) (last : Chunk)
    (hnum : (cs ++ [last]).map Chunk.block_number = List.range (cs.length + 1)) :
    cs.map Chunk.block_number = List.range' 0 cs.length ∧ last.block_number = cs.length := by
  rw [List.range_succ, List.map_append] at hnum
  obtain ⟨h1, h2⟩ := List.append_inj hnum (by simp)
  rw [List.range_eq_range'] at h1
  simp only [List.map_cons, List.map_nil, List.cons.injEq, and_true] at h2
  exact ⟨h1, h2⟩

theorem numbered_head (cs tail : List Chunk) (hne : cs ≠ [])
    (hnum : cs.map Chunk.block_number = List.range' 0 cs.length) :
    ∃ c more, cs ++ tail = c :: more ∧ c.block_number = 0 := by
  cases cs with
  | nil => exact absurd rfl hne
  | cons c more =>
    simp only [List.map_cons, List.length_cons, List.range'_succ, List.cons.injEq] at hnum
    exact ⟨c, more ++ tail, rfl, hnum.1⟩

theorem accumulate_chunks_last (cs rest : List Chunk) (last : Chunk)
    (hnum : (cs ++ [last]).map Chunk.block_number = List.range (cs.length + 1))
    (hwidth : last.block_number < 65536)
    (hflag : ∀ c ∈ cs, c.block_flag &&& 0x80 = 0)
    (hlast : last.block_flag &&& 0x80 ≠ 0) :
    accumulate_chunks ((cs ++ [last]) ++ rest) 0 [] = (some (cs ++ [last]), rest) := by
  obtain ⟨h1, h2⟩ := numbered_split cs last hnum
  have hlen : cs.length < 65536 := h2 ▸ hwidth
  rw [List.append_assoc, accumulate_chunks_run cs ([last] ++ rest) 0 [] h1 hflag (by omega)
    (by omega)]
  simp [accumulate_chunks, h2, Nat.mod_eq_of_lt hlen, hlast]

/-- C7: when the queue, its leading chunks with non-zero block number dropped,
begins with chunks `c0..cN` where `ci` has block number `i`, `cN` has flag bit 0x80
and no earlier one has it, `GetNextFile` returns a file whose chunks are `c0..cN`,
whose data is their data concatenated, whose name and addresses are those of `c0`
and whose `is_protected` is bit 0x01 of the flag of `cN`, and leaves the chunks
that followed `cN`. In particular block 0 with flag 0x00 then block 1 with flag
0x80 give exactly one file, of both chunks with their data concatenated. -/
theorem GetNextFile_sequential_blocks (dropped cs rest : List Chunk) (last : Chunk)
    (d0 d1 : List Nat)
    (hdropped : ∀ c ∈ dropped, c.block_number ≠ 0)
    (hnum : (cs ++ [last]).map Chunk.block_number = List.range (cs.length + 1))
    (hwidth : last.block_number < 65536)
    (hflag : ∀ c ∈ cs, c.block_flag &&& 0x80 = 0)
    (hlast : last.block_flag &&& 0x80 ≠ 0) :
    (∃ file, GetNextFile (dropped ++ (cs ++ [last]) ++ rest) = (some file, rest) ∧
      file.chunks = cs ++ [last] ∧
      file.data = ((cs ++ [last]).map Chunk.data).flatten ∧
      file.is_protected = decide (last.block_flag &&& 0x01 ≠ 0) ∧
      some file.name = (cs ++ [last]).head?.map Chunk.name ∧
      some file.load_address = (cs ++ [last]).head?.map Chunk.load_address ∧
      some file.execution_address = (cs ++ [last]).head?.map Chunk.execution_address) ∧
    decompose_into_files 1 [numbered_chunk 0 0x00 d0, numbered_chunk 1 0x80 d1] [] =
      some [{ name := [], load_address := 0, execution_address := 0, is_protected := false,
              data := d0 ++ d1,
              chunks := [numbered_chunk 0 0x00 d0, numbered_chunk 1 0x80 d1] }] := by
  constructor
  · have hacc := accumulate_chunks_last cs rest last hnum hwidth hflag hlast
    have hnum2 : (cs ++ [last]).map Chunk.block_number =
        List.range' 0 (cs ++ [last]).length := by
      rw [hnum, List.range_eq_range']; simp
    obtain ⟨c, more, hcm, hc0⟩ := numbered_head (cs ++ [last]) rest (by simp) hnum2
    obtain ⟨file, hfile, hrest⟩ := assemble_file_append cs last
    refine ⟨file, ?_, hrest⟩
    rw [List.append_assoc dropped, hcm, GetNextFile_of_block_zero dropped c more hdropped hc0,
      ← hcm, hacc]
    simp only [hfile]
  · simp [decompose_into_files, GetNextFile, find_block_zero, accumulate_chunks, assemble_file,
      numbered_chunk]

end StaticAnalyser.Acorn

namespace StaticAnalyser.Acorn

/-- The reconstruction of a file from blocks 0 and 1 that follow a stray block 7
and precede another block 0. -/
theorem GetNextFile_sequential_blocks_witness :
    ((∀ c ∈ [numbered_chunk 7 0 [9]], c.block_number ≠ 0) ∧
      ([numbered_chunk 0 0x00 [1, 2]] ++ [numbered_chunk 1 0x81 [3]]).map Chunk.block_number =
        List.range ([numbered_chunk 0 0x00 [1, 2]].length + 1) ∧
      (numbered_chunk 1 0x81 [3]).block_number < 65536 ∧
      (∀ c ∈ [numbered_chunk 0 0x00 [1, 2]], c.block_flag &&& 0x80 = 0) ∧
      (numbered_chunk 1 0x81 [3]).block_flag &&& 0x80 ≠ 0) ∧
    ((∃ file, GetNextFile ([numbered_chunk 7 0 [9]] ++
          ([numbered_chunk 0 0x00 [1, 2]] ++ [numbered_chunk 1 0x81 [3]]) ++
            [numbered_chunk 0 0 [4]]) = (some file, [numbered_chunk 0 0 [4]]) ∧
      file.chunks = [numbered_chunk 0 0x00 [1, 2]] ++ [numbered_chunk 1 0x81 [3]] ∧
      file.data =
        (([numbered_chunk 0 0x00 [1, 2]] ++ [numbered_chunk 1 0x81 [3]]).map Chunk.data).flatten ∧
      file.is_protected = decide ((numbered_chunk 1 0x81 [3]).block_flag &&& 0x01 ≠ 0) ∧
      some file.name =
        ([numbered_chunk 0 0x00 [1, 2]] ++ [numbered_chunk 1 0x81 [3]]).head?.map Chunk.name ∧
      some file.load_address =
        ([numbered_chunk 0 0x00 [1, 2]] ++ [numbered_chunk 1 0x81 [3]]).head?.map
          Chunk.load_address ∧
      some file.execution_address =
        ([numbered_chunk 0 0x00 [1, 2]] ++ [numbered_chunk 1 0x81 [3]]).head?.map
          Chunk.execution_address) ∧
    decompose_into_files 1 [numbered_chunk 0 0x00 [1, 2], numbered_chunk 1 0x80 [3]] [] =
      some [{ name := [], load_address := 0, execution_address := 0, is_protected := false,
              data := [1, 2] ++ [3],
              chunks := [numbered_chunk 0 0x00 [1, 2], numbered_chunk 1 0x80 [3]] }]) :=
  ⟨⟨by decide, by decide, by decide, by decide, by decide⟩,
    GetNextFile_sequential_blocks [numbered_chunk 7 0 [9]] [numbered_chunk 0 0x00 [1, 2]]
      [numbered_chunk 0 0 [4]] (numbered_chunk 1 0x81 [3]) [1, 2] [3] (by decide) (by decide)
      (by decide) (by decide) (by decide)⟩

/-- C8, amended: when the queue, its leading chunks with non-zero block number
dropped, begins with `k` chunks numbered `0..k-1`, `1 ≤ k ≤ 65535`, none with flag
bit 0x80, followed by a chunk whose block number is not `k`, `GetNextFile` returns
no file and leaves the queue beginning at that chunk. So block 0 followed by
block 2 gives no file: the first pass stops at block 2, the second discards it. -/
theorem GetNextFile_gap_in_block_numbers (dropped cs rest : List Chunk) (bad : Chunk)
    (f2 : Nat) (d0 d2 : List Nat)
    (hdropped : ∀ c ∈ dropped, c.block_number ≠ 0)
    (hne : cs ≠ [])
    (hnum : cs.map Chunk.block_number = List.range cs.length)
    (hflag : ∀ c ∈ cs, c.block_flag &&& 0x80 = 0)
    (hk : cs.length ≤ 65535)
    (hbad : bad.block_number ≠ cs.length) :
    GetNextFile (dropped ++ cs ++ bad :: rest) = (none, bad :: rest) ∧
      GetNextFile [numbered_chunk 0 0x00 d0, numbered_chunk 2 f2 d2] =
        (none, [numbered_chunk 2 f2 d2]) ∧
      GetNextFile [numbered_chunk 2 f2 d2] = (none, []) ∧
      decompose_into_files 2 [numbered_chunk 0 0x00 d0, numbered_chunk 2 f2 d2] [] =
        some [] := by
  have h1 : GetNextFile [numbered_chunk 0 0x00 d0, numbered_chunk 2 f2 d2] =
      (none, [numbered_chunk 2 f2 d2]) := by
    simp [GetNextFile, find_block_zero, accumulate_chunks, numbered_chunk]
  have h2 : GetNextFile [numbered_chunk 2 f2 d2] = (none, []) := by
    simp [GetNextFile, find_block_zero, numbered_chunk]
  refine ⟨?_, h1, h2, ?_⟩
  · rw [List.range_eq_range'] at hnum
    obtain ⟨c, more, hcm, hc0⟩ := numbered_head cs (bad :: rest) hne hnum
    rw [List.append_assoc, hcm, GetNextFile_of_block_zero dropped c more hdropped hc0, ← hcm,
      accumulate_chunks_run cs (bad :: rest) 0 [] hnum hflag (by omega) (by omega)]
    have hmod : cs.length % 65536 = cs.length := Nat.mod_eq_of_lt (by omega)
    simp [accumulate_chunks, hmod, hbad]
  · simp only [decompose_into_files, h1, h2]

/-- A gap after blocks 0 and 1: block 3 follows, and is where the queue is left. -/
theorem GetNextFile_gap_in_block_numbers_witness :
    ((∀ c ∈ [numbered_chunk 5 0 []], c.block_number ≠ 0) ∧
      [numbered_chunk 0 0 [1], numbered_chunk 1 0 [2]] ≠ [] ∧
      [numbered_chunk 0 0 [1], numbered_chunk 1 0 [2]].map Chunk.block_number =
        List.range [numbered_chunk 0 0 [1], numbered_chunk 1 0 [2]].length ∧
      (∀ c ∈ [numbered_chunk 0 0 [1], numbered_chunk 1 0 [2]], c.block_flag &&& 0x80 = 0) ∧
      [numbered_chunk 0 0 [1], numbered_chunk 1 0 [2]].length ≤ 65535 ∧
      (numbered_chunk 3 0x80 [3]).block_number ≠
        [numbered_chunk 0 0 [1], numbered_chunk 1 0 [2]].length) ∧
    (GetNextFile ([numbered_chunk 5 0 []] ++ [numbered_chunk 0 0 [1], numbered_chunk 1 0 [2]] ++
        numbered_chunk 3 0x80 [3] :: [numbered_chunk 0 0 []]) =
      (none, numbered_chunk 3 0x80 [3] :: [numbered_chunk 0 0 []]) ∧
      GetNextFile [numbered_chunk 0 0x00 [1], numbered_chunk 2 0x80 [2]] =
        (none, [numbered_chunk 2 0x80 [2]]) ∧
      GetNextFile [numbered_chunk 2 0x80 [2]] = (none, []) ∧
      decompose_into_files 2 [numbered_chunk 0 0x00 [1], numbered_chunk 2 0x80 [2]] [] =
        some []) :=
  ⟨⟨by decide, by decide, by decide, by decide, by decide, by decide⟩,
    GetNextFile_gap_in_block_numbers [numbered_chunk 5 0 []]
      [numbered_chunk 0 0 [1], numbered_chunk 1 0 [2]] [numbered_chunk 0 0 []]
      (numbered_chunk 3 0x80 [3]) 0x80 [1] [2]
      (by decide) (by decide) (by decide) (by decide) (by decide) (by decide)⟩

theorem numbered_chunks_wrap (k : Nat) (hk : k = 65536) :
    GetNextFile ([] ++ ((List.range k).map fun i => numbered_chunk i 0 []) ++
        numbered_chunk 0 0 [] :: []) ≠ (none, numbered_chunk 0 0 [] :: []) := by
  have hlen : ((List.range k).map fun i => numbered_chunk i 0 []).length = k := by
    rw [List.length_map, List.length_range]
  have hnum : ((List.range k).map fun i => numbered_chunk i 0 []).map Chunk.block_number =
      List.range' 0 ((List.range k).map fun i => numbered_chunk i 0 []).length := by
    rw [hlen, ← List.range_eq_range', List.map_map]
    exact List.map_id _
  have hflag : ∀ c ∈ (List.range k).map fun i => numbered_chunk i 0 [],
      c.block_flag &&& 0x80 = 0 := by
    intro c hc
    rw [List.mem_map] at hc
    obtain ⟨i, _, rfl⟩ := hc
    show (0 : Nat) &&& 0x80 = 0
    decide
  have hne : ((List.range k).map fun i => numbered_chunk i 0 []) ≠ [] := by
    intro h
    have := congrArg List.length h
    rw [hlen] at this
    simp only [List.length_nil] at this
    omega
  obtain ⟨c, more, hcm, hc0⟩ := numbered_head _ (numbered_chunk 0 0 [] :: []) hne hnum
  rw [List.nil_append, hcm, ← List.nil_append (c :: more),
    GetNextFile_of_block_zero [] c more (fun d hd => absurd hd (List.not_mem_nil d)) hc0, ← hcm,
    accumulate_chunks_run _ (numbered_chunk 0 0 [] :: []) 0 [] hnum hflag (by omega)
      (by rw [hlen]; omega), hlen]
  have hmod : (0 + k) % 65536 = 0 := by omega
  rw [hmod]
  simp only [accumulate_chunks, numbered_chunk]
  intro h
  simp at h

/-- C8 fails at `k = 65536`: after 65536 chunks numbered 0 to 65535, none with
flag bit 0x80, a chunk numbered 0 (which is not 65536) does not stop the file:
the 16-bit block counter has wrapped to 0, the chunk is accumulated, and
`GetNextFile` does not return "no file" with the queue left at that chunk. -/
theorem GetNextFile_block_number_wraps :
    ((List.range 65536).map fun i => numbered_chunk i 0 []) ≠ [] ∧
    ((List.range 65536).map fun i => numbered_chunk i 0 []).map Chunk.block_number =
        List.range ((List.range 65536).map fun i => numbered_chunk i 0 []).length ∧
      (∀ c ∈ (List.range 65536).map fun i => numbered_chunk i 0 [], c.block_flag &&& 0x80 = 0) ∧
      (numbered_chunk 0 0 []).block_number ≠
        ((List.range 65536).map fun i => numbered_chunk i 0 []).length ∧
      GetNextFile ([] ++ ((List.range 65536).map fun i => numbered_chunk i 0 []) ++
          numbered_chunk 0 0 [] :: []) ≠ (none, numbered_chunk 0 0 [] :: []) := by
  have hlen : ((List.range 65536).map fun i => numbered_chunk i 0 []).length = 65536 := by
    rw [List.length_map, List.length_range]
  refine ⟨?_, ?_, ?_, ?_, numbered_chunks_wrap 65536 rfl⟩
  · intro h
    have := congrArg List.length h
    rw [hlen] at this
    exact absurd this (by simp)
  · rw [hlen, List.map_map]
    exact List.map_id _
  · intro c hc
    rw [List.mem_map] at hc
    obtain ⟨i, _, rfl⟩ := hc
    show (0 : Nat) &&& 0x80 = 0
    decide
  · rw [hlen]
    show (0 : Nat) ≠ 65536
    omega

end StaticAnalyser.Acorn

namespace Storage.Tape.TZX

open Storage

/-- C3, amended: after `virtual_reset`, from every prior decoder state, the pulse
queue holds none of the earlier pulses and holds exactly two pulses, a `Low` pulse
of 3,500 ticks (1 ms) and then a `High` pulse of 1,746,500 ticks (499 ms) of the
3,500,000 Hz clock, 500 ms in all; `current_level_` is false, the at-end flag is
clear and the file position is 10, just past the header. -/
theorem virtual_reset_eq (t : TZX) :
    virtual_reset t =
      { file_ := { data := t.file_.data, pos := 10, eof_flag := false }
        current_level_ := false
        pulses := [⟨PulseType.Low, ⟨3500, 3500000⟩⟩, ⟨PulseType.High, ⟨1746500, 3500000⟩⟩]
        is_at_end := false } := by
  simp [virtual_reset, post_gap, post_pulse_time, FileHolder.seek_set, StandardTZXClock,
    TZXClockMSMultiplier]

/-- C3 fails on a decoder reset from the empty file: the queue then holds two
pulses, `Low` for 3,500 ticks and `High` for 1,746,500 ticks, not the single `Low`
pulse of 1,750,000 ticks. -/
theorem virtual_reset_not_one_pulse :
    (virtual_reset ⟨⟨[], 0, false⟩, false, [], false⟩).pulses =
        [⟨PulseType.Low, ⟨3500, 3500000⟩⟩, ⟨PulseType.High, ⟨1746500, 3500000⟩⟩] ∧
      (virtual_reset ⟨⟨[], 0, false⟩, false, [], false⟩).pulses.length ≠ 1 ∧
      (virtual_reset ⟨⟨[], 0, false⟩, false, [], false⟩).pulses ≠
        [⟨PulseType.Low, ⟨1750000, 3500000⟩⟩] := by
  decide

theorem create_of_header (minor : Byte) (rest : List Byte) (h : minor.val ≤ 20) :
    create ([0x5a, 0x58, 0x54, 0x61, 0x70, 0x65, 0x21, 0x1a, 1, minor] ++ rest) =
      Except.ok (virtual_reset
        ⟨⟨[0x5a, 0x58, 0x54, 0x61, 0x70, 0x65, 0x21, 0x1a, 1, minor] ++ rest, 10, false⟩,
          false, [], false⟩) := by
  have h' : ¬ (20 < minor.val) := by omega
  have e0 : ((0x5a : Byte) : Nat) = 0x5a := rfl
  have e1 : ((0x58 : Byte) : Nat) = 0x58 := rfl
  have e2 : ((0x54 : Byte) : Nat) = 0x54 := rfl
  have e3 : ((0x61 : Byte) : Nat) = 0x61 := rfl
  have e4 : ((0x70 : Byte) : Nat) = 0x70 := rfl
  have e5 : ((0x65 : Byte) : Nat) = 0x65 := rfl
  have e6 : ((0x21 : Byte) : Nat) = 0x21 := rfl
  have e7 : ((0x1a : Byte) : Nat) = 0x1a := rfl
  simp [create, FileHolder.check_signature, FileHolder.get8, signature, h', e0, e1, e2, e3, e4,
    e5, e6, e7]

theorem header_of_create (contents : List Byte) (t : TZX) (h : create contents = Except.ok t) :
    ∃ (minor : Byte) (rest : List Byte),
      contents = [0x5a, 0x58, 0x54, 0x61, 0x70, 0x65, 0x21, 0x1a, 1, minor] ++ rest ∧
        minor.val ≤ 20 := by
  rcases contents with _ | ⟨b0, _ | ⟨b1, _ | ⟨b2, _ | ⟨b3, _ | ⟨b4, _ | ⟨b5, _ | ⟨b6, _ | ⟨b7,
    _ | ⟨b8, _ | ⟨b9, rest⟩⟩⟩⟩⟩⟩⟩⟩⟩⟩
  all_goals try (simp [create, FileHolder.check_signature, FileHolder.get8, signature] at h)
  split at h
  · exact absurd h (by simp)
  · rename_i hsig
    split at h
    · rename_i h7
      split at h
      · exact absurd h (by simp)
      · rename_i hver
        simp only [not_or, not_not, not_lt] at hsig hver
        obtain ⟨h0, h1, h2, h3, h4, h5, h6⟩ := hsig
        refine ⟨b9, rest, ?_, hver.2⟩
        have f0 : b0 = 0x5a := Fin.ext h0
        have f1 : b1 = 0x58 := Fin.ext h1
        have f2 : b2 = 0x54 := Fin.ext h2
        have f3 : b3 = 0x61 := Fin.ext h3
        have f4 : b4 = 0x70 := Fin.ext h4
        have f5 : b5 = 0x65 := Fin.ext h5
        have f6 : b6 = 0x21 := Fin.ext h6
        have f7 : b7 = 0x1a := Fin.ext h7
        have f8 : b8 = 1 := Fin.ext hver.1
        rw [f0, f1, f2, f3, f4, f5, f6, f7, f8]
        rfl
    · exact absurd h (by simp)

/-- C9: construction succeeds if and only if the file begins with the seven bytes
of "ZXTape!", the byte 0x1a, a major version byte 1 and a minor version byte of at
most 20; for every other file it fails with `ErrorNotTZX`, no decoder (and so no
pulse queue) being made; a file of major version 2 is such a file. -/
theorem create_succeeds_iff (contents : List Byte) :
    ((∃ t, create contents = Except.ok t) ↔
        ∃ (minor : Byte) (rest : List Byte),
          contents = [0x5a, 0x58, 0x54, 0x61, 0x70, 0x65, 0x21, 0x1a, 1, minor] ++ rest ∧
            minor.val ≤ 20) ∧
      ((¬ ∃ (minor : Byte) (rest : List Byte),
          contents = [0x5a, 0x58, 0x54, 0x61, 0x70, 0x65, 0x21, 0x1a, 1, minor] ++ rest ∧
            minor.val ≤ 20) →
        create contents = Except.error TZXError.ErrorNotTZX) ∧
      (∀ (minor : Byte) (rest : List Byte),
        create ([0x5a, 0x58, 0x54, 0x61, 0x70, 0x65, 0x21, 0x1a, 2, minor] ++ rest) =
          Except.error TZXError.ErrorNotTZX) := by
  refine ⟨⟨?_, ?_⟩, ?_, ?_⟩
  · rintro ⟨t, ht⟩
    exact header_of_create contents t ht
  · rintro ⟨minor, rest, rfl, hm⟩
    exact ⟨_, create_of_header minor rest hm⟩
  · intro hno
    cases hc : create contents with
    | error e => cases e; rfl
    | ok t => exact absurd (header_of_create contents t hc) hno
  · intro minor rest
    cases hc : create ([0x5a, 0x58, 0x54, 0x61, 0x70, 0x65, 0x21, 0x1a, 2, minor] ++ rest) with
    | error e => cases e; rfl
    | ok t =>
      obtain ⟨m, r, hm, _⟩ := header_of_create _ t hc
      simp only [List.cons_append, List.nil_append, List.cons.injEq] at hm
      exact absurd hm.2.2.2.2.2.2.2.2.1 (by decide)

end Storage.Tape.TZX

namespace Storage.Tape.TZX

open Storage

/-- C2: in a generalised data block whose pilot symbol table has one entry, the
symbol index 1, which is out of range, is not skipped: the guard
`symbol_value > number_of_symbols` lets it through and the table is indexed at 1,
outside `0..0`. The index 2 is skipped with no pulse and no change of level; the
index 0 emits the pulse of the one symbol. -/
theorem get_generalised_segment_indexes_table_at_its_size :
    (create (file_with_pilot_symbol 1)).map (fun t => get_next_pulses 1 (take_pulses t)) =
        Except.ok (Except.error (Fault.symbol_table_index 1 1)) ∧
      (create (file_with_pilot_symbol 2)).map
          (fun t => (get_next_pulses 2 (take_pulses t)).map
            (fun t1 => (t1.pulses, t1.current_level_))) =
        Except.ok (Except.ok ([], false)) ∧
      (create (file_with_pilot_symbol 0)).map
          (fun t => (get_next_pulses 2 (take_pulses t)).map
            (fun t1 => (t1.pulses, t1.current_level_))) =
        Except.ok (Except.ok ([⟨PulseType.Low, ⟨100, 3500000⟩⟩], true)) :=
  ⟨rfl, rfl, rfl⟩

end Storage.Tape.TZX

namespace Storage.Tape.TZX

set_option maxRecDepth 100000 in
theorem symbol_bits_table : ∀ n : Fin 256, 1 ≤ n.val →
    1 ≤ symbol_bits n.val ∧ n.val ≤ 2 ^ symbol_bits n.val ∧
      (symbol_bits n.val = 1 ∨ 2 ^ (symbol_bits n.val - 1) < n.val) := by
  decide

/-- C14, amended: for every symbol-table size `n` from 1 to 255 the element width
in bits used for the data symbols is the least `b ≥ 1` with `2^b ≥ n`; it is
`ceil(log2(n))` for `n` from 2 to 255, and 1 for `n = 1`. -/
theorem symbol_bits_least (n : Nat) (h1 : 1 ≤ n) (h255 : n ≤ 255) :
    1 ≤ symbol_bits n ∧ n ≤ 2 ^ symbol_bits n ∧
      (∀ b, 1 ≤ b → n ≤ 2 ^ b → symbol_bits n ≤ b) ∧
      (2 ≤ n → symbol_bits n = Nat.clog 2 n) ∧
      symbol_bits 1 = 1 := by
  have h := symbol_bits_table ⟨n, by omega⟩ h1
  simp only at h
  obtain ⟨hpos, hle, hmin⟩ := h
  have hleast : ∀ b, 1 ≤ b → n ≤ 2 ^ b → symbol_bits n ≤ b := by
    intro b hb hnb
    rcases hmin with h | h
    · omega
    · have hlt : 2 ^ (symbol_bits n - 1) < 2 ^ b := lt_of_lt_of_le h hnb
      have := (Nat.pow_lt_pow_iff_right (by norm_num : 1 < 2)).mp hlt
      omega
  refine ⟨hpos, hle, hleast, ?_, by decide⟩
  intro h2
  apply le_antisymm
  · exact hleast _ (Nat.clog_pos (by norm_num) h2) (Nat.le_pow_clog (by norm_num) n)
  · exact (Nat.le_pow_iff_clog_le (by norm_num)).mp hle

/-- The width for a table of 5 symbols. -/
theorem symbol_bits_least_witness :
    (1 ≤ 5 ∧ 5 ≤ 255) ∧
      (1 ≤ symbol_bits 5 ∧ 5 ≤ 2 ^ symbol_bits 5 ∧
        (∀ b, 1 ≤ b → 5 ≤ 2 ^ b → symbol_bits 5 ≤ b) ∧
        (2 ≤ 5 → symbol_bits 5 = Nat.clog 2 5) ∧
        symbol_bits 1 = 1) :=
  ⟨⟨by decide, by decide⟩, symbol_bits_least 5 (by decide) (by decide)⟩

/-- C14 fails at `n = 1`: the width used is 1 bit, while `ceil(log2(1))`, the least
`b` with `2^b ≥ 1`, is 0. -/
theorem symbol_bits_of_one_symbol :
    symbol_bits 1 = 1 ∧ 1 ≤ 2 ^ 0 ∧ Nat.clog 2 1 = 0 ∧ symbol_bits 1 ≠ Nat.clog 2 1 := by
  refine ⟨by decide, by decide, ?_, ?_⟩
  · simp
  · simp [symbol_bits, symbol_bits_loop]

end Storage.Tape.TZX

namespace Storage.Tape.TZX

/-- C15: for every duration `ms` from 1 to 65535 and either level, `post_gap(ms)`
appends one or two pulses on the 3,500,000 Hz clock whose durations sum to exactly
`ms * 3500` ticks; `ms = 1` yields a single pulse; and `post_gap(0)`, like a pause
block of duration 0, appends no pulse and leaves `current_level_` unchanged. -/
theorem post_gap_pulses (ms : Nat) (t : TZX) (h1 : 1 ≤ ms) (h2 : ms ≤ 65535) :
    (∃ new : List Pulse, (post_gap ms t).pulses = t.pulses ++ new ∧
      (new.length = 1 ∨ new.length = 2) ∧
      (new.map fun p => p.length.length).sum = ms * 3500 ∧
      (∀ p ∈ new, p.length.clock_rate = 3500000) ∧
      (ms = 1 → new.length = 1)) ∧
    post_gap 0 t = t ∧
    (t.file_.get16le.1 = 0 →
      (get_pause t).pulses = t.pulses ∧ (get_pause t).current_level_ = t.current_level_) := by
  refine ⟨?_, rfl, ?_⟩
  · have hne : ms ≠ 0 := by omega
    by_cases hc : (decide (ms > 1) && !t.current_level_) = true
    · refine ⟨[⟨if t.current_level_ then PulseType.High else PulseType.Low,
          ⟨TZXClockMSMultiplier, StandardTZXClock⟩⟩,
        ⟨if !t.current_level_ then PulseType.High else PulseType.Low,
          ⟨((ms - 1) * TZXClockMSMultiplier) % 4294967296, StandardTZXClock⟩⟩], ?_, ?_, ?_, ?_, ?_⟩
      · simp [post_gap, hne, hc, post_pulse_time]
      · right; rfl
      · have hlt : (ms - 1) * 3500 < 4294967296 := by omega
        simp only [List.map_cons, List.map_nil, List.sum_cons, List.sum_nil,
          TZXClockMSMultiplier, Nat.mod_eq_of_lt hlt]
        omega
      · intro p hp
        simp only [List.mem_cons, List.mem_singleton, List.not_mem_nil, or_false] at hp
        rcases hp with rfl | rfl <;> rfl
      · intro h
        subst h
        simp at hc
    · refine ⟨[⟨if t.current_level_ then PulseType.High else PulseType.Low,
          ⟨(ms * TZXClockMSMultiplier) % 4294967296, StandardTZXClock⟩⟩], ?_, ?_, ?_, ?_, ?_⟩
      · simp [post_gap, hne, hc, post_pulse_time]
      · left; rfl
      · have hlt : ms * 3500 < 4294967296 := by omega
        simp only [List.map_cons, List.map_nil, List.sum_cons, List.sum_nil,
          TZXClockMSMultiplier, Nat.mod_eq_of_lt hlt]
        omega
      · intro p hp
        simp only [List.mem_singleton] at hp
        subst hp
        rfl
      · intro _; rfl
  · intro h
    simp [get_pause, h]

/-- A gap of 3 ms posted at the low level. -/
theorem post_gap_pulses_witness :
    (1 ≤ 3 ∧ 3 ≤ 65535) ∧
    ((∃ new : List Pulse,
      (post_gap 3 ⟨⟨[0, 0], 0, false⟩, false, [], false⟩).pulses =
        (⟨⟨[0, 0], 0, false⟩, false, [], false⟩ : TZX).pulses ++ new ∧
      (new.length = 1 ∨ new.length = 2) ∧
      (new.map fun p => p.length.length).sum = 3 * 3500 ∧
      (∀ p ∈ new, p.length.clock_rate = 3500000) ∧
      (3 = 1 → new.length = 1)) ∧
    post_gap 0 ⟨⟨[0, 0], 0, false⟩, false, [], false⟩ = ⟨⟨[0, 0], 0, false⟩, false, [], false⟩ ∧
    ((⟨⟨[0, 0], 0, false⟩, false, [], false⟩ : TZX).file_.get16le.1 = 0 →
      (get_pause ⟨⟨[0, 0], 0, false⟩, false, [], false⟩).pulses =
          (⟨⟨[0, 0], 0, false⟩, false, [], false⟩ : TZX).pulses ∧
        (get_pause ⟨⟨[0, 0], 0, false⟩, false, [], false⟩).current_level_ =
          (⟨⟨[0, 0], 0, false⟩, false, [], false⟩ : TZX).current_level_)) :=
  ⟨⟨by decide, by decide⟩, post_gap_pulses 3 _ (by decide) (by decide)⟩

end Storage.Tape.TZX

namespace Storage.Tape.TZX

theorem level_after_cons (level : Bool) (width : Nat) (rest : List Nat) :
    level_after level (width :: rest) = level_after (!level) rest := by
  unfold level_after
  simp only [List.length_cons]
  rcases Nat.mod_two_eq_zero_or_one rest.length with h | h
  · have h2 : (rest.length + 1) % 2 = 1 := by omega
    simp [h, h2]
  · have h2 : (rest.length + 1) % 2 = 0 := by omega
    simp [h, h2]

theorem output_waves_eq (widths : List Nat) (t : TZX) :
    output_waves widths t =
      { t with
        pulses := t.pulses ++
          alternating_pulses t.current_level_ (widths.takeWhile fun w => decide (w ≠ 0))
        current_level_ :=
          level_after t.current_level_ (widths.takeWhile fun w => decide (w ≠ 0)) } := by
  induction widths generalizing t with
  | nil => simp [output_waves, alternating_pulses, level_after]
  | cons w ws ih =>
    by_cases hw : w = 0
    · simp [output_waves, hw, alternating_pulses, level_after]
    · simp only [output_waves, hw, if_false, ih]
      have htw : (w :: ws).takeWhile (fun w => decide (w ≠ 0)) =
          w :: ws.takeWhile (fun w => decide (w ≠ 0)) := by
        simp [List.takeWhile, hw]
      rw [htw, level_after_cons]
      simp [post_pulse, post_pulse_time, alternating_pulses]

theorem mutate_level_eq (flags : Nat) (t : TZX) :
    mutate_level flags t =
      { t with current_level_ :=
          if flags &&& 3 = 0 then t.current_level_
          else if flags &&& 3 = 1 then !t.current_level_
          else if flags &&& 3 = 2 then true
          else false } := by
  unfold mutate_level
  split
  · rename_i h; simp [h]
  · rename_i h; simp [h]
  · rename_i h; simp [h]
  · rename_i h0 h1 h2
    rw [if_neg h0, if_neg h1, if_neg h2]

/-- C19: each emission of an in-range symbol with flag byte `f` and widths `w` first
applies to `current_level_` the change selected by `f & 3` (0 leaves it, 1 toggles
it, 2 sets it high, 3 sets it low), then emits one pulse per width of `w` before
the first zero width, at alternating levels from the adjusted level. So the first
pulse is `High` when `f & 3 = 2` and `Low` when `f & 3 = 3`, and a symbol whose
first width is zero emits no pulse but still has the level change applied. -/
theorem output_symbol_emission (symbol : Symbol) (count : Nat) (t : TZX) :
    output_symbol symbol (count + 1) t =
        output_symbol symbol count
          (output_waves symbol.pulse_lengths (mutate_level symbol.flags t)) ∧
      mutate_level symbol.flags t =
        { t with current_level_ :=
            if symbol.flags &&& 3 = 0 then t.current_level_
            else if symbol.flags &&& 3 = 1 then !t.current_level_
            else if symbol.flags &&& 3 = 2 then true
            else false } ∧
      output_waves symbol.pulse_lengths (mutate_level symbol.flags t) =
        { mutate_level symbol.flags t with
          pulses := t.pulses ++
            alternating_pulses (mutate_level symbol.flags t).current_level_
              (symbol.pulse_lengths.takeWhile fun w => decide (w ≠ 0))
          current_level_ :=
            level_after (mutate_level symbol.flags t).current_level_
              (symbol.pulse_lengths.takeWhile fun w => decide (w ≠ 0)) } ∧
      (∀ w ws, symbol.pulse_lengths = w :: ws → w ≠ 0 →
        (symbol.flags &&& 3 = 2 →
          (output_waves symbol.pulse_lengths (mutate_level symbol.flags t)).pulses[
              t.pulses.length]? = some ⟨PulseType.High, ⟨w, 3500000⟩⟩) ∧
        (symbol.flags &&& 3 = 3 →
          (output_waves symbol.pulse_lengths (mutate_level symbol.flags t)).pulses[
              t.pulses.length]? = some ⟨PulseType.Low, ⟨w, 3500000⟩⟩)) ∧
      (∀ ws, symbol.pulse_lengths = 0 :: ws →
        output_waves symbol.pulse_lengths (mutate_level symbol.flags t) =
          mutate_level symbol.flags t) ∧
      (∀ (symbol_table : List Symbol) (number_of_symbols bits c : Nat) (is_data : Bool)
          (stream : FileHolder.BitStream) (s : TZX),
        (read_symbol_value is_data bits stream s).1 ≤ number_of_symbols →
        symbol_table[(read_symbol_value is_data bits stream s).1]? = some symbol →
        output_symbols_loop symbol_table number_of_symbols bits is_data (c + 1) stream s =
          output_symbols_loop symbol_table number_of_symbols bits is_data c
            (read_symbol_value is_data bits stream s).2.2.1
            (output_symbol symbol (read_symbol_value is_data bits stream s).2.1
              (read_symbol_value is_data bits stream s).2.2.2)) := by
  have hm := mutate_level_eq symbol.flags t
  have hpulses : (mutate_level symbol.flags t).pulses = t.pulses := by rw [hm]
  refine ⟨rfl, hm, ?_, ?_, ?_, ?_⟩
  · rw [output_waves_eq, hpulses]
  · intro w ws hws hw
    have htw : (w :: ws).takeWhile (fun w => decide (w ≠ 0)) =
        w :: ws.takeWhile (fun w => decide (w ≠ 0)) := by
      simp [List.takeWhile, hw]
    constructor
    · intro hf
      rw [output_waves_eq, hws, htw, hpulses]
      simp only []
      rw [List.getElem?_append_right (Nat.le_refl _), Nat.sub_self]
      simp [alternating_pulses, hm, hf, StandardTZXClock]
    · intro hf
      rw [output_waves_eq, hws, htw, hpulses]
      simp only []
      rw [List.getElem?_append_right (Nat.le_refl _), Nat.sub_self]
      simp [alternating_pulses, hm, hf, StandardTZXClock]
  · intro ws hws
    rw [hws]
    simp [output_waves]
  · intro symbol_table number_of_symbols bits c is_data stream s hle hsym
    have hng : ¬ (read_symbol_value is_data bits stream s).1 > number_of_symbols := by omega
    simp only [output_symbols_loop, hng, if_false, hsym]

end Storage.Tape.TZX

namespace StaticAnalyser.Acorn.Parser

theorem inspect_waves_stuck (p : Parser) (h : stuck_queue p.wave_queue) :
    inspect_waves p = p := by
  unfold inspect_waves
  rcases h with ⟨second, rest, hq, hne⟩ | ⟨rest, hq, w, hw, hne⟩
  · rw [hq]
    cases second with
    | Long => exact absurd rfl hne
    | Short => rfl
    | Unrecognised => rfl
  · rw [hq]
    rcases rest with _ | ⟨a, _ | ⟨b, _ | ⟨c, rest⟩⟩⟩
    · simp at hw
    · cases a
      · simp at hw; exact absurd hw hne
      · rfl
      · rfl
    · cases a <;> cases b <;> rfl
    · cases a <;> cases b <;> cases c <;> first | rfl | (simp at hw; exact absurd hw hne)

theorem stuck_queue_append (waves : List WaveType) (w : WaveType) (h : stuck_queue waves) :
    stuck_queue (waves ++ [w]) := by
  rcases h with ⟨second, rest, hq, hne⟩ | ⟨rest, hq, x, hx, hne⟩
  · left
    exact ⟨second, rest ++ [w], by rw [hq]; rfl, hne⟩
  · right
    refine ⟨rest ++ [w], by rw [hq]; rfl, x, ?_, hne⟩
    rw [List.take_append_eq_append_take]
    exact List.mem_append_left _ hx

theorem push_wave_stuck (p : Parser) (w : WaveType) (h : stuck_queue p.wave_queue) :
    push_wave w p = { p with wave_queue := p.wave_queue ++ [w] } := by
  unfold push_wave
  exact inspect_waves_stuck _ (stuck_queue_append _ w h)

theorem foldl_push_wave_stuck (waves : List WaveType) (p : Parser)
    (h : stuck_queue p.wave_queue) :
    waves.foldl (fun q w => push_wave w q) p = { p with wave_queue := p.wave_queue ++ waves } ∧
      stuck_queue (p.wave_queue ++ waves) := by
  induction waves generalizing p with
  | nil => simpa using h
  | cons w ws ih =>
    have hs := stuck_queue_append _ w h
    simp only [List.foldl_cons, push_wave_stuck p w h]
    have := ih { p with wave_queue := p.wave_queue ++ [w] } hs
    simpa using this

theorem push_waves_stuck (waves : List WaveType) (p : Parser)
    (h : stuck_queue p.wave_queue) (hnone : p.has_next_symbol = false) :
    push_waves waves p = ([], { p with wave_queue := p.wave_queue ++ waves }) := by
  induction waves generalizing p with
  | nil => simp [push_waves]
  | cons w ws ih =>
    have hs := stuck_queue_append _ w h
    simp only [push_waves, push_wave_stuck p w h, hnone]
    have := ih { p with wave_queue := p.wave_queue ++ [w] } hs hnone
    simpa [hnone] using this

theorem inspect_waves_cases (q : Parser) :
    inspect_waves q = q ∨
      (q.wave_queue.head? = some WaveType.Unrecognised ∧ inspect_waves q = remove_waves 1 q) ∨
      (∃ rest, q.wave_queue = WaveType.Long :: WaveType.Long :: rest ∧
        inspect_waves q = push_symbol SymbolType.Zero 2 q) ∨
      (∃ rest, q.wave_queue =
          WaveType.Short :: WaveType.Short :: WaveType.Short :: WaveType.Short :: rest ∧
        inspect_waves q = push_symbol SymbolType.One 4 q) := by
  unfold inspect_waves
  split
  · rename_i h; right; left; exact ⟨by rw [h]; rfl, rfl⟩
  · rename_i rest h; right; right; left; exact ⟨_, h, rfl⟩
  · rename_i rest h; right; right; right; exact ⟨_, h, rfl⟩
  · left; rfl

/-- C20: the waveform reducer has absorbing stuck states. When the first waveform of
the queue is `Long` and the second is not, or the first is `Short` and one of the
next three is not, then whatever waveforms are pushed afterwards, the parser only
has them appended to its queue: no symbol is produced and no waveform is removed,
and the queue is stuck again. A waveform leaves the queue only as a leading
`Unrecognised` or as part of the two `Long` or four `Short` of a symbol. -/
theorem stuck_queue_absorbing (p : Parser) (waves : List WaveType)
    (h : stuck_queue p.wave_queue) :
    waves.foldl (fun q w => push_wave w q) p = { p with wave_queue := p.wave_queue ++ waves } ∧
      stuck_queue (p.wave_queue ++ waves) ∧
      (p.has_next_symbol = false →
        push_waves waves p = ([], { p with wave_queue := p.wave_queue ++ waves })) ∧
      (∀ q : Parser, inspect_waves q = q ∨
        (q.wave_queue.head? = some WaveType.Unrecognised ∧ inspect_waves q = remove_waves 1 q) ∨
        (∃ rest, q.wave_queue = WaveType.Long :: WaveType.Long :: rest ∧
          inspect_waves q = push_symbol SymbolType.Zero 2 q) ∨
        (∃ rest, q.wave_queue =
            WaveType.Short :: WaveType.Short :: WaveType.Short :: WaveType.Short :: rest ∧
          inspect_waves q = push_symbol SymbolType.One 4 q)) :=
  ⟨(foldl_push_wave_stuck waves p h).1, (foldl_push_wave_stuck waves p h).2,
    push_waves_stuck waves p h, inspect_waves_cases⟩

/-- The queue `[Long, Short]`, on which a `Zero` and a `One` are then pushed. -/
theorem stuck_queue_absorbing_witness :
    stuck_queue (⟨[], [WaveType.Long, WaveType.Short], SymbolType.Zero, false, false, 0⟩ :
        Parser).wave_queue ∧
    ([WaveType.Long, WaveType.Long, WaveType.Short, WaveType.Short, WaveType.Short,
          WaveType.Short].foldl (fun q w => push_wave w q)
        (⟨[], [WaveType.Long, WaveType.Short], SymbolType.Zero, false, false, 0⟩ : Parser) =
      { (⟨[], [WaveType.Long, WaveType.Short], SymbolType.Zero, false, false, 0⟩ : Parser) with
        wave_queue :=
          (⟨[], [WaveType.Long, WaveType.Short], SymbolType.Zero, false, false, 0⟩ :
            Parser).wave_queue ++
          [WaveType.Long, WaveType.Long, WaveType.Short, WaveType.Short, WaveType.Short,
            WaveType.Short] } ∧
      stuck_queue
        ((⟨[], [WaveType.Long, WaveType.Short], SymbolType.Zero, false, false, 0⟩ :
            Parser).wave_queue ++
          [WaveType.Long, WaveType.Long, WaveType.Short, WaveType.Short, WaveType.Short,
            WaveType.Short]) ∧
      ((⟨[], [WaveType.Long, WaveType.Short], SymbolType.Zero, false, false, 0⟩ :
          Parser).has_next_symbol = false →
        push_waves [WaveType.Long, WaveType.Long, WaveType.Short, WaveType.Short, WaveType.Short,
            WaveType.Short]
          (⟨[], [WaveType.Long, WaveType.Short], SymbolType.Zero, false, false, 0⟩ : Parser) =
        ([], { (⟨[], [WaveType.Long, WaveType.Short], SymbolType.Zero, false, false, 0⟩ :
            Parser) with
          wave_queue :=
            (⟨[], [WaveType.Long, WaveType.Short], SymbolType.Zero, false, false, 0⟩ :
              Parser).wave_queue ++
            [WaveType.Long, WaveType.Long, WaveType.Short, WaveType.Short, WaveType.Short,
              WaveType.Short] })) ∧
      (∀ q : Parser, inspect_waves q = q ∨
        (q.wave_queue.head? = some WaveType.Unrecognised ∧ inspect_waves q = remove_waves 1 q) ∨
        (∃ rest, q.wave_queue = WaveType.Long :: WaveType.Long :: rest ∧
          inspect_waves q = push_symbol SymbolType.Zero 2 q) ∨
        (∃ rest, q.wave_queue =
            WaveType.Short :: WaveType.Short :: WaveType.Short :: WaveType.Short :: rest ∧
          inspect_waves q = push_symbol SymbolType.One 4 q))) :=
  ⟨Or.inl ⟨WaveType.Short, [], rfl, by decide⟩,
    stuck_queue_absorbing _ _ (Or.inl ⟨WaveType.Short, [], rfl, by decide⟩)⟩

end StaticAnalyser.Acorn.Parser

namespace Storage.Tape.TZX

theorem get8_of_byte (f : FileHolder) (b : Byte) (h : f.data[f.pos]? = some b) :
    f.get8 = (b.val, { f with pos := f.pos + 1 }) := by
  simp [FileHolder.get8, h]

theorem or_shift_eq_add (a b : Nat) (ha : a < 256) : a ||| (b <<< 8) = a + 256 * b := by
  rw [Nat.shiftLeft_eq, Nat.lor_comm, Nat.mul_comm b (2 ^ 8),
    ← Nat.mul_add_lt_is_or (by simpa using ha) b]
  omega

theorem get16le_of_bytes (f : FileHolder) (b0 b1 : Byte) (h0 : f.data[f.pos]? = some b0)
    (h1 : f.data[f.pos + 1]? = some b1) :
    f.get16le = (b0.val + 256 * b1.val, { f with pos := f.pos + 2 }) := by
  have e1 := get8_of_byte f b0 h0
  have e2 := get8_of_byte { f with pos := f.pos + 1 } b1 h1
  simp only [FileHolder.get16le, e1, e2, or_shift_eq_add b0.val b1.val b0.isLt]

theorem seek_cur_nat (n : Nat) (f : FileHolder) :
    f.seek_cur (n : Int) = { f with pos := f.pos + n, eof_flag := false } := by
  unfold FileHolder.seek_cur
  have h : ¬ ((f.pos : Int) + (n : Int) < 0) := by omega
  rw [if_neg h]
  have e : ((f.pos : Int) + (n : Int)).toNat = f.pos + n := by omega
  rw [e]

/-- C11: each ignorable block handler leaves the pulse queue and `current_level_`
unchanged and moves the file position on by the declared size of the block after
its type byte: nothing for group end (0x22), loop end (0x25) and return (0x27);
with first byte `b0`, `1 + b0` for group start (0x21) and text description (0x30)
and `1 + 3 * b0` for hardware type (0x33); with first two bytes `b0`, `b1`, 2 for
jump (0x23) and loop start (0x24), `2 + 2 * N` for call sequence (0x26) and `2 + N`
for select (0x28), `N` the 16-bit value `b0 + 256 * b1`, and `2 + b1` for message
(0x31). -/
theorem ignored_blocks_skip (t : TZX) :
    (skips_bytes 0x22 0 t ∧ skips_bytes 0x25 0 t ∧ skips_bytes 0x27 0 t) ∧
    (∀ b0 : Byte, t.file_.data[t.file_.pos]? = some b0 →
      (skips_bytes 0x21 (1 + b0.val) t ∧ skips_bytes 0x30 (1 + b0.val) t ∧
        skips_bytes 0x33 (1 + 3 * b0.val) t) ∧
      ∀ b1 : Byte, t.file_.data[t.file_.pos + 1]? = some b1 →
        skips_bytes 0x23 2 t ∧ skips_bytes 0x24 2 t ∧
          skips_bytes 0x26 (2 + 2 * (b0.val + 256 * b1.val)) t ∧
          skips_bytes 0x28 (2 + (b0.val + 256 * b1.val)) t ∧
          skips_bytes 0x31 (2 + b1.val) t) := by
  refine ⟨⟨⟨t, rfl, rfl, rfl, rfl, rfl, rfl⟩, ⟨t, rfl, rfl, rfl, rfl, rfl, rfl⟩,
    ⟨t, rfl, rfl, rfl, rfl, rfl, rfl⟩⟩, ?_⟩
  intro b0 h0
  have e8 := get8_of_byte t.file_ b0 h0
  refine ⟨⟨⟨_, rfl, ?_⟩, ⟨_, rfl, ?_⟩, ⟨_, rfl, ?_⟩⟩, ?_⟩
  · simp only [ignore_group_start, e8, seek_cur_nat, true_and, and_true]
    omega
  · simp only [ignore_text_description, e8, seek_cur_nat, true_and, and_true]
    omega
  · simp only [get_hardware_type, e8, seek_cur_nat, true_and, and_true]
    omega
  · intro b1 h1
    have e16 := get16le_of_bytes t.file_ b0 b1 h0 h1
    have e8b := get8_of_byte { t.file_ with pos := t.file_.pos + 1 } b1 h1
    refine ⟨⟨_, rfl, ?_⟩, ⟨_, rfl, ?_⟩, ⟨_, rfl, ?_⟩, ⟨_, rfl, ?_⟩, ⟨_, rfl, ?_⟩⟩
    · simp only [ignore_jump_to_block, e16, true_and, and_true]
    · simp only [ignore_loop_start, e16, true_and, and_true]
    · simp only [ignore_call_sequence, e16, seek_cur_nat, true_and, and_true]
      omega
    · simp only [ignore_select_block, e16, seek_cur_nat, true_and, and_true]
      omega
    · simp only [ignore_message_block, e8, e8b, seek_cur_nat, true_and, and_true]
      omega

end Storage.Tape.TZX

namespace Storage.Tape.TZX

theorem level_after_nil (level : Bool) : level_after level [] = level := by
  simp [level_after]

theorem alternating_pulses_append (level : Bool) (a b : List Nat) :
    alternating_pulses level (a ++ b) =
      alternating_pulses level a ++ alternating_pulses (level_after level a) b := by
  induction a generalizing level with
  | nil => simp [alternating_pulses, level_after_nil]
  | cons w ws ih => simp [alternating_pulses, ih, level_after_cons]

theorem level_after_append (level : Bool) (a b : List Nat) :
    level_after level (a ++ b) = level_after (level_after level a) b := by
  induction a generalizing level with
  | nil => simp [level_after_nil]
  | cons w ws ih => simp [level_after_cons, ih]

theorem with_pulses_nil (t : TZX) : with_pulses [] t = t := by
  simp [with_pulses, alternating_pulses, level_after_nil]

theorem with_pulses_append (a b : List Nat) (t : TZX) :
    with_pulses (a ++ b) t = with_pulses b (with_pulses a t) := by
  simp [with_pulses, alternating_pulses_append, level_after_append]

theorem post_pulse_eq (w : Nat) (t : TZX) : post_pulse w t = with_pulses [w] t := by
  simp [post_pulse, post_pulse_time, with_pulses, alternating_pulses, level_after]

theorem with_pulses_cons (w : Nat) (ws : List Nat) (t : TZX) :
    with_pulses (w :: ws) t = with_pulses ws (post_pulse w t) := by
  rw [post_pulse_eq, ← with_pulses_append]
  rfl

theorem post_pulses_eq (n w : Nat) (t : TZX) :
    post_pulses n w t = with_pulses (List.replicate n w) t := by
  induction n generalizing t with
  | zero => simp [post_pulses, with_pulses_nil]
  | succ n ih => rw [post_pulses, ih, List.replicate_succ, with_pulses_cons]

theorem output_bits_eq (data : Data) (bits next_byte : Nat) (t : TZX) :
    output_bits data bits next_byte t =
      with_pulses
        (bit_widths data.length_of_zero_bit_pulse data.length_of_one_bit_pulse bits next_byte) t := by
  induction bits generalizing next_byte t with
  | zero => simp [output_bits, bit_widths, with_pulses_nil]
  | succ n ih =>
    rw [output_bits, ih, bit_widths, with_pulses_cons, with_pulses_cons]

set_option maxRecDepth 100000 in
theorem bit_widths_standard : ∀ d : Byte, bit_widths 855 1710 8 d.val = byte_widths d.val := by
  decide

set_option maxRecDepth 100000 in
theorem pilot_tone_length : ∀ d : Byte,
    (if d.val < 128 then 8063 else 3223) = (if d.val.testBit 7 then 3223 else 8063) := by
  decide

theorem with_pulses_file (ws : List Nat) (t : TZX) (f : FileHolder) :
    with_pulses ws { t with file_ := f } = { with_pulses ws t with file_ := f } := rfl

theorem output_bytes_standard (data : Data) (hz : data.length_of_zero_bit_pulse = 855)
    (ho : data.length_of_one_bit_pulse = 1710) (h8 : data.number_of_bits_in_final_byte = 8)
    (ds : List Byte) (t : TZX)
    (hds : ∀ i, i < ds.length → t.file_.data[t.file_.pos + i]? = ds[i]?) :
    output_bytes data ds.length t =
      with_pulses (ds.flatMap fun d => byte_widths d.val)
        { t with file_ := { t.file_ with pos := t.file_.pos + ds.length } } := by
  induction ds generalizing t with
  | nil =>
    simp only [List.length_nil, output_bytes, List.flatMap_nil, with_pulses_nil, Nat.add_zero]
  | cons d ds ih =>
    have h0 : t.file_.data[t.file_.pos]? = some d := by
      have := hds 0 (by simp)
      simpa using this
    have e8 := get8_of_byte t.file_ d h0
    have hbits : (if ds.length ≠ 0 then 8 else data.number_of_bits_in_final_byte) = 8 := by
      split
      · rfl
      · exact h8
    simp only [List.length_cons, output_bytes, e8, hbits, output_bits_eq, hz, ho,
      bit_widths_standard d]
    rw [with_pulses_file, ih]
    · simp only [List.flatMap_cons, with_pulses_append, with_pulses_file]
      have e : t.file_.pos + 1 + ds.length = t.file_.pos + (ds.length + 1) := by omega
      simp only [with_pulses, e]
    · intro i hi
      have := hds (i + 1) (by simp; omega)
      simp only [List.getElem?_cons_succ] at this
      have e : t.file_.pos + 1 + i = t.file_.pos + (i + 1) := by omega
      simp only [with_pulses, e]
      exact this

theorem getElem?_append_length (xs ys : List Byte) (k : Nat) :
    (xs ++ ys)[xs.length + k]? = ys[k]? := by
  rw [List.getElem?_append_right (Nat.le_add_right _ _), Nat.add_sub_cancel_left]

theorem byte_widths_length (d : Nat) : (byte_widths d).length = 16 := by
  have h : ∀ i, (if d.testBit (7 - i) then [1710, 1710] else [855, 855] : List Nat).length = 2 := by
    intro i; split <;> rfl
  have hf : (List.length ∘ fun i => (if d.testBit (7 - i) then [1710, 1710] else [855, 855] :
      List Nat)) = fun _ => 2 := funext h
  simp only [byte_widths, List.length_flatMap, hf]
  rfl

theorem flatMap_byte_widths_even (ds : List Byte) :
    (ds.flatMap fun d => byte_widths d.val).length % 2 = 0 := by
  induction ds with
  | nil => rfl
  | cons d ds ih =>
    simp only [List.flatMap_cons, List.length_append, byte_widths_length]
    omega

theorem standard_block_level (d0 : Byte) (more : List Byte) (t : TZX) :
    (with_pulses (standard_block_widths d0 more) t).current_level_ = !t.current_level_ := by
  have hpilot : (if d0.val.testBit 7 then 3223 else 8063) % 2 = 1 := by
    split <;> rfl
  have hdata := flatMap_byte_widths_even (d0 :: more)
  have hodd : (standard_block_widths d0 more).length % 2 = 1 := by
    unfold standard_block_widths
    generalize (if d0.val.testBit 7 then 3223 else 8063) = pilot at hpilot
    simp only [List.length_append, List.length_replicate, List.length_cons, List.length_nil]
    omega
  simp only [with_pulses, level_after, hodd]
  simp

/-- C18: a standard speed block with pause `p`, data length `n ≥ 1` and data bytes
`d0..d(n-1)` posts, at alternating levels from the level held on entry, the pilot
tone (8063 pulses of 2168 ticks if the top bit of `d0` is clear, 3223 if it is
set), a pulse of 667 and one of 735 ticks, then for each data byte, `d0` included,
and each of its 8 bits from the most significant two pulses of 1710 ticks for a 1
or 855 for a 0; then it posts the gap of `post_gap(p)`, the file position being
past the data. -/
theorem standard_speed_block_pulses (t : TZX) (before after more : List Byte)
    (p0 p1 n0 n1 d0 : Byte)
    (hfile : t.file_.data = before ++ (p0 :: p1 :: n0 :: n1 :: ((d0 :: more) ++ after)))
    (hpos : t.file_.pos = before.length)
    (hlen : (d0 :: more).length = n0.val + 256 * n1.val) :
    get_standard_speed_data_block t =
        post_gap (p0.val + 256 * p1.val)
          (with_pulses (standard_block_widths d0 more)
            { t with file_ :=
                { data := t.file_.data, pos := t.file_.pos + 4 + (d0 :: more).length,
                  eof_flag := false } }) ∧
      (with_pulses (standard_block_widths d0 more) t).pulses =
        t.pulses ++ alternating_pulses t.current_level_ (standard_block_widths d0 more) ∧
      (with_pulses (standard_block_widths d0 more) t).current_level_ = !t.current_level_ := by
  have hidx : ∀ k, t.file_.data[t.file_.pos + k]? =
      (p0 :: p1 :: n0 :: n1 :: ((d0 :: more) ++ after))[k]? := by
    intro k
    rw [hfile, hpos, getElem?_append_length]
  have hp0 : t.file_.data[t.file_.pos]? = some p0 := by simpa using hidx 0
  have hp1 : t.file_.data[t.file_.pos + 1]? = some p1 := by simpa using hidx 1
  have hn0 : t.file_.data[t.file_.pos + 2]? = some n0 := by simpa using hidx 2
  have hn1 : t.file_.data[t.file_.pos + 2 + 1]? = some n1 := by simpa using hidx 3
  have hd0 : t.file_.data[t.file_.pos + 2 + 2]? = some d0 := by simpa using hidx 4
  have e1 := get16le_of_bytes t.file_ p0 p1 hp0 hp1
  have e2 := get16le_of_bytes { t.file_ with pos := t.file_.pos + 2 } n0 n1 hn0 hn1
  have e3 := get8_of_byte { t.file_ with pos := t.file_.pos + 2 + 2 } d0 hd0
  have hne : ¬ (n0.val + 256 * n1.val = 0) := by
    rw [← hlen]; simp
  have hseek : FileHolder.seek_cur (-1)
      ({ t.file_ with pos := t.file_.pos + 2 + 2 + 1 } : FileHolder) =
      { data := t.file_.data, pos := t.file_.pos + 4, eof_flag := false } := by
    unfold FileHolder.seek_cur
    have h : ¬ (((t.file_.pos + 2 + 2 + 1 : Nat) : Int) + (-1) < 0) := by omega
    simp only [h, if_false]
    have e : (((t.file_.pos + 2 + 2 + 1 : Nat) : Int) + (-1)).toNat = t.file_.pos + 4 := by omega
    rw [e]
  refine ⟨?_, rfl, ?_⟩
  · simp only [get_standard_speed_data_block, e1, e2, e3, hne, if_false, hseek]
    rw [pilot_tone_length d0]
    unfold standard_block_widths
    generalize (if d0.val.testBit 7 then 3223 else 8063) = pilot
    simp only [get_data_block, get_data, post_pulses_eq, post_pulse_eq]
    rw [← hlen, output_bytes_standard _ rfl rfl rfl (d0 :: more)]
    · have e : ([667, 735] : List Nat) = [667] ++ [735] := rfl
      rw [e]
      simp only [with_pulses_file, with_pulses_append]
    · intro i hi
      have := hidx (4 + i)
      rw [← Nat.add_assoc] at this
      show t.file_.data[t.file_.pos + 4 + i]? = (d0 :: more)[i]?
      rw [this, Nat.add_comm 4 i]
      simp only [List.getElem?_cons_succ]
      exact List.getElem?_append_left hi
  · exact standard_block_level d0 more t

/-- The block of pause 3 ms and the single data byte 0x80, read from the start of a
file that holds nothing else. -/
theorem standard_speed_block_pulses_witness :
    ((⟨⟨[3, 0, 1, 0, 0x80], 0, false⟩, false, [], false⟩ : TZX).file_.data =
        [] ++ ((3 : Byte) :: 0 :: 1 :: 0 :: (((0x80 : Byte) :: []) ++ [])) ∧
      (⟨⟨[3, 0, 1, 0, 0x80], 0, false⟩, false, [], false⟩ : TZX).file_.pos =
        ([] : List Byte).length ∧
      ((0x80 : Byte) :: []).length = (1 : Byte).val + 256 * (0 : Byte).val) ∧
    (get_standard_speed_data_block ⟨⟨[3, 0, 1, 0, 0x80], 0, false⟩, false, [], false⟩ =
        post_gap ((3 : Byte).val + 256 * (0 : Byte).val)
          (with_pulses (standard_block_widths 0x80 [])
            { (⟨⟨[3, 0, 1, 0, 0x80], 0, false⟩, false, [], false⟩ : TZX) with file_ :=
                { data := (⟨⟨[3, 0, 1, 0, 0x80], 0, false⟩, false, [], false⟩ : TZX).file_.data,
                  pos := (⟨⟨[3, 0, 1, 0, 0x80], 0, false⟩, false, [], false⟩ : TZX).file_.pos + 4 +
                    ((0x80 : Byte) :: []).length,
                  eof_flag := false } }) ∧
      (with_pulses (standard_block_widths 0x80 [])
          ⟨⟨[3, 0, 1, 0, 0x80], 0, false⟩, false, [], false⟩).pulses =
        (⟨⟨[3, 0, 1, 0, 0x80], 0, false⟩, false, [], false⟩ : TZX).pulses ++
          alternating_pulses
            (⟨⟨[3, 0, 1, 0, 0x80], 0, false⟩, false, [], false⟩ : TZX).current_level_
            (standard_block_widths 0x80 []) ∧
      (with_pulses (standard_block_widths 0x80 [])
          ⟨⟨[3, 0, 1, 0, 0x80], 0, false⟩, false, [], false⟩).current_level_ =
        !(⟨⟨[3, 0, 1, 0, 0x80], 0, false⟩, false, [], false⟩ : TZX).current_level_) :=
  ⟨⟨rfl, rfl, rfl⟩,
    standard_speed_block_pulses ⟨⟨[3, 0, 1, 0, 0x80], 0, false⟩, false, [], false⟩ [] [] []
      3 0 1 0 0x80 rfl rfl rfl⟩

end Storage.Tape.TZX

namespace Storage.Tape.TZX

end Storage.Tape.TZX

namespace StaticAnalyser.Acorn

open Storage

theorem get_next_bit_fields (p : Parser) :
    p.get_next_bit.2.crc = p.crc ∧ p.get_next_bit.2.error_flag = p.error_flag ∧
      (p.get_next_bit.1 = 0 ∨ p.get_next_bit.1 = 1) := by
  have h := Parser.get_next_symbol_crc p
  refine ⟨h.1, h.2, ?_⟩
  simp only [Parser.get_next_bit]
  split
  · right; rfl
  · left; rfl

theorem get_data_bits_fields (c value : Nat) (p : Parser) (hv : value < 256) :
    (Parser.get_data_bits c value p).2.crc = p.crc ∧
      (Parser.get_data_bits c value p).2.error_flag = p.error_flag ∧
      (Parser.get_data_bits c value p).1 < 256 := by
  induction c generalizing value p with
  | zero => exact ⟨rfl, rfl, hv⟩
  | succ n ih =>
    obtain ⟨h1, h2, h3⟩ := get_next_bit_fields p
    have hnew : (value >>> 1) ||| (p.get_next_bit.1 <<< 7) < 256 := by
      have ha : value >>> 1 < 2 ^ 8 := by
        rw [Nat.shiftRight_eq_div_pow]; omega
      have hb : p.get_next_bit.1 <<< 7 < 2 ^ 8 := by
        rw [Nat.shiftLeft_eq]; rcases h3 with h | h <;> rw [h] <;> norm_num
      exact Nat.or_lt_two_pow ha hb
    obtain ⟨i1, i2, i3⟩ := ih _ p.get_next_bit.2 hnew
    simp only [Parser.get_data_bits]
    exact ⟨i1.trans h1, i2.trans h2, i3⟩

theorem toU8_natCast (v : Nat) (h : v < 256) : toU8 (v : Int) = v := by
  unfold toU8
  omega

/-- What one `get_next_byte` does: on a start bit of 1 or a stop bit of 0 it returns
-1 and raises the error flag; otherwise it returns a byte, leaves the flag and
adds the byte to the CRC. -/
theorem get_next_byte_spec (p : Parser) :
    (p.get_next_byte.1 = -1 ↔
      (p.get_next_bit.1 = 1 ∨
        (Parser.get_next_bit (Parser.get_data_bits 8 0 p.get_next_bit.2).2).1 = 0)) ∧
    p.get_next_byte.2.error_flag = (p.error_flag || decide (p.get_next_byte.1 = -1)) ∧
    (p.get_next_byte.1 ≠ -1 →
      0 ≤ p.get_next_byte.1 ∧ p.get_next_byte.1 < 256 ∧
        p.get_next_byte.2.crc = Parser.crc_add p.crc (toU8 p.get_next_byte.1)) := by
  obtain ⟨s1, s2, s3⟩ := get_next_bit_fields p
  obtain ⟨d1, d2, d3⟩ := get_data_bits_fields 8 0 p.get_next_bit.2 (by norm_num)
  obtain ⟨e1, e2, e3⟩ := get_next_bit_fields (Parser.get_data_bits 8 0 p.get_next_bit.2).2
  have hnn : ∀ v : Nat, ((v : Int) = -1) = False := by
    intro v; apply propext; constructor
    · intro h; omega
    · intro h; exact absurd h id
  unfold Parser.get_next_byte
  simp only
  by_cases hstart : p.get_next_bit.1 ≠ 0
  · have h1 : p.get_next_bit.1 = 1 := by rcases s3 with h | h; exact absurd h hstart; exact h
    simp [hstart, h1]
  · have h0 : p.get_next_bit.1 = 0 := by simpa using hstart
    by_cases hstop : (Parser.get_next_bit (Parser.get_data_bits 8 0 p.get_next_bit.2).2).1 = 0
    · simp [h0, hstop]
    · simp only [h0, hstop, ne_eq, not_true_eq_false, if_false, hnn, Parser.add_to_crc,
        toU8_natCast _ d3, e1, e2, d1, d2, s1, s2]
      refine ⟨by simp, by simp, ?_⟩
      intro _
      exact ⟨by omega, by omega, trivial⟩

theorem toU32_natCast (v : Nat) (h : v < 4294967296) : toU32 (v : Int) = v := by
  unfold toU32
  omega

theorem ofU32_small (v : Nat) (h : v < 2147483648) : ofU32 v = (v : Int) := by
  unfold ofU32
  have e : v % 4294967296 = v := Nat.mod_eq_of_lt (by omega)
  rw [e, if_pos h]

theorem or_shift_eq_add8 (a b : Nat) (ha : a < 256) : a ||| (b <<< 8) = a + 256 * b := by
  rw [Nat.shiftLeft_eq, Nat.lor_comm, Nat.mul_comm b (2 ^ 8),
    ← Nat.mul_add_lt_is_or (by simpa using ha) b]
  omega

/-- A `get_next_short` of two bytes read without error is their little-endian
value, and its byte swap their big-endian value. -/
theorem short_of_bytes (a b : Nat) (ha : a < 256) (hb : b < 256) :
    int_or (a : Int) (int_shl (b : Int) 8) = ((a + 256 * b : Nat) : Int) ∧
      swap_bytes (toU16 (int_or (a : Int) (int_shl (b : Int) 8))) = 256 * a + b := by
  have h1 : int_shl (b : Int) 8 = ((b <<< 8 : Nat) : Int) := by
    unfold int_shl
    rw [toU32_natCast b (by omega)]
    exact ofU32_small _ (by rw [Nat.shiftLeft_eq]; omega)
  have h2 : int_or (a : Int) (int_shl (b : Int) 8) = ((a + 256 * b : Nat) : Int) := by
    unfold int_or
    rw [h1, toU32_natCast a (by omega),
      toU32_natCast (b <<< 8) (by rw [Nat.shiftLeft_eq]; omega), or_shift_eq_add8 a b ha]
    exact ofU32_small _ (by omega)
  refine ⟨h2, ?_⟩
  rw [h2]
  have h3 : toU16 ((a + 256 * b : Nat) : Int) = a + 256 * b := by
    unfold toU16
    omega
  rw [h3]
  unfold swap_bytes
  have h4 : (a + 256 * b) >>> 8 = b := by
    rw [Nat.shiftRight_eq_div_pow]; omega
  rw [h4, or_shift_eq_add8 b (a + 256 * b) hb]
  omega

theorem flag_matches_get_next_byte (r : Reading) (h : r.flag_matches) :
    r.get_next_byte.2.flag_matches := by
  unfold Reading.flag_matches at h ⊢
  simp only [Reading.get_next_byte, List.any_append, List.any_cons, List.any_nil, Bool.or_false]
  rw [(get_next_byte_spec r.parser).2.1, h]

theorem flag_matches_get_next_short (r : Reading) (h : r.flag_matches) :
    r.get_next_short.2.flag_matches := by
  unfold Reading.get_next_short
  dsimp only
  exact flag_matches_get_next_byte _ (flag_matches_get_next_byte _ h)

theorem flag_matches_get_next_word (r : Reading) (h : r.flag_matches) :
    r.get_next_word.2.flag_matches := by
  unfold Reading.get_next_word
  dsimp only
  exact flag_matches_get_next_short _ (flag_matches_get_next_short _ h)

theorem flag_matches_read_name (room : Nat) (name : List Nat) (r : Reading)
    (h : r.flag_matches) : (read_name room name r).2.flag_matches := by
  induction room generalizing name r with
  | zero => exact h
  | succ n ih =>
    unfold read_name
    split
    · exact h
    · dsimp only
      split
      · exact flag_matches_get_next_byte r h
      · exact ih _ _ (flag_matches_get_next_byte r h)

theorem flag_matches_read_data (c : Nat) (r : Reading) (h : r.flag_matches) :
    (read_data c r).2.flag_matches := by
  induction c generalizing r with
  | zero => exact h
  | succ n ih =>
    unfold read_data
    dsimp only
    exact ih _ (flag_matches_get_next_byte r h)

theorem flag_matches_read_header (r : Reading) (h : r.flag_matches) :
    (read_header r).2.flag_matches := by
  unfold read_header
  dsimp only
  exact flag_matches_get_next_short _ (flag_matches_get_next_word _
    (flag_matches_get_next_byte _ (flag_matches_get_next_short _
      (flag_matches_get_next_short _ (flag_matches_get_next_word _
        (flag_matches_get_next_word _ (flag_matches_read_name _ _ _ h)))))))

theorem flag_matches_read_data_block (block_length block_flag : Nat) (r : Reading)
    (h : r.flag_matches) : (read_data_block block_length block_flag r).2.flag_matches := by
  have hd : (read_data block_length { r with parser := r.parser.reset_crc }).2.flag_matches :=
    flag_matches_read_data _ _ h
  unfold read_data_block
  dsimp only
  split
  · exact flag_matches_get_next_short _ hd
  · exact hd

theorem flag_matches_read_record (p : Parser) : (read_record ⟨p, []⟩).2.flag_matches := by
  unfold read_record
  dsimp only
  exact flag_matches_read_data_block _ _ _ (flag_matches_read_header _ rfl)

end StaticAnalyser.Acorn

namespace StaticAnalyser.Acorn

open Storage

theorem read_data_spec (c : Nat) (r : Reading) :
    ∃ bs : List Int, (read_data c r).2.bytes_read = r.bytes_read ++ bs ∧ bs.length = c ∧
      (read_data c r).1 = bs.map toU8 ∧
      ((∀ b ∈ bs, b ≠ -1) →
        (∀ b ∈ bs, 0 ≤ b ∧ b < 256) ∧
          (read_data c r).2.parser.crc = (bs.map toU8).foldl Parser.crc_add r.parser.crc) := by
  induction c generalizing r with
  | zero => exact ⟨[], by simp [read_data], rfl, rfl, fun _ => ⟨by simp, rfl⟩⟩
  | succ n ih =>
    obtain ⟨bs, h1, h2, h3, h4⟩ := ih r.get_next_byte.2
    refine ⟨r.get_next_byte.1 :: bs, ?_, by simp [h2], ?_, ?_⟩
    · unfold read_data
      dsimp only
      rw [h1]
      simp [Reading.get_next_byte]
    · unfold read_data
      dsimp only
      rw [h3]
      rfl
    · intro hall
      have hb : r.parser.get_next_byte.1 ≠ -1 := hall _ (List.mem_cons_self _ _)
      obtain ⟨hr, hc⟩ := h4 (fun b hb => hall b (List.mem_cons_of_mem _ hb))
      obtain ⟨g0, g1, g2⟩ := (get_next_byte_spec r.parser).2.2 hb
      constructor
      · intro b hmem
        rcases List.mem_cons.mp hmem with h | h
        · rw [h]; exact ⟨g0, g1⟩
        · exact hr b h
      · unfold read_data
        dsimp only
        rw [hc]
        simp only [List.map_cons, List.foldl_cons]
        have e : r.get_next_byte.2.parser.crc =
            Parser.crc_add r.parser.crc (toU8 r.get_next_byte.1) := g2
        rw [e]

theorem get_next_short_spec (r : Reading) :
    r.get_next_short.2.bytes_read =
        r.bytes_read ++ [r.get_next_byte.1, r.get_next_byte.2.get_next_byte.1] ∧
      r.get_next_short.1 =
        int_or r.get_next_byte.1 (int_shl r.get_next_byte.2.get_next_byte.1 8) ∧
      (r.get_next_byte.1 ≠ -1 → 0 ≤ r.get_next_byte.1 ∧ r.get_next_byte.1 < 256) ∧
      (r.get_next_byte.2.get_next_byte.1 ≠ -1 →
        0 ≤ r.get_next_byte.2.get_next_byte.1 ∧ r.get_next_byte.2.get_next_byte.1 < 256) := by
  refine ⟨?_, rfl, ?_, ?_⟩
  · simp [Reading.get_next_short, Reading.get_next_byte]
  · intro h
    have := (get_next_byte_spec r.parser).2.2 h
    exact ⟨this.1, this.2.1⟩
  · intro h
    have := (get_next_byte_spec r.get_next_byte.2.parser).2.2 h
    exact ⟨this.1, this.2.1⟩

theorem swap_of_read_bytes (b0 b1 : Int) (h0 : 0 ≤ b0 ∧ b0 < 256) (h1 : 0 ≤ b1 ∧ b1 < 256) :
    swap_bytes (toU16 (int_or b0 (int_shl b1 8))) = 256 * toU8 b0 + toU8 b1 := by
  have e0 : b0 = ((toU8 b0 : Nat) : Int) := by unfold toU8; omega
  have e1 : b1 = ((toU8 b1 : Nat) : Int) := by unfold toU8; omega
  have l0 : toU8 b0 < 256 := by unfold toU8; omega
  have l1 : toU8 b1 < 256 := by unfold toU8; omega
  have := (short_of_bytes (toU8 b0) (toU8 b1) l0 l1).2
  rw [← e0, ← e1] at this
  exact this

/-- The data part of a record: the bytes read are the data bytes and then, when the
length is not zero and flag bit 0x40 is clear, the two bytes of the stored CRC. -/
theorem read_data_block_spec (block_length block_flag : Nat) (r : Reading) :
    ∃ data_bytes crc_bytes : List Int,
      (read_data_block block_length block_flag r).2.bytes_read =
          r.bytes_read ++ data_bytes ++ crc_bytes ∧
        data_bytes.length = block_length ∧
        (read_data_block block_length block_flag r).1.1 = data_bytes.map toU8 ∧
        ((block_length = 0 ∨ block_flag &&& 0x40 ≠ 0) →
          crc_bytes = [] ∧ (read_data_block block_length block_flag r).1.2 = true) ∧
        ((∀ b ∈ data_bytes ++ crc_bytes, b ≠ -1) →
          (∀ b ∈ data_bytes, 0 ≤ b ∧ b < 256) ∧
          ((block_length ≠ 0 ∧ block_flag &&& 0x40 = 0) →
            ∃ hi lo : Int, crc_bytes = [hi, lo] ∧ (0 ≤ hi ∧ hi < 256) ∧ (0 ≤ lo ∧ lo < 256) ∧
              (read_data_block block_length block_flag r).1.2 =
                decide (256 * toU8 hi + toU8 lo =
                  (data_bytes.map toU8).foldl Parser.crc_add 0))) := by
  obtain ⟨bs, h1, h2, h3, h4⟩ := read_data_spec block_length
    { r with parser := r.parser.reset_crc }
  by_cases hc : block_length ≠ 0 ∧ block_flag &&& 0x40 = 0
  · obtain ⟨s1, s2, s3, s4⟩ := get_next_short_spec
      (read_data block_length { r with parser := r.parser.reset_crc }).2
    refine ⟨bs,
      [(read_data block_length { r with parser := r.parser.reset_crc }).2.get_next_byte.1,
        (read_data block_length
          { r with parser := r.parser.reset_crc }).2.get_next_byte.2.get_next_byte.1],
      ?_, h2, ?_, ?_, ?_⟩
    · unfold read_data_block
      dsimp only
      rw [if_pos hc]
      dsimp only
      rw [s1, h1]
    · unfold read_data_block
      dsimp only
      rw [if_pos hc]
      exact h3
    · intro hno
      exfalso
      rcases hno with h | h
      · exact hc.1 h
      · exact h hc.2
    · intro hall
      have hbs : ∀ b ∈ bs, b ≠ -1 := fun b hb => hall b (List.mem_append_left _ hb)
      obtain ⟨hr, hcrc⟩ := h4 hbs
      refine ⟨hr, fun _ => ⟨_, _, rfl, ?_, ?_, ?_⟩⟩
      · exact s3 (hall _ (List.mem_append_right _ (List.mem_cons_self _ _)))
      · exact s4 (hall _ (List.mem_append_right _
          (List.mem_cons_of_mem _ (List.mem_cons_self _ _))))
      · have g0 := s3 (hall _ (List.mem_append_right _ (List.mem_cons_self _ _)))
        have g1 := s4 (hall _ (List.mem_append_right _
          (List.mem_cons_of_mem _ (List.mem_cons_self _ _))))
        unfold read_data_block
        dsimp only
        rw [if_pos hc]
        dsimp only
        rw [s2, swap_of_read_bytes _ _ g0 g1]
        simp only [Parser.get_crc, hcrc]
        rfl
  · refine ⟨bs, [], ?_, h2, ?_, ?_, ?_⟩
    · unfold read_data_block
      dsimp only
      rw [if_neg hc, h1]
      simp
    · unfold read_data_block
      dsimp only
      rw [if_neg hc]
      exact h3
    · intro _
      refine ⟨rfl, ?_⟩
      unfold read_data_block
      dsimp only
      rw [if_neg hc]
    · intro hall
      have hbs : ∀ b ∈ bs, b ≠ -1 := fun b hb => hall b (List.mem_append_left _ hb)
      exact ⟨(h4 hbs).1, fun h => absurd h hc⟩

end StaticAnalyser.Acorn

namespace StaticAnalyser.Acorn

open Storage

theorem reads_refl (r : Reading) : r.reads r [] := by
  refine ⟨by simp, fun _ => ⟨by simp, rfl⟩⟩

theorem reads_trans (r r1 r2 : Reading) (bs cs : List Int) (h1 : r.reads r1 bs)
    (h2 : r1.reads r2 cs) : r.reads r2 (bs ++ cs) := by
  refine ⟨by rw [h2.1, h1.1, List.append_assoc], ?_⟩
  intro hall
  obtain ⟨a1, a2⟩ := h1.2 (fun b hb => hall b (List.mem_append_left _ hb))
  obtain ⟨b1, b2⟩ := h2.2 (fun b hb => hall b (List.mem_append_right _ hb))
  refine ⟨?_, ?_⟩
  · intro b hb
    rcases List.mem_append.1 hb with h | h
    · exact a1 b h
    · exact b1 b h
  · rw [b2, a2, List.map_append, List.foldl_append]

theorem reads_get_next_byte (r : Reading) : r.reads r.get_next_byte.2 [r.get_next_byte.1] := by
  refine ⟨rfl, ?_⟩
  intro hall
  have hne : r.parser.get_next_byte.1 ≠ -1 := hall _ (List.mem_singleton.2 rfl)
  obtain ⟨h1, h2, h3⟩ := (get_next_byte_spec r.parser).2.2 hne
  refine ⟨?_, ?_⟩
  · intro b hb
    rw [List.mem_singleton.1 hb]
    exact ⟨h1, h2⟩
  · exact h3

theorem reads_get_next_short (r : Reading) :
    r.reads r.get_next_short.2 [r.get_next_byte.1, r.get_next_byte.2.get_next_byte.1] :=
  reads_trans r r.get_next_byte.2 r.get_next_byte.2.get_next_byte.2 [_] [_]
    (reads_get_next_byte r) (reads_get_next_byte r.get_next_byte.2)

theorem reads_get_next_short_ex (r : Reading) : ∃ bs, r.reads r.get_next_short.2 bs :=
  ⟨_, reads_get_next_short r⟩

theorem reads_get_next_word (r : Reading) : ∃ bs, r.reads r.get_next_word.2 bs := by
  obtain ⟨bs, h1⟩ := reads_get_next_short_ex r
  obtain ⟨cs, h2⟩ := reads_get_next_short_ex r.get_next_short.2
  exact ⟨bs ++ cs, reads_trans _ _ _ _ _ h1 h2⟩

theorem reads_read_name (room : Nat) (name : List Nat) (r : Reading) :
    ∃ bs, r.reads (read_name room name r).2 bs := by
  induction room generalizing name r with
  | zero => exact ⟨[], reads_refl r⟩
  | succ room ih =>
    unfold read_name
    dsimp only
    split
    · exact ⟨[], reads_refl r⟩
    · split
      · exact ⟨_, reads_get_next_byte r⟩
      · obtain ⟨cs, h⟩ := ih (name ++ [toU8 r.get_next_byte.1]) r.get_next_byte.2
        exact ⟨_ ++ cs, reads_trans _ _ _ _ _ (reads_get_next_byte r) h⟩

/-- The header part of a record: the bytes read are the header bytes and then the
two bytes of the stored CRC, and when no read fails `header_crc_matched` tells
whether these two bytes, high byte first, are the CRC of the header bytes. -/
theorem read_header_spec (r : Reading) :
    ∃ (header_bytes : List Int) (hi lo : Int),
      (read_header r).2.bytes_read = r.bytes_read ++ header_bytes ++ [hi, lo] ∧
        ((∀ b ∈ header_bytes ++ [hi, lo], b ≠ -1) →
          (read_header r).1.header_crc_matched =
            decide (256 * toU8 hi + toU8 lo =
              (header_bytes.map toU8).foldl Parser.crc_add r.parser.crc)) := by
  obtain ⟨b0, h0⟩ := reads_read_name 11 [] r
  obtain ⟨b1, h1⟩ := reads_get_next_word (read_name 11 [] r).2
  obtain ⟨b2, h2⟩ := reads_get_next_word (read_name 11 [] r).2.get_next_word.2
  obtain ⟨b3, h3⟩ := reads_get_next_short_ex
    (read_name 11 [] r).2.get_next_word.2.get_next_word.2
  obtain ⟨b4, h4⟩ := reads_get_next_short_ex
    (read_name 11 [] r).2.get_next_word.2.get_next_word.2.get_next_short.2
  have h5 := reads_get_next_byte
    (read_name 11 [] r).2.get_next_word.2.get_next_word.2.get_next_short.2.get_next_short.2
  obtain ⟨b6, h6⟩ := reads_get_next_word
    (read_name 11 [] r).2.get_next_word.2.get_next_word.2.get_next_short.2.get_next_short.2.get_next_byte.2
  have hall := reads_trans _ _ _ _ _ (reads_trans _ _ _ _ _ (reads_trans _ _ _ _ _
    (reads_trans _ _ _ _ _ (reads_trans _ _ _ _ _ (reads_trans _ _ _ _ _ h0 h1) h2) h3) h4) h5) h6
  generalize hbs : b0 ++ b1 ++ b2 ++ b3 ++ b4 ++
    [(read_name 11 []
      r).2.get_next_word.2.get_next_word.2.get_next_short.2.get_next_short.2.get_next_byte.1] ++
    b6 = header_bytes at hall
  obtain ⟨s1, s2, s3, s4⟩ := get_next_short_spec
    (read_name 11 [] r).2.get_next_word.2.get_next_word.2.get_next_short.2.get_next_short.2.get_next_byte.2.get_next_word.2
  refine ⟨header_bytes,
    (read_name 11 []
      r).2.get_next_word.2.get_next_word.2.get_next_short.2.get_next_short.2.get_next_byte.2.get_next_word.2.get_next_byte.1,
    (read_name 11 []
      r).2.get_next_word.2.get_next_word.2.get_next_short.2.get_next_short.2.get_next_byte.2.get_next_word.2.get_next_byte.2.get_next_byte.1,
    ?_, ?_⟩
  · unfold read_header
    dsimp only
    rw [s1, hall.1]
  · intro hno
    obtain ⟨_, hcrc⟩ := hall.2 (fun b hb => hno b (List.mem_append_left _ hb))
    have n1 := hno _ (List.mem_append_right _ (List.mem_cons_self _ _))
    have n2 := hno _ (List.mem_append_right _ (List.mem_cons_of_mem _ (List.mem_singleton.2 rfl)))
    unfold read_header
    dsimp only
    rw [s2, swap_of_read_bytes _ _ (s3 n1) (s4 n2)]
    unfold Parser.get_crc
    rw [hcrc]

end StaticAnalyser.Acorn

namespace StaticAnalyser.Acorn

open Storage

theorem pull_pulses_tape_le (tape : List Pulse) (p : Parser) :
    (Parser.pull_pulses tape p).tape.length ≤ tape.length := by
  induction tape generalizing p with
  | nil => simp [Parser.pull_pulses]
  | cons pulse rest ih =>
    unfold Parser.pull_pulses
    split
    · simp
    · exact Nat.le_succ_of_le (ih _)

theorem pull_pulses_tape_lt (pulse : Pulse) (rest : List Pulse) (p : Parser)
    (h : p.has_next_symbol = false) :
    (Parser.pull_pulses (pulse :: rest) p).tape.length ≤ rest.length := by
  unfold Parser.pull_pulses
  rw [if_neg (by simp [h])]
  exact pull_pulses_tape_le _ _

/-- A call of `get_next_bit` with the tape not at its end brings `marker_rounds`
down. -/
theorem marker_rounds_get_next_bit (p : Parser) (h : p.is_at_end = false) :
    marker_rounds p.get_next_bit.2 < marker_rounds p := by
  unfold marker_rounds Parser.get_next_bit Parser.get_next_symbol
  dsimp only
  cases ht : p.tape with
  | nil => simp [Parser.is_at_end, ht] at h
  | cons pulse rest =>
    cases hs : p.has_next_symbol with
    | true =>
      have e : Parser.pull_pulses (pulse :: rest) p = { p with tape := pulse :: rest } := by
        unfold Parser.pull_pulses
        rw [if_pos hs]
      rw [e]
      simp
    | false =>
      have := pull_pulses_tape_lt pulse rest p hs
      simp only [List.length_cons, Bool.false_eq_true, if_false]
      omega

theorem marker_rounds_zero (p : Parser) (h : marker_rounds p = 0) : p.is_at_end = true := by
  unfold marker_rounds at h
  have : p.tape.length = 0 := by omega
  simp [Parser.is_at_end, List.length_eq_zero.1 this]

/-- Each marker loop ends within `marker_rounds` rounds, and leaves no more to
do than it found. -/
theorem shift_until_ends (target rounds shift_register : Nat) (p : Parser)
    (h : marker_rounds p ≤ rounds) :
    ∃ found : Nat × Parser, shift_until target rounds shift_register p = some found ∧
      marker_rounds found.2 ≤ marker_rounds p := by
  induction rounds generalizing shift_register p with
  | zero =>
    have hend := marker_rounds_zero p (by omega)
    exact ⟨(shift_register, p), by simp [shift_until, hend], Nat.le_refl _⟩
  | succ rounds ih =>
    unfold shift_until
    split
    · rename_i hc
      have hnot : p.is_at_end = false := by
        cases he : p.is_at_end with
        | false => rfl
        | true => simp [he] at hc
      have hlt := marker_rounds_get_next_bit p hnot
      obtain ⟨found, h1, h2⟩ := ih
        ((shift_register >>> 1) ||| (p.get_next_bit.1 <<< 9)) p.get_next_bit.2 (by omega)
      exact ⟨found, h1, by omega⟩
    · exact ⟨(shift_register, p), rfl, Nat.le_refl _⟩

/-- More rounds do not change what a marker loop that ended has found. -/
theorem shift_until_more_rounds (target rounds more shift_register : Nat) (p : Parser)
    (found : Nat × Parser) (h : shift_until target rounds shift_register p = some found) :
    shift_until target (rounds + more) shift_register p = some found := by
  induction rounds generalizing shift_register p with
  | zero =>
    unfold shift_until at h
    split at h
    · cases h
    · rename_i hc
      cases more with
      | zero => simp only [Nat.add_zero]; unfold shift_until; rw [if_neg hc]; exact h
      | succ more => simp only [Nat.zero_add]; unfold shift_until; rw [if_neg hc]; exact h
  | succ rounds ih =>
    rw [Nat.add_right_comm]
    unfold shift_until at h ⊢
    split
    · rename_i hc
      rw [if_pos hc] at h
      exact ih _ _ h
    · rename_i hc
      rw [if_neg hc] at h
      exact h

/-- The marker loops of `GetNextChunk` end within `marker_rounds` rounds each. -/
theorem find_marker_ends (rounds : Nat) (p : Parser) (h : marker_rounds p ≤ rounds) :
    ∃ p1, find_marker rounds p = some p1 := by
  obtain ⟨high, h1, h2⟩ := shift_until_ends 0x3ff rounds 0 p h
  obtain ⟨marker, h3, _⟩ := shift_until_ends 0x254 rounds high.1 high.2 (by omega)
  exact ⟨marker.2, by simp [find_marker, h1, h3]⟩

theorem find_marker_more_rounds (rounds more : Nat) (p p1 : Parser)
    (h : find_marker rounds p = some p1) : find_marker (rounds + more) p = some p1 := by
  unfold find_marker at h ⊢
  cases h1 : shift_until 0x3ff rounds 0 p with
  | none => simp [h1] at h
  | some high =>
    rw [h1] at h
    dsimp only at h
    rw [shift_until_more_rounds _ _ more _ _ _ h1]
    dsimp only
    cases h2 : shift_until 0x254 rounds high.1 high.2 with
    | none => simp [h2] at h
    | some marker =>
      rw [h2] at h
      rw [shift_until_more_rounds _ _ more _ _ _ h2]
      exact h

/-- With enough rounds the marker loops find what they find with `marker_rounds`
rounds: the bound does not enter the result. -/
theorem find_marker_of_enough (rounds : Nat) (p : Parser) (h : marker_rounds p ≤ rounds) :
    ∃ p1, find_marker (marker_rounds p) p = some p1 ∧ find_marker rounds p = some p1 := by
  obtain ⟨p1, h1⟩ := find_marker_ends (marker_rounds p) p (Nat.le_refl _)
  refine ⟨p1, h1, ?_⟩
  have := find_marker_more_rounds (marker_rounds p) (rounds - marker_rounds p) p p1 h1
  rwa [Nat.add_sub_cancel' h] at this

end StaticAnalyser.Acorn

namespace StaticAnalyser.Acorn

open Storage

theorem get_next_bytes_add (a b : Nat) (p : Parser) :
    p.get_next_bytes (a + b) =
      ((p.get_next_bytes a).1 ++ ((p.get_next_bytes a).2.get_next_bytes b).1,
        ((p.get_next_bytes a).2.get_next_bytes b).2) := by
  induction a generalizing p with
  | zero => simp [Parser.get_next_bytes]
  | succ a ih =>
    rw [Nat.add_right_comm]
    simp only [Parser.get_next_bytes, ih, List.cons_append]

theorem get_next_bytes_length (n : Nat) (p : Parser) : (p.get_next_bytes n).1.length = n := by
  induction n generalizing p with
  | zero => rfl
  | succ n ih => simp [Parser.get_next_bytes, ih]

/-- Entry `a` of the results of `n` reads is the result of the read made after the
first `a`. -/
theorem get_next_bytes_getD (a n : Nat) (p : Parser) (h : a < n) :
    (p.get_next_bytes n).1.getD a 0 = (p.get_next_bytes a).2.get_next_byte.1 := by
  obtain ⟨b, rfl⟩ : ∃ b, n = a + (b + 1) := ⟨n - a - 1, by omega⟩
  rw [get_next_bytes_add]
  simp only [List.getD_eq_getElem?_getD]
  rw [List.getElem?_append_right (by rw [get_next_bytes_length]),
    get_next_bytes_length, Nat.sub_self]
  simp [Parser.get_next_bytes]

theorem after_reads_zero (r : Reading) : r.after_reads 0 = r := by
  simp [Reading.after_reads, Parser.get_next_bytes]

theorem after_reads_add (r : Reading) (a b : Nat) :
    (r.after_reads a).after_reads b = r.after_reads (a + b) := by
  simp only [Reading.after_reads, get_next_bytes_add, List.append_assoc]

theorem get_next_byte_after (r : Reading) : r.get_next_byte.2 = r.after_reads 1 := rfl

theorem get_next_byte_value (r : Reading) (n : Nat) :
    (r.after_reads n).get_next_byte.1 = (r.parser.get_next_bytes n).2.get_next_byte.1 := rfl

theorem get_next_short_after (r : Reading) : r.get_next_short.2 = r.after_reads 2 := by
  have e : r.get_next_short.2 = r.get_next_byte.2.get_next_byte.2 := rfl
  rw [e, get_next_byte_after, get_next_byte_after, after_reads_add]

theorem get_next_word_after (r : Reading) : r.get_next_word.2 = r.after_reads 4 := by
  have e : r.get_next_word.2 = r.get_next_short.2.get_next_short.2 := rfl
  rw [e, get_next_short_after, get_next_short_after, after_reads_add]

theorem read_name_after (room : Nat) (name : List Nat) (r : Reading) :
    (read_name room name r).2 = r.after_reads (name_reads room r.parser) := by
  induction room generalizing name r with
  | zero => exact (after_reads_zero r).symm
  | succ room ih =>
    unfold read_name name_reads
    dsimp only
    split
    · exact (after_reads_zero r).symm
    · have ev : r.get_next_byte.1 = r.parser.get_next_byte.1 := rfl
      rw [ev]
      split
      · rfl
      · rw [ih, get_next_byte_after, after_reads_add]
        rfl

theorem read_data_after (c : Nat) (r : Reading) : (read_data c r).2 = r.after_reads c := by
  induction c generalizing r with
  | zero => exact (after_reads_zero r).symm
  | succ c ih =>
    have e : (read_data (c + 1) r).2 = (read_data c r.get_next_byte.2).2 := rfl
    rw [e, ih, get_next_byte_after, after_reads_add, Nat.add_comm]

theorem get_next_short_value (r : Reading) (n m : Nat) (h : n + 1 < m) :
    (r.after_reads n).get_next_short.1 =
      int_or ((r.parser.get_next_bytes m).1.getD n 0)
        (int_shl ((r.parser.get_next_bytes m).1.getD (n + 1) 0) 8) := by
  rw [get_next_bytes_getD n m _ (by omega), get_next_bytes_getD (n + 1) m _ h]
  have e : (r.after_reads n).get_next_short.1 =
      int_or (r.after_reads n).get_next_byte.1
        (int_shl (r.after_reads n).get_next_byte.2.get_next_byte.1 8) := rfl
  rw [e, get_next_byte_after, after_reads_add]
  rfl

/-- The header part of `GetNextChunk` makes the reads of the name and 19 more, and
takes the block length and the flag from reads 10 to 12 after the name. -/
theorem read_header_after (r : Reading) :
    (read_header r).2 = r.after_reads (name_reads 11 r.parser + 19) ∧
      (read_header r).1.block_length =
        toU16 (int_or
          ((r.parser.get_next_bytes (name_reads 11 r.parser + 19)).1.getD
            (name_reads 11 r.parser + 10) 0)
          (int_shl ((r.parser.get_next_bytes (name_reads 11 r.parser + 19)).1.getD
            (name_reads 11 r.parser + 11) 0) 8)) ∧
      (read_header r).1.block_flag =
        toU8 ((r.parser.get_next_bytes (name_reads 11 r.parser + 19)).1.getD
          (name_reads 11 r.parser + 12) 0) := by
  have hname := read_name_after 11 [] r
  generalize name_reads 11 r.parser = k at hname ⊢
  unfold read_header
  dsimp only
  rw [hname]
  simp only [get_next_word_after, get_next_short_after, get_next_byte_after, after_reads_add]
  refine ⟨trivial, ?_, ?_⟩
  · have e : k + 4 + 4 + 2 = k + 10 := by omega
    rw [e, get_next_short_value r (k + 10) (k + 19) (by omega)]
  · have e : k + 4 + 4 + 2 + 2 = k + 12 := by omega
    rw [e, get_next_bytes_getD (k + 12) (k + 19) _ (by omega)]
    rfl

end StaticAnalyser.Acorn

namespace StaticAnalyser.Acorn

open Storage

theorem read_data_block_after (block_length block_flag : Nat) (r : Reading) :
    (read_data_block block_length block_flag r).2 =
      ({ r with parser := r.parser.reset_crc } : Reading).after_reads
        (block_length + if block_length ≠ 0 ∧ block_flag &&& 0x40 = 0 then 2 else 0) := by
  unfold read_data_block
  dsimp only
  split
  · rw [get_next_short_after, read_data_after, after_reads_add]
  · rw [read_data_after, Nat.add_zero]

theorem read_record_eq_block (p1 : Parser) : (read_record ⟨p1, []⟩).2 =
      (read_data_block (read_header ⟨p1.reset_crc.reset_error_flag, []⟩).1.block_length
        (read_header ⟨p1.reset_crc.reset_error_flag, []⟩).1.block_flag
        (read_header ⟨p1.reset_crc.reset_error_flag, []⟩).2).2 := by
    unfold read_record
    dsimp only

theorem read_header_reads (p1 : Parser) :
    (read_header ⟨p1.reset_crc.reset_error_flag, []⟩).2 =
        { parser := (record_header_reads p1).2, bytes_read := (record_header_reads p1).1 } ∧
      (read_header ⟨p1.reset_crc.reset_error_flag, []⟩).1.block_length =
        record_block_length p1 ∧
      (read_header ⟨p1.reset_crc.reset_error_flag, []⟩).1.block_flag =
        record_block_flag p1 := by
  obtain ⟨h1, h2, h3⟩ := read_header_after ⟨p1.reset_crc.reset_error_flag, []⟩
  dsimp only at h1 h2 h3
  refine ⟨?_, h2, h3⟩
  rw [h1]
  unfold Reading.after_reads record_header_reads
  simp only [List.nil_append]

/-- The reads that `GetNextChunk` makes after the marker are the byte reads of the
record as the specification lists them: the results recorded are those of these
`get_next_byte` calls in order, and the parser left is the one they leave. -/
theorem read_record_reads (p1 : Parser) :
    (read_record ⟨p1, []⟩).2 =
      { parser := (record_byte_reads p1).2, bytes_read := (record_byte_reads p1).1 } := by
  obtain ⟨h1, h2, h3⟩ := read_header_reads p1
  rw [read_record_eq_block, read_data_block_after, h1, h2, h3]
  rfl

end StaticAnalyser.Acorn

namespace StaticAnalyser.Acorn

open Storage

theorem read_record_leaves (p1 : Parser) :
    (read_record ⟨p1, []⟩).2.parser = (record_byte_reads p1).2 := by
  rw [read_record_reads]

theorem read_record_bytes_read (p1 : Parser) :
    (read_record ⟨p1, []⟩).2.bytes_read = (record_byte_reads p1).1 := by
  rw [read_record_reads]

theorem GetNextChunk_of_marker (rounds : Nat) (p p1 : Parser)
    (h : find_marker rounds p = some p1) :
    GetNextChunk rounds p = some ((read_record ⟨p1, []⟩).1, (record_byte_reads p1).2) := by
  unfold GetNextChunk
  rw [h]
  dsimp only
  rw [read_record_leaves]

/-- The error flag at the end of the reads of a record tells whether one of them
returned -1. -/
theorem record_byte_reads_flag (p1 : Parser) :
    (record_byte_reads p1).2.get_error_flag = true ↔ -1 ∈ (record_byte_reads p1).1 := by
  have h := flag_matches_read_record p1
  unfold Reading.flag_matches at h
  rw [read_record_leaves, read_record_bytes_read] at h
  unfold Parser.get_error_flag
  rw [h, List.any_eq_true]
  constructor
  · rintro ⟨b, hb, hd⟩
    have : b = -1 := by simpa using hd
    rw [← this]; exact hb
  · intro hm
    exact ⟨-1, hm, by simp⟩

theorem read_record_none_iff (p1 : Parser) :
    (read_record ⟨p1, []⟩).1 = none ↔ (record_byte_reads p1).2.get_error_flag = true := by
  have e : (read_record ⟨p1, []⟩).1 =
      if (read_record ⟨p1, []⟩).2.parser.get_error_flag then none
      else some { (read_header ⟨p1.reset_crc.reset_error_flag, []⟩).1 with
        data_crc_matched := (read_data_block
          (read_header ⟨p1.reset_crc.reset_error_flag, []⟩).1.block_length
          (read_header ⟨p1.reset_crc.reset_error_flag, []⟩).1.block_flag
          (read_header ⟨p1.reset_crc.reset_error_flag, []⟩).2).1.2
        data := (read_data_block
          (read_header ⟨p1.reset_crc.reset_error_flag, []⟩).1.block_length
          (read_header ⟨p1.reset_crc.reset_error_flag, []⟩).1.block_flag
          (read_header ⟨p1.reset_crc.reset_error_flag, []⟩).2).1.1 } := by
    unfold read_record
    dsimp only
  rw [e, read_record_leaves]
  split
  · rename_i h; simp [h]
  · rename_i h; simp [h]

end StaticAnalyser.Acorn

namespace StaticAnalyser.Acorn

open Storage

/-- C13: with rounds enough for its marker loops to end, which `marker_rounds`
are, `GetNextChunk` returns, the bound not entering the result. The byte reads it
makes after the marker are the successive `get_next_byte` calls of
`record_byte_reads` (the name, addresses, block number, block length, flag, next
address and header CRC, then the data bytes and the data CRC), started with the
error flag reset, and it returns no chunk exactly when one of these calls returned
-1, which is also exactly when the error flag is set at the return. Entry `i` of
the results of successive calls is the result of the call made after the first
`i`; a call returns -1 exactly when its start bit is One or its stop bit is Zero,
and the error flag after any call is the flag before it or-ed with that failure,
so that only such a call raises it and no call clears it. -/
theorem GetNextChunk_none_iff (rounds : Nat) (p : Parser) (hrounds : marker_rounds p ≤ rounds) :
    (∃ (p1 : Parser) (chunk : Option Chunk),
      find_marker rounds p = some p1 ∧
      GetNextChunk rounds p = some (chunk, (record_byte_reads p1).2) ∧
      GetNextChunk (marker_rounds p) p = GetNextChunk rounds p ∧
      (chunk = none ↔ -1 ∈ (record_byte_reads p1).1) ∧
      ((record_byte_reads p1).2.get_error_flag = true ↔ -1 ∈ (record_byte_reads p1).1)) ∧
    (∀ (q : Parser) (n i : Nat), i < n →
      (q.get_next_bytes n).1.getD i 0 = (q.get_next_bytes i).2.get_next_byte.1) ∧
    (∀ q : Parser,
      (q.get_next_byte.1 = -1 ↔
        (q.get_next_bit.1 = 1 ∨
          (Parser.get_next_bit (Parser.get_data_bits 8 0 q.get_next_bit.2).2).1 = 0)) ∧
      q.get_next_byte.2.error_flag = (q.error_flag || decide (q.get_next_byte.1 = -1))) := by
  obtain ⟨p1, h0, h1⟩ := find_marker_of_enough rounds p hrounds
  refine ⟨⟨p1, (read_record ⟨p1, []⟩).1, h1, GetNextChunk_of_marker rounds p p1 h1, ?_, ?_,
    record_byte_reads_flag p1⟩, fun q n i h => get_next_bytes_getD i n q h, ?_⟩
  · rw [GetNextChunk_of_marker rounds p p1 h1, GetNextChunk_of_marker _ p p1 h0]
  · rw [read_record_none_iff, record_byte_reads_flag]
  · intro q
    exact ⟨(get_next_byte_spec q).1, (get_next_byte_spec q).2.1⟩

set_option maxRecDepth 1000000 in
theorem find_marker_whole_record :
    find_marker (marker_rounds (Parser.on_tape (tape_of_record record_with_bad_data_crc)))
        (Parser.on_tape (tape_of_record record_with_bad_data_crc)) =
      some (after_marker record_with_bad_data_crc) := by
  decide

set_option maxRecDepth 1000000 in
theorem record_byte_reads_whole_record :
    (record_byte_reads (after_marker record_with_bad_data_crc)).1 =
      [65, 0, 120, 86, 52, 18, 1, 2, 3, 4, 5, 0, 1, 0, 1, 0, 0, 0, 0, 38, 70, 153, 18, 145] := by
  decide

set_option maxRecDepth 1000000 in
theorem find_marker_cut_short :
    find_marker (marker_rounds (Parser.on_tape (tape_of_record record_without_data)))
        (Parser.on_tape (tape_of_record record_without_data)) =
      some (after_marker record_without_data) := by
  decide

set_option maxRecDepth 1000000 in
theorem record_byte_reads_cut_short :
    (record_byte_reads (after_marker record_without_data)).1 =
      [65, 0, 120, 86, 52, 18, 1, 2, 3, 4, 5, 0, 1, 0, 1, 0, 0, 0, 0, 38, 70, -1, -1, -1] := by
  decide

/-- Both sides, on the tape of a whole record and on a tape that ends after the
header CRC of a record of one data byte. From the first a chunk is returned, its 24
byte reads being those of the bytes on the tape; from the second no chunk is
returned: the three reads that follow the header CRC see the last symbol of the
tape, a One, as their start bit and return -1. -/
theorem GetNextChunk_none_iff_witness :
    (∃ (chunk : Chunk) (left : Parser),
      GetNextChunk (marker_rounds (Parser.on_tape (tape_of_record record_with_bad_data_crc)))
          (Parser.on_tape (tape_of_record record_with_bad_data_crc)) =
        some (some chunk, left) ∧
      (record_byte_reads (after_marker record_with_bad_data_crc)).1 =
        [65, 0, 120, 86, 52, 18, 1, 2, 3, 4, 5, 0, 1, 0, 1, 0, 0, 0, 0, 38, 70, 153, 18,
          145]) ∧
    (∃ left : Parser,
      GetNextChunk (marker_rounds (Parser.on_tape (tape_of_record record_without_data)))
          (Parser.on_tape (tape_of_record record_without_data)) =
        some (none, left) ∧
      (record_byte_reads (after_marker record_without_data)).1 =
        [65, 0, 120, 86, 52, 18, 1, 2, 3, 4, 5, 0, 1, 0, 1, 0, 0, 0, 0, 38, 70, -1, -1,
          -1]) := by
  constructor
  · obtain ⟨p1, chunk, hm, hg, _, hiff, _⟩ := (GetNextChunk_none_iff
      (marker_rounds (Parser.on_tape (tape_of_record record_with_bad_data_crc)))
      (Parser.on_tape (tape_of_record record_with_bad_data_crc)) (Nat.le_refl _)).1
    have hp1 : p1 = after_marker record_with_bad_data_crc :=
      Option.some.inj (hm.symm.trans find_marker_whole_record)
    subst hp1
    rw [record_byte_reads_whole_record] at hiff
    cases chunk with
    | none => exact absurd (hiff.1 rfl) (by decide)
    | some c => exact ⟨c, _, hg, record_byte_reads_whole_record⟩
  · obtain ⟨p1, chunk, hm, hg, _, hiff, _⟩ := (GetNextChunk_none_iff
      (marker_rounds (Parser.on_tape (tape_of_record record_without_data)))
      (Parser.on_tape (tape_of_record record_without_data)) (Nat.le_refl _)).1
    have hp1 : p1 = after_marker record_without_data :=
      Option.some.inj (hm.symm.trans find_marker_cut_short)
    subst hp1
    rw [record_byte_reads_cut_short] at hiff
    have hnone : chunk = none := hiff.2 (by decide)
    subst hnone
    exact ⟨_, hg, record_byte_reads_cut_short⟩

end StaticAnalyser.Acorn

namespace StaticAnalyser.Acorn

open Storage

theorem GetNextChunk_framed_of_marker (rounds : Nat) (p p1 : Parser)
    (hmarker : find_marker rounds p = some p1)
    (hframed : ∀ b ∈ (read_record ⟨p1, []⟩).2.bytes_read, b ≠ -1) :
    ∃ (chunk : Chunk) (header_bytes : List Int) (header_hi header_lo : Int)
        (data_bytes crc_bytes : List Int),
      GetNextChunk rounds p = some (some chunk, (read_record ⟨p1, []⟩).2.parser) ∧
      (read_record ⟨p1, []⟩).2.bytes_read =
        header_bytes ++ [header_hi, header_lo] ++ data_bytes ++ crc_bytes ∧
      chunk.header_crc_matched =
        decide (256 * toU8 header_hi + toU8 header_lo =
          (header_bytes.map toU8).foldl Parser.crc_add 0) ∧
      data_bytes.length = chunk.block_length ∧
      (∀ b ∈ data_bytes, 0 ≤ b ∧ b < 256) ∧
      chunk.data = data_bytes.map toU8 ∧
      ((chunk.block_length = 0 ∨ chunk.block_flag &&& 0x40 ≠ 0) →
        crc_bytes = [] ∧ chunk.data_crc_matched = true) ∧
      ((chunk.block_length ≠ 0 ∧ chunk.block_flag &&& 0x40 = 0) →
        ∃ hi lo : Int, crc_bytes = [hi, lo] ∧ (0 ≤ hi ∧ hi < 256) ∧ (0 ≤ lo ∧ lo < 256) ∧
          chunk.data_crc_matched =
            decide (256 * toU8 hi + toU8 lo = chunk.data.foldl Parser.crc_add 0)) ∧
      chunk.block_length =
        (read_header { (⟨p1, []⟩ : Reading) with
          parser := p1.reset_crc.reset_error_flag }).1.block_length ∧
      chunk.block_flag =
        (read_header { (⟨p1, []⟩ : Reading) with
          parser := p1.reset_crc.reset_error_flag }).1.block_flag := by
  have hflag := flag_matches_read_record p1
  unfold Reading.flag_matches at hflag
  have hno : (read_record ⟨p1, []⟩).2.parser.error_flag = false := by
    rw [hflag, List.any_eq_false]
    intro b hb
    simpa using hframed b hb
  obtain ⟨header_bytes, header_hi, header_lo, hh1, hh2⟩ :=
    read_header_spec { (⟨p1, []⟩ : Reading) with parser := p1.reset_crc.reset_error_flag }
  have hzero : ({ (⟨p1, []⟩ : Reading) with
      parser := p1.reset_crc.reset_error_flag } : Reading).parser.crc = 0 := rfl
  have hnil : ({ (⟨p1, []⟩ : Reading) with
      parser := p1.reset_crc.reset_error_flag } : Reading).bytes_read = [] := rfl
  rw [hzero] at hh2
  rw [hnil, List.nil_append] at hh1
  obtain ⟨data_bytes, crc_bytes, hd1, hd2, hd3, hd4, hd5⟩ := read_data_block_spec
    (read_header
      { (⟨p1, []⟩ : Reading) with parser := p1.reset_crc.reset_error_flag }).1.block_length
    (read_header
      { (⟨p1, []⟩ : Reading) with parser := p1.reset_crc.reset_error_flag }).1.block_flag
    (read_header { (⟨p1, []⟩ : Reading) with parser := p1.reset_crc.reset_error_flag }).2
  have hrec : read_record ⟨p1, []⟩ =
      (if (read_data_block
          (read_header { (⟨p1, []⟩ : Reading) with
            parser := p1.reset_crc.reset_error_flag }).1.block_length
          (read_header { (⟨p1, []⟩ : Reading) with
            parser := p1.reset_crc.reset_error_flag }).1.block_flag
          (read_header { (⟨p1, []⟩ : Reading) with
            parser := p1.reset_crc.reset_error_flag }).2).2.parser.get_error_flag then none
        else some { (read_header { (⟨p1, []⟩ : Reading) with
            parser := p1.reset_crc.reset_error_flag }).1 with
          data_crc_matched := (read_data_block
            (read_header { (⟨p1, []⟩ : Reading) with
              parser := p1.reset_crc.reset_error_flag }).1.block_length
            (read_header { (⟨p1, []⟩ : Reading) with
              parser := p1.reset_crc.reset_error_flag }).1.block_flag
            (read_header { (⟨p1, []⟩ : Reading) with
              parser := p1.reset_crc.reset_error_flag }).2).1.2
          data := (read_data_block
            (read_header { (⟨p1, []⟩ : Reading) with
              parser := p1.reset_crc.reset_error_flag }).1.block_length
            (read_header { (⟨p1, []⟩ : Reading) with
              parser := p1.reset_crc.reset_error_flag }).1.block_flag
            (read_header { (⟨p1, []⟩ : Reading) with
              parser := p1.reset_crc.reset_error_flag }).2).1.1 },
        (read_data_block
          (read_header { (⟨p1, []⟩ : Reading) with
            parser := p1.reset_crc.reset_error_flag }).1.block_length
          (read_header { (⟨p1, []⟩ : Reading) with
            parser := p1.reset_crc.reset_error_flag }).1.block_flag
          (read_header { (⟨p1, []⟩ : Reading) with
            parser := p1.reset_crc.reset_error_flag }).2).2) := rfl
  unfold GetNextChunk
  rw [hmarker]
  dsimp only
  rw [hrec] at hno hframed ⊢
  generalize read_header { (⟨p1, []⟩ : Reading) with
    parser := p1.reset_crc.reset_error_flag } = hdr at *
  generalize read_data_block hdr.1.block_length hdr.1.block_flag hdr.2 = body at *
  dsimp only at hno hframed ⊢
  have hno2 : body.2.parser.get_error_flag = false := hno
  rw [hno2]
  have hlog : body.2.bytes_read =
      header_bytes ++ [header_hi, header_lo] ++ data_bytes ++ crc_bytes := by
    rw [hd1, hh1]
  rw [hlog] at hframed
  have hhdr := hh2 (fun b hb => hframed b
    (List.mem_append_left _ (List.mem_append_left _ hb)))
  obtain ⟨hrange, hcrc⟩ := hd5 (fun b hb => hframed b (by
    rw [List.append_assoc]
    exact List.mem_append_right _ hb))
  refine ⟨{ hdr.1 with data_crc_matched := body.1.2, data := body.1.1 }, header_bytes,
    header_hi, header_lo, data_bytes, crc_bytes, ?_, hlog, hhdr, hd2, hrange, hd3, hd4, ?_,
    rfl, rfl⟩
  · simp
  · intro hc
    obtain ⟨hi, lo, e1, e2, e3, e4⟩ := hcrc hc
    refine ⟨hi, lo, e1, e2, e3, ?_⟩
    dsimp only
    rw [e4, hd3]

/-- C12: with rounds enough for its marker loops to end, which `marker_rounds`
are, `GetNextChunk` finds its marker, and when none of the byte reads it then makes
(the `get_next_byte` calls of `record_byte_reads`) returns -1, it returns a chunk,
whatever the CRCs are. The reads are the header bytes, the two bytes of the header
CRC, `block_length` data bytes, and the bytes of the data CRC, the block length and
the flag of the chunk being those read in the header. The data of the chunk are
the data bytes, and its `header_crc_matched` tells whether the two header CRC
bytes, high byte first, are the CRC from zero of the header bytes. When
`block_length` is 0 or flag bit 0x40 is set there are no data CRC bytes and
`data_crc_matched` is true; otherwise there are two, and `data_crc_matched` tells
whether, high byte first, they are the CRC from zero of the data bytes. -/
theorem GetNextChunk_data_crc (rounds : Nat) (p : Parser) (hrounds : marker_rounds p ≤ rounds) :
    ∃ p1 : Parser, find_marker rounds p = some p1 ∧
      GetNextChunk (marker_rounds p) p = GetNextChunk rounds p ∧
      ((∀ b ∈ (record_byte_reads p1).1, b ≠ -1) →
        ∃ (chunk : Chunk) (header_bytes : List Int) (header_hi header_lo : Int)
            (data_bytes crc_bytes : List Int),
          GetNextChunk rounds p = some (some chunk, (record_byte_reads p1).2) ∧
          (record_byte_reads p1).1 =
            header_bytes ++ [header_hi, header_lo] ++ data_bytes ++ crc_bytes ∧
          chunk.block_length = record_block_length p1 ∧
          chunk.block_flag = record_block_flag p1 ∧
          chunk.header_crc_matched =
            decide (256 * toU8 header_hi + toU8 header_lo =
              (header_bytes.map toU8).foldl Parser.crc_add 0) ∧
          data_bytes.length = chunk.block_length ∧
          (∀ b ∈ data_bytes, 0 ≤ b ∧ b < 256) ∧
          chunk.data = data_bytes.map toU8 ∧
          ((chunk.block_length = 0 ∨ chunk.block_flag &&& 0x40 ≠ 0) →
            crc_bytes = [] ∧ chunk.data_crc_matched = true) ∧
          ((chunk.block_length ≠ 0 ∧ chunk.block_flag &&& 0x40 = 0) →
            ∃ hi lo : Int, crc_bytes = [hi, lo] ∧ (0 ≤ hi ∧ hi < 256) ∧
              (0 ≤ lo ∧ lo < 256) ∧
              chunk.data_crc_matched =
                decide (256 * toU8 hi + toU8 lo = chunk.data.foldl Parser.crc_add 0))) := by
  obtain ⟨p1, h0, h1⟩ := find_marker_of_enough rounds p hrounds
  refine ⟨p1, h1, ?_, ?_⟩
  · rw [GetNextChunk_of_marker rounds p p1 h1, GetNextChunk_of_marker _ p p1 h0]
  · intro hframed
    rw [← read_record_bytes_read] at hframed
    obtain ⟨chunk, header_bytes, header_hi, header_lo, data_bytes, crc_bytes, c1, c2, c3, c4,
      c5, c6, c7, c8, c9, c10⟩ := GetNextChunk_framed_of_marker rounds p p1 h1 hframed
    obtain ⟨_, r2, r3⟩ := read_header_reads p1
    have hstart : ({ (⟨p1, []⟩ : Reading) with
        parser := p1.reset_crc.reset_error_flag } : Reading) =
        ⟨p1.reset_crc.reset_error_flag, []⟩ := rfl
    rw [hstart] at c9 c10
    rw [read_record_leaves] at c1
    rw [read_record_bytes_read] at c2
    exact ⟨chunk, header_bytes, header_hi, header_lo, data_bytes, crc_bytes, c1, c2,
      c9.trans r2, c10.trans r3, c3, c4, c5, c6, c7, c8⟩

set_option maxRecDepth 1000000 in
theorem GetNextChunk_whole_record :
    (GetNextChunk (marker_rounds (Parser.on_tape (tape_of_record record_with_bad_data_crc)))
        (Parser.on_tape (tape_of_record record_with_bad_data_crc))).map
        (fun r => r.1.map fun c =>
          (c.header_crc_matched, c.data_crc_matched, c.data, c.block_length, c.block_flag)) =
      some (some (true, false, [0x99], 1, 1)) := by
  decide

set_option maxRecDepth 1000000 in
theorem marker_rounds_whole_record :
    marker_rounds (Parser.on_tape (tape_of_record record_with_bad_data_crc)) = 1348 := by
  decide

/-- A record whose header CRC matches and whose data CRC does not (the tape has
0x1291, the CRC of the data byte 0x99 is 0x1290): no read returns -1 and the chunk
is returned with `header_crc_matched` true and `data_crc_matched` false. -/
theorem GetNextChunk_data_crc_witness :
    marker_rounds (Parser.on_tape (tape_of_record record_with_bad_data_crc)) ≤ 1348 ∧
    (∀ b ∈ (record_byte_reads (after_marker record_with_bad_data_crc)).1, b ≠ -1) ∧
    (∃ (chunk : Chunk) (header_bytes : List Int) (header_hi header_lo : Int)
        (data_bytes crc_bytes : List Int),
      GetNextChunk 1348 (Parser.on_tape (tape_of_record record_with_bad_data_crc)) =
        some (some chunk, (record_byte_reads (after_marker record_with_bad_data_crc)).2) ∧
      (record_byte_reads (after_marker record_with_bad_data_crc)).1 =
        header_bytes ++ [header_hi, header_lo] ++ data_bytes ++ crc_bytes ∧
      chunk.block_length = record_block_length (after_marker record_with_bad_data_crc) ∧
      chunk.block_flag = record_block_flag (after_marker record_with_bad_data_crc) ∧
      chunk.header_crc_matched =
        decide (256 * toU8 header_hi + toU8 header_lo =
          (header_bytes.map toU8).foldl Parser.crc_add 0) ∧
      data_bytes.length = chunk.block_length ∧
      (∀ b ∈ data_bytes, 0 ≤ b ∧ b < 256) ∧
      chunk.data = data_bytes.map toU8 ∧
      ((chunk.block_length = 0 ∨ chunk.block_flag &&& 0x40 ≠ 0) →
        crc_bytes = [] ∧ chunk.data_crc_matched = true) ∧
      ((chunk.block_length ≠ 0 ∧ chunk.block_flag &&& 0x40 = 0) →
        ∃ hi lo : Int, crc_bytes = [hi, lo] ∧ (0 ≤ hi ∧ hi < 256) ∧ (0 ≤ lo ∧ lo < 256) ∧
          chunk.data_crc_matched =
            decide (256 * toU8 hi + toU8 lo = chunk.data.foldl Parser.crc_add 0))) ∧
    (GetNextChunk (marker_rounds (Parser.on_tape (tape_of_record record_with_bad_data_crc)))
        (Parser.on_tape (tape_of_record record_with_bad_data_crc))).map
        (fun r => r.1.map fun c =>
          (c.header_crc_matched, c.data_crc_matched, c.data, c.block_length, c.block_flag)) =
      some (some (true, false, [0x99], 1, 1)) := by
  have hrounds : marker_rounds (Parser.on_tape (tape_of_record record_with_bad_data_crc)) ≤
      1348 := Nat.le_of_eq marker_rounds_whole_record
  have hframed : ∀ b ∈ (record_byte_reads (after_marker record_with_bad_data_crc)).1,
      b ≠ -1 := by
    rw [record_byte_reads_whole_record]
    decide
  obtain ⟨p1, hm, hsame, h⟩ := GetNextChunk_data_crc 1348
    (Parser.on_tape (tape_of_record record_with_bad_data_crc)) hrounds
  have hm0 := find_marker_more_rounds _
    (1348 - marker_rounds (Parser.on_tape (tape_of_record record_with_bad_data_crc))) _ _
    find_marker_whole_record
  rw [Nat.add_sub_cancel' hrounds] at hm0
  have hp1 : p1 = after_marker record_with_bad_data_crc := Option.some.inj (hm.symm.trans hm0)
  subst hp1
  exact ⟨hrounds, hframed, h hframed, GetNextChunk_whole_record⟩

end StaticAnalyser.Acorn

namespace StaticAnalyser.Acorn

open Storage

theorem get_next_symbol_at_end (p : Parser) (h : p.is_at_end = true) :
    p.get_next_symbol = (p.next_symbol, { p with tape := [], has_next_symbol := false }) := by
  have ht : p.tape = [] := by simpa [Parser.is_at_end] using h
  simp [Parser.get_next_symbol, ht, Parser.pull_pulses]

theorem get_next_bit_at_end (p : Parser) (h : p.is_at_end = true) :
    p.get_next_bit.1 = (if p.next_symbol = SymbolType.One then 1 else 0) ∧
      p.get_next_bit.2.is_at_end = true ∧ p.get_next_bit.2.next_symbol = p.next_symbol ∧
      p.get_next_bit.2.error_flag = p.error_flag := by
  have ht : p.tape = [] := by simpa [Parser.is_at_end] using h
  simp [Parser.get_next_bit, get_next_symbol_at_end p h, Parser.is_at_end]

theorem get_next_bits_at_end (n : Nat) (p : Parser) (h : p.is_at_end = true) :
    (p.get_next_bits n).1 =
        List.replicate n (if p.next_symbol = SymbolType.One then 1 else 0) ∧
      (p.get_next_bits n).2.is_at_end = true := by
  induction n generalizing p with
  | zero => exact ⟨rfl, h⟩
  | succ n ih =>
    obtain ⟨h1, h2, h3, _⟩ := get_next_bit_at_end p h
    obtain ⟨i1, i2⟩ := ih p.get_next_bit.2 h2
    unfold Parser.get_next_bits
    dsimp only
    rw [i1, h1, h3]
    exact ⟨rfl, i2⟩

theorem get_data_bits_at_end (c value : Nat) (p : Parser) (h : p.is_at_end = true)
    (hzero : p.next_symbol = SymbolType.Zero) :
    (Parser.get_data_bits c value p).2.is_at_end = true ∧
      (Parser.get_data_bits c value p).2.next_symbol = SymbolType.Zero := by
  induction c generalizing value p with
  | zero => exact ⟨h, hzero⟩
  | succ c ih =>
    obtain ⟨_, h2, h3, _⟩ := get_next_bit_at_end p h
    unfold Parser.get_data_bits
    exact ih _ _ h2 (h3.trans hzero)

theorem get_data_bits_at_end_any (c value : Nat) (p : Parser) (h : p.is_at_end = true) :
    (Parser.get_data_bits c value p).2.is_at_end = true := by
  induction c generalizing value p with
  | zero => exact h
  | succ c ih =>
    unfold Parser.get_data_bits
    exact ih _ _ (get_next_bit_at_end p h).2.1

/-- A byte read that starts with the tape at its end fails: the start bit and the
stop bit are the same symbol. -/
theorem get_next_byte_at_end (p : Parser) (h : p.is_at_end = true) :
    p.get_next_byte.1 = -1 ∧ p.get_next_byte.2.error_flag = true ∧
      p.get_next_byte.2.is_at_end = true := by
  obtain ⟨s1, s2, s3, _⟩ := get_next_bit_at_end p h
  have hspec := get_next_byte_spec p
  have hfail : p.get_next_byte.1 = -1 := by
    rw [hspec.1]
    cases hsym : p.next_symbol with
    | One => left; rw [s1, hsym]; rfl
    | Zero =>
      right
      obtain ⟨d1, d2⟩ := get_data_bits_at_end 8 0 p.get_next_bit.2 s2 (s3.trans hsym)
      rw [(get_next_bit_at_end _ d1).1, d2]
      rfl
  refine ⟨hfail, ?_, ?_⟩
  · rw [hspec.2.1, hfail]; simp
  · unfold Parser.get_next_byte
    dsimp only
    split
    · simp only [Parser.is_at_end] at s2 ⊢
      exact s2
    · have d := get_data_bits_at_end_any 8 0 p.get_next_bit.2 s2
      have e := (get_next_bit_at_end _ d).2.1
      split
      · simp only [Parser.is_at_end] at e ⊢
        exact e
      · simp only [Parser.is_at_end, Parser.add_to_crc] at e ⊢
        exact e

end StaticAnalyser.Acorn

namespace StaticAnalyser.Acorn

open Storage

theorem reading_byte_at_end (r : Reading) (h : r.parser.is_at_end = true) :
    r.get_next_byte.2.parser.is_at_end = true :=
  (get_next_byte_at_end r.parser h).2.2

theorem reading_short_at_end (r : Reading) (h : r.parser.is_at_end = true) :
    r.get_next_short.2.parser.is_at_end = true :=
  reading_byte_at_end r.get_next_byte.2 (reading_byte_at_end r h)

theorem reading_word_at_end (r : Reading) (h : r.parser.is_at_end = true) :
    r.get_next_word.2.parser.is_at_end = true :=
  reading_short_at_end r.get_next_short.2 (reading_short_at_end r h)

theorem read_name_at_end (room : Nat) (name : List Nat) (r : Reading)
    (h : r.parser.is_at_end = true) : (read_name room name r).2 = r := by
  cases room with
  | zero => rfl
  | succ room =>
    unfold read_name
    rw [if_pos h]

theorem read_data_at_end (c : Nat) (r : Reading) (h : r.parser.is_at_end = true) :
    (read_data c r).2.parser.is_at_end = true := by
  induction c generalizing r with
  | zero => exact h
  | succ c ih =>
    unfold read_data
    exact ih _ (reading_byte_at_end r h)

theorem read_header_fields_at_end (r : Reading) (h : r.parser.is_at_end = true) :
    (read_header_fields r).parser.is_at_end = true := by
  unfold read_header_fields
  rw [read_name_at_end 11 [] r h]
  exact reading_word_at_end _ (reading_byte_at_end _ (reading_short_at_end _
    (reading_short_at_end _ (reading_word_at_end _ (reading_word_at_end _ h)))))

theorem read_header_eq (r : Reading) :
    (read_header r).2 = (read_header_fields r).get_next_short.2 := rfl

theorem read_header_at_end (r : Reading) (h : r.parser.is_at_end = true) :
    (read_header r).2.parser.is_at_end = true := by
  rw [read_header_eq]
  exact reading_short_at_end _ (read_header_fields_at_end r h)

theorem read_data_succ (c : Nat) (r : Reading) :
    (read_data (c + 1) r).2 = (read_data c r).2.get_next_byte.2 := by
  induction c generalizing r with
  | zero => rfl
  | succ c ih =>
    have e : (read_data (c + 1 + 1) r).2 = (read_data (c + 1) r.get_next_byte.2).2 := rfl
    rw [e, ih r.get_next_byte.2]
    rfl

/-- The tape stays at its end from the marker to the last byte read. -/
theorem before_last_read_at_end (p1 : Parser) (h : p1.is_at_end = true) :
    (before_last_read p1).is_at_end = true := by
  have hstart : ({ parser := p1.reset_crc.reset_error_flag, bytes_read := [] } :
      Reading).parser.is_at_end = true := by
    simpa [Parser.is_at_end, Parser.reset_crc, Parser.reset_error_flag] using h
  have hheader := read_header_at_end _ hstart
  have hreset : ∀ r : Reading, r.parser.is_at_end = true →
      ({ r with parser := r.parser.reset_crc } : Reading).parser.is_at_end = true :=
    fun _ hr => hr
  have hdata := hreset _ hheader
  unfold before_last_read
  dsimp only
  split
  · exact reading_byte_at_end _ (read_data_at_end _ _ hdata)
  · split
    · exact read_data_at_end _ _ hdata
    · exact reading_byte_at_end _ (read_header_fields_at_end _ hstart)

/-- The last byte read that `read_record` records is the one made on
`before_last_read`. -/
theorem last_read_recorded (p1 : Parser) :
    ∃ earlier : List Int,
      (read_record ⟨p1, []⟩).2.bytes_read =
          earlier ++ [(before_last_read p1).get_next_byte.1] ∧
        ((read_record ⟨p1, []⟩).2.parser = (before_last_read p1).get_next_byte.2 ∨
          (read_record ⟨p1, []⟩).2.parser =
            (before_last_read p1).get_next_byte.2.reset_crc) := by
  unfold read_record before_last_read read_data_block
  dsimp only
  by_cases hc : (read_header ⟨p1.reset_crc.reset_error_flag, []⟩).1.block_length ≠ 0 ∧
      (read_header ⟨p1.reset_crc.reset_error_flag, []⟩).1.block_flag &&& 0x40 = 0
  · rw [if_pos hc, if_pos hc]
    dsimp only
    generalize read_header ⟨p1.reset_crc.reset_error_flag, []⟩ = header
    generalize read_data header.1.block_length
      { parser := header.2.parser.reset_crc, bytes_read := header.2.bytes_read } = data
    refine ⟨data.2.bytes_read ++ [data.2.get_next_byte.1], ?_, Or.inl rfl⟩
    rw [(get_next_short_spec _).1]
    simp [Reading.get_next_byte]
  · rw [if_neg hc, if_neg hc]
    dsimp only
    by_cases hlen : (read_header ⟨p1.reset_crc.reset_error_flag, []⟩).1.block_length ≠ 0
    · rw [if_pos hlen]
      obtain ⟨m, hm⟩ := Nat.exists_eq_succ_of_ne_zero hlen
      rw [hm, Nat.succ_eq_add_one, Nat.add_sub_cancel, read_data_succ]
      exact ⟨_, rfl, Or.inl rfl⟩
    · rw [if_neg hlen]
      have h0 : (read_header ⟨p1.reset_crc.reset_error_flag, []⟩).1.block_length = 0 := by
        simpa using hlen
      rw [h0]
      refine ⟨(read_header_fields ⟨p1.reset_crc.reset_error_flag, []⟩).bytes_read ++
        [(read_header_fields ⟨p1.reset_crc.reset_error_flag, []⟩).get_next_byte.1], ?_, ?_⟩
      swap
      · right
        have ep : (read_data 0
            { parser := (read_header ⟨p1.reset_crc.reset_error_flag, []⟩).2.parser.reset_crc,
              bytes_read :=
                (read_header ⟨p1.reset_crc.reset_error_flag, []⟩).2.bytes_read }).2.parser
            = (read_header ⟨p1.reset_crc.reset_error_flag, []⟩).2.parser.reset_crc := rfl
        rw [ep, read_header_eq]
        generalize read_header_fields ⟨p1.reset_crc.reset_error_flag, []⟩ = fields
        rfl
      have e : (read_data 0
          { parser := (read_header ⟨p1.reset_crc.reset_error_flag, []⟩).2.parser.reset_crc,
            bytes_read := (read_header ⟨p1.reset_crc.reset_error_flag, []⟩).2.bytes_read }).2.bytes_read
          = (read_header ⟨p1.reset_crc.reset_error_flag, []⟩).2.bytes_read := rfl
      rw [e, read_header_eq, (get_next_short_spec _).1]
      simp [Reading.get_next_byte]

end StaticAnalyser.Acorn

namespace StaticAnalyser.Acorn

open Storage

theorem read_record_none_of_failed_read (p1 : Parser)
    (h : -1 ∈ (read_record ⟨p1, []⟩).2.bytes_read) : (read_record ⟨p1, []⟩).1 = none := by
  have hflag := flag_matches_read_record p1
  unfold Reading.flag_matches at hflag
  have hset : (read_record ⟨p1, []⟩).2.parser.get_error_flag = true := by
    unfold Parser.get_error_flag
    rw [hflag, List.any_eq_true]
    exact ⟨-1, h, by simp⟩
  unfold read_record at hset ⊢
  dsimp only at hset ⊢
  rw [if_pos hset]

theorem read_record_none_of_exhausted (p1 : Parser)
    (hend : (before_last_read p1).is_at_end = true) : (read_record ⟨p1, []⟩).1 = none := by
  obtain ⟨earlier, hlog, _⟩ := last_read_recorded p1
  apply read_record_none_of_failed_read
  rw [hlog, (get_next_byte_at_end _ hend).1]
  simp

theorem shift_until_at_end (target rounds shift_register : Nat) (p : Parser)
    (h : p.is_at_end = true) :
    shift_until target rounds shift_register p = some (shift_register, p) := by
  cases rounds <;> simp [shift_until, h]

theorem find_marker_at_end (rounds : Nat) (p : Parser) (h : p.is_at_end = true) :
    find_marker rounds p = some p := by
  simp [find_marker, shift_until_at_end _ _ _ p h]

/-- C21, amended: with the tape at its end, any number of `get_next_bit` calls
return one and the same bit, that of the symbol the parser holds, and leave the
tape at its end; so a `get_next_byte` call started there returns -1 and raises the
error flag. With rounds enough for its marker loops to end, which `marker_rounds`
are, `GetNextChunk` finds its marker and returns, the bound not entering the
result. The last of the byte reads it then makes (the `get_next_byte` calls of
`record_byte_reads`) is the one on `before_last_read`, and when the tape is at its
end there, as it is when it was already at its end after the marker loops, no chunk
is returned. When the tape is at its end on entry no chunk is returned, whatever
the bound on the rounds. Nothing is said of a tape that ends inside the last byte
read. -/
theorem GetNextChunk_tape_exhausted (rounds : Nat) (p : Parser)
    (hrounds : marker_rounds p ≤ rounds) :
    (∀ q : Parser, q.is_at_end = true → ∀ n : Nat,
      (q.get_next_bits n).1 =
          List.replicate n (if q.next_symbol = SymbolType.One then 1 else 0) ∧
        (q.get_next_bits n).2.is_at_end = true) ∧
    (∀ q : Parser, q.is_at_end = true →
      q.get_next_byte.1 = -1 ∧ q.get_next_byte.2.error_flag = true ∧
        q.get_next_byte.2.is_at_end = true) ∧
    (∃ p1 : Parser, find_marker rounds p = some p1 ∧
      GetNextChunk (marker_rounds p) p = GetNextChunk rounds p ∧
      (∃ earlier : List Int,
        (record_byte_reads p1).1 = earlier ++ [(before_last_read p1).get_next_byte.1]) ∧
      ((record_byte_reads p1).2 = (before_last_read p1).get_next_byte.2 ∨
        (record_byte_reads p1).2 = (before_last_read p1).get_next_byte.2.reset_crc) ∧
      ((before_last_read p1).is_at_end = true →
        GetNextChunk rounds p = some (none, (record_byte_reads p1).2)) ∧
      (p1.is_at_end = true → (before_last_read p1).is_at_end = true)) ∧
    (p.is_at_end = true → ∀ bound : Nat,
      GetNextChunk bound p = some (none, (record_byte_reads p).2)) := by
  refine ⟨fun q hq n => get_next_bits_at_end n q hq, fun q hq => get_next_byte_at_end q hq,
    ?_, ?_⟩
  · obtain ⟨p1, h0, h1⟩ := find_marker_of_enough rounds p hrounds
    obtain ⟨earlier, hlog, hparser⟩ := last_read_recorded p1
    rw [read_record_bytes_read] at hlog
    rw [read_record_leaves] at hparser
    refine ⟨p1, h1, ?_, ⟨earlier, hlog⟩, hparser, ?_, before_last_read_at_end p1⟩
    · rw [GetNextChunk_of_marker rounds p p1 h1, GetNextChunk_of_marker _ p p1 h0]
    · intro hend
      rw [GetNextChunk_of_marker rounds p p1 h1, read_record_none_of_exhausted p1 hend]
  · intro hp bound
    rw [GetNextChunk_of_marker bound p p (find_marker_at_end bound p hp),
      read_record_none_of_exhausted p (before_last_read_at_end p hp)]

set_option maxRecDepth 1000000 in
theorem before_last_read_record_without_data :
    (before_last_read (after_marker record_without_data)).is_at_end = true ∧
      (after_marker record_without_data).is_at_end = false := by
  decide

set_option maxRecDepth 1000000 in
theorem marker_rounds_record_without_data :
    marker_rounds (Parser.on_tape (tape_of_record record_without_data)) = 1180 := by
  decide

/-- A tape that ends after the header CRC of a record of one data byte: 1180 rounds
are enough, the tape is not at its end after the marker, it is when the last byte
read starts, and no chunk is returned. -/
theorem GetNextChunk_tape_exhausted_witness :
    marker_rounds (Parser.on_tape (tape_of_record record_without_data)) ≤ 1180 ∧
    find_marker 1180 (Parser.on_tape (tape_of_record record_without_data)) =
      some (after_marker record_without_data) ∧
    ((before_last_read (after_marker record_without_data)).is_at_end = true ∧
      (after_marker record_without_data).is_at_end = false) ∧
    GetNextChunk 1180 (Parser.on_tape (tape_of_record record_without_data)) =
      some (none, (record_byte_reads (after_marker record_without_data)).2) := by
  have hrounds : marker_rounds (Parser.on_tape (tape_of_record record_without_data)) ≤
      1180 := Nat.le_of_eq marker_rounds_record_without_data
  obtain ⟨p1, hm, _, _, _, hnone, _⟩ := (GetNextChunk_tape_exhausted 1180
    (Parser.on_tape (tape_of_record record_without_data)) hrounds).2.2.1
  have hm0 := find_marker_more_rounds _
    (1180 - marker_rounds (Parser.on_tape (tape_of_record record_without_data))) _ _
    find_marker_cut_short
  rw [Nat.add_sub_cancel' hrounds] at hm0
  have hp1 : p1 = after_marker record_without_data := Option.some.inj (hm.symm.trans hm0)
  subst hp1
  exact ⟨hrounds, hm, before_last_read_record_without_data,
    hnone before_last_read_record_without_data.1⟩

set_option maxRecDepth 1000000 in
theorem tape_cut_in_last_byte_append :
    tape_cut_in_last_byte ++ (symbols_cut_off.map Parser.symbol_pulses).flatten =
      tape_of_record record_with_good_crcs := by
  decide

set_option maxRecDepth 1000000 in
theorem before_last_read_cut_in_last_byte :
    (find_marker 20 (Parser.on_tape tape_cut_in_last_byte)).map
        (fun p1 => (before_last_read p1).is_at_end) = some false := by
  decide

set_option maxRecDepth 1000000 in
theorem GetNextChunk_cut_in_last_byte :
    (GetNextChunk 20 (Parser.on_tape tape_cut_in_last_byte)).map
        (fun r => r.1.map fun c => (c.header_crc_matched, c.data_crc_matched, c.data)) =
      some (some (true, true, [0x1e])) := by
  decide

set_option maxRecDepth 1000000 in
theorem GetNextChunk_cut_in_last_byte_same :
    GetNextChunk 20 (Parser.on_tape tape_cut_in_last_byte) =
      GetNextChunk 20 (Parser.on_tape (tape_of_record record_with_good_crcs)) := by
  decide

/-- C21 fails in its last clause on a tape that ends inside the last byte read of a
record: the tape lacks bits 1 to 7 and the stop bit of the last byte (0xff, the low
byte of the data CRC), the last byte read starts before the tape is at its end, the
missing symbols are read as the last symbol of the tape, a One, and the chunk is
returned, with both CRCs matching, as it is from the whole tape. -/
theorem truncated_record_returned :
    tape_cut_in_last_byte ++ (symbols_cut_off.map Parser.symbol_pulses).flatten =
      tape_of_record record_with_good_crcs ∧
    symbols_cut_off.length = 8 ∧
    (find_marker 20 (Parser.on_tape tape_cut_in_last_byte)).map
        (fun p1 => (before_last_read p1).is_at_end) = some false ∧
    (GetNextChunk 20 (Parser.on_tape tape_cut_in_last_byte)).map
        (fun r => r.1.map fun c => (c.header_crc_matched, c.data_crc_matched, c.data)) =
      some (some (true, true, [0x1e])) ∧
    GetNextChunk 20 (Parser.on_tape tape_cut_in_last_byte) =
      GetNextChunk 20 (Parser.on_tape (tape_of_record record_with_good_crcs)) :=
  ⟨tape_cut_in_last_byte_append, rfl, before_last_read_cut_in_last_byte,
    GetNextChunk_cut_in_last_byte, GetNextChunk_cut_in_last_byte_same⟩

end StaticAnalyser.Acorn

namespace StaticAnalyser.Acorn

theorem accumulate_chunks_all (cs : List Chunk)
    (hnum : cs.map Chunk.block_number = List.range cs.length)
    (hlen : cs.length ≤ 65536)
    (hflag : ∀ c ∈ cs, c.block_flag &&& 0x80 = 0) :
    accumulate_chunks cs 0 [] = (some cs, []) := by
  rw [List.range_eq_range'] at hnum
  have h := accumulate_chunks_run cs [] 0 [] hnum hflag (by omega) (by omega)
  rw [List.append_nil] at h
  rw [h]
  simp [accumulate_chunks]

/-- C22: when the queue, its leading chunks with non-zero block number dropped,
consists of chunks `c0..cN` only, where `ci` has block number `i` and none has flag
bit 0x80, `GetNextFile` returns a file whose chunks are `c0..cN`, whose data is
their data concatenated, whose name and addresses are those of `c0` and whose
`is_protected` is bit 0x01 of the flag of `cN`, and leaves the queue empty. -/
theorem GetNextFile_queue_runs_out (dropped cs : List Chunk)
    (hdropped : ∀ c ∈ dropped, c.block_number ≠ 0)
    (hne : cs ≠ [])
    (hnum : cs.map Chunk.block_number = List.range cs.length)
    (hwidth : ∀ c ∈ cs, c.block_number < 65536)
    (hflag : ∀ c ∈ cs, c.block_flag &&& 0x80 = 0) :
    ∃ file, GetNextFile (dropped ++ cs) = (some file, []) ∧
      file.chunks = cs ∧
      file.data = (cs.map Chunk.data).flatten ∧
      some file.is_protected = cs.getLast?.map (fun c => decide (c.block_flag &&& 0x01 ≠ 0)) ∧
      some file.name = cs.head?.map Chunk.name ∧
      some file.load_address = cs.head?.map Chunk.load_address ∧
      some file.execution_address = cs.head?.map Chunk.execution_address := by
  rcases List.eq_nil_or_concat cs with h | ⟨init, last, h⟩
  · exact absurd h hne
  · rw [List.concat_eq_append] at h
    subst h
    have hnum1 : (init ++ [last]).map Chunk.block_number = List.range (init.length + 1) := by
      simpa using hnum
    obtain ⟨_, h2⟩ := numbered_split init last hnum1
    have hlast : last.block_number < 65536 := hwidth last (by simp)
    have hlen : (init ++ [last]).length ≤ 65536 := by
      simp only [List.length_append, List.length_singleton]
      omega
    have hacc := accumulate_chunks_all (init ++ [last]) hnum hlen hflag
    have hnum2 : (init ++ [last]).map Chunk.block_number =
        List.range' 0 (init ++ [last]).length := by
      rw [hnum, List.range_eq_range']
    obtain ⟨c, more, hcm, hc0⟩ := numbered_head (init ++ [last]) [] (by simp) hnum2
    rw [List.append_nil] at hcm
    obtain ⟨file, hfile, hc, hd, hp, hrest⟩ := assemble_file_append init last
    refine ⟨file, ?_, hc, hd, ?_, hrest⟩
    · rw [hcm, GetNextFile_of_block_zero dropped c more hdropped hc0, ← hcm, hacc]
      simp only [hfile]
    · rw [hp]
      simp

/-- A stray block 7, then blocks 0 and 1 with no last-block flag, and nothing
after them. -/
theorem GetNextFile_queue_runs_out_witness :
    ((∀ c ∈ [numbered_chunk 7 0 [9]], c.block_number ≠ 0) ∧
      [numbered_chunk 0 0x00 [1, 2], numbered_chunk 1 0x01 [3]] ≠ [] ∧
      [numbered_chunk 0 0x00 [1, 2], numbered_chunk 1 0x01 [3]].map Chunk.block_number =
        List.range [numbered_chunk 0 0x00 [1, 2], numbered_chunk 1 0x01 [3]].length ∧
      (∀ c ∈ [numbered_chunk 0 0x00 [1, 2], numbered_chunk 1 0x01 [3]],
        c.block_number < 65536) ∧
      (∀ c ∈ [numbered_chunk 0 0x00 [1, 2], numbered_chunk 1 0x01 [3]],
        c.block_flag &&& 0x80 = 0)) ∧
    (∃ file, GetNextFile ([numbered_chunk 7 0 [9]] ++
          [numbered_chunk 0 0x00 [1, 2], numbered_chunk 1 0x01 [3]]) = (some file, []) ∧
      file.chunks = [numbered_chunk 0 0x00 [1, 2], numbered_chunk 1 0x01 [3]] ∧
      file.data =
        ([numbered_chunk 0 0x00 [1, 2], numbered_chunk 1 0x01 [3]].map Chunk.data).flatten ∧
      some file.is_protected =
        [numbered_chunk 0 0x00 [1, 2], numbered_chunk 1 0x01 [3]].getLast?.map
          (fun c => decide (c.block_flag &&& 0x01 ≠ 0)) ∧
      some file.name =
        [numbered_chunk 0 0x00 [1, 2], numbered_chunk 1 0x01 [3]].head?.map Chunk.name ∧
      some file.load_address =
        [numbered_chunk 0 0x00 [1, 2], numbered_chunk 1 0x01 [3]].head?.map
          Chunk.load_address ∧
      some file.execution_address =
        [numbered_chunk 0 0x00 [1, 2], numbered_chunk 1 0x01 [3]].head?.map
          Chunk.execution_address) ∧
    GetNextFile [numbered_chunk 7 0 [9], numbered_chunk 0 0x00 [1, 2],
        numbered_chunk 1 0x01 [3]] =
      (some { name := [], load_address := 0, execution_address := 0, is_protected := true,
              data := [1, 2, 3],
              chunks := [numbered_chunk 0 0x00 [1, 2], numbered_chunk 1 0x01 [3]] }, []) :=
  ⟨⟨by decide, by decide, by decide, by decide, by decide⟩,
    GetNextFile_queue_runs_out [numbered_chunk 7 0 [9]]
      [numbered_chunk 0 0x00 [1, 2], numbered_chunk 1 0x01 [3]]
      (by decide) (by decide) (by decide) (by decide) (by decide),
    by decide⟩

end StaticAnalyser.Acorn
